import Mathlib

/-!
Verification of the reliverse/pathkit repository against its specification.

The development shallowly embeds the TypeScript sources:
  * `PK`   — the pure path algebra and alias table of `src/unnamed/part_005`
             (the pathkit implementation file);
  * `P6`   — the import/export statement scanner of `src/unnamed/part_006`
             (first version of `getFileImportsExports`);
  * `Dler` — the conversion engine of `src/deprecated/@dler/mod.ts`
             (`determineImportPathType`, the conversion mapping,
             `convertSingleImportPath`, and the `convertImportPaths`
             validation phase).

JavaScript strings are modelled as sequences of characters (`Str`), on
which all of the embedded code operates character-wise.  Fallible or
effectful surface behaviour (thrown `TypeError`s, the file system) is
modelled explicitly where a claim needs it.
-/

set_option maxRecDepth 4000

/-- Str models a JavaScript string as the sequence of its characters. -/
abbrev Str := List Char

/-- Converts a Lean string literal into the `Str` model. -/
def str (s : String) : Str := s.data

/-- Single quote character (code 39), written numerically. -/
def squote : Char := Char.ofNat 39

/-- Double quote character (code 34), written numerically. -/
def dquote : Char := Char.ofNat 34

/-- Backslash character (code 92), written numerically. -/
def bslash : Char := Char.ofNat 92

/-- JavaScript `String.prototype.startsWith`. -/
def jsStartsWith (s pre : Str) : Bool := pre.isPrefixOf s

/-- JavaScript `String.prototype.endsWith`. -/
def jsEndsWith (s suf : Str) : Bool := suf.isSuffixOf s

/-- Index of the last occurrence of a character, if any. -/
def lastIndexOfAux (c : Char) : Str → Option Nat
  | [] => none
  | x :: xs =>
    match lastIndexOfAux c xs with
    | some i => some (i + 1)
    | none => if x = c then some 0 else none

/-- JavaScript `String.prototype.lastIndexOf` for a single character:
the index of the last occurrence, or `-1`. -/
def jsLastIndexOf (s : Str) (c : Char) : Int :=
  match lastIndexOfAux c s with
  | none => -1
  | some i => (i : Int)

/-- JavaScript `String.prototype.split` on the slash character, keeping
empty pieces (as `"a//b".split("/")` does). -/
def splitSlash : Str → List Str
  | [] => [[]]
  | c :: cs =>
    if c = '/' then [] :: splitSlash cs
    else
      match splitSlash cs with
      | [] => [[c]]
      | p :: ps => (c :: p) :: ps

/-- Joins pieces with a slash: JavaScript `Array.prototype.join("/")`. -/
def joinSlash : List Str → Str
  | [] => []
  | [s] => s
  | s :: rest => s ++ '/' :: joinSlash rest

namespace PK

/-! Embedding of the pure path algebra of `src/unnamed/part_005`. -/

/-- True for `/` and for a backslash, the character class `[/\\]`. -/
def isSlashy (c : Char) : Bool := c = '/' ∨ c = bslash

/-- The test of `IS_ABSOLUTE_RE`, the regex
`^[/\\](?![/\\])|^[/\\]{2}(?!\.)|^[A-Za-z]:[/\\]` of part_005 line 28. -/
def isAbsoluteRe (s : Str) : Bool :=
  match s with
  | [] => false
  | [c1] => isSlashy c1
  | c1 :: c2 :: rest =>
    if isSlashy c1 && ! isSlashy c2 then true
    else if isSlashy c1 && isSlashy c2 then
      match rest with
      | '.' :: _ => false
      | _ => true
    else c1.isAlpha && c2 = ':' && (match rest with
      | c3 :: _ => isSlashy c3
      | [] => false)

/-- The test of `DRIVE_LETTER_RE`, the regex `^[A-Za-z]:$`. -/
def driveLetterRe (s : Str) : Bool :=
  match s with
  | [c1, c2] => c1.isAlpha ∧ c2 = ':'
  | _ => false

/-- The test of `UNC_REGEX`, the regex `^[/\\]{2}`. -/
def uncRe (s : Str) : Bool :=
  match s with
  | c1 :: c2 :: _ => isSlashy c1 ∧ isSlashy c2
  | _ => false

/-- Replacement of every backslash by a slash, `replace(/\\/g, "/")`. -/
def replaceBackslashes (s : Str) : Str :=
  s.map (fun c => if c = bslash then '/' else c)

/-- Replacement step of `DRIVE_LETTER_START_RE` (`^[A-Za-z]:\//`) with the
upper-cased match: upper-cases a leading `x:/` drive prefix. -/
def upperDriveStart (s : Str) : Str :=
  match s with
  | c1 :: c2 :: c3 :: rest =>
    if c1.isAlpha ∧ c2 = ':' ∧ c3 = '/' then c1.toUpper :: c2 :: c3 :: rest
    else s
  | _ => s

/-- normalizeWindowsPath of part_005 lines 63-69: backslashes are turned
into slashes and an initial `x:/` drive prefix is upper-cased; the empty
(falsy) string is returned unchanged. -/
def normalizeWindowsPath (input : Str) : Str :=
  if input = [] then input
  else upperDriveStart (replaceBackslashes input)

/-- Flushing of a finished segment inside `normalizeString` (part_005
lines 107-153): the body executed when the current character is a slash.
`seg` holds the characters since the previous slash (the source computes
it as `path.slice(lastSlash + 1, index)`; `seg = []` is the source's
`lastSlash === index - 1`), and `dots` mirrors the source's counter.
Returns the updated `res` and `lastSegmentLength`. -/
def flushSeg (allowAboveRoot : Bool) (res : Str) (lastSegmentLength : Nat)
    (dots : Int) (seg : Str) : Str × Nat :=
  if seg = [] ∨ dots = 1 then (res, lastSegmentLength)
  else if dots = 2 then
    if res.length < 2 ∨ lastSegmentLength ≠ 2 ∨
        ¬ jsEndsWith res (str ("..")) then
      if res.length > 2 then
        if jsLastIndexOf res '/' = -1 then ([], 0)
        else
          (res.take (jsLastIndexOf res '/').toNat,
            ((res.take (jsLastIndexOf res '/').toNat).length - 1 -
              jsLastIndexOf (res.take (jsLastIndexOf res '/').toNat) '/').toNat)
      else if res.length > 0 then ([], 0)
      else if allowAboveRoot then
        (if res.length > 0 then res ++ str ("/..") else str (".."), 2)
      else (res, lastSegmentLength)
    else if allowAboveRoot then
      (if res.length > 0 then res ++ str ("/..") else str (".."), 2)
    else (res, lastSegmentLength)
  else
    (if res.length > 0 then res ++ '/' :: seg else seg, seg.length)

/-- Character loop of `normalizeString` (part_005 lines 91-161).  The
loop's final iteration with a virtual trailing slash is the `cs = []`
case; when the last real character was a slash the source breaks
instead, which coincides with flushing the empty segment. -/
def normalizeStringGo (allowAboveRoot : Bool) :
    Str → Str → Nat → Int → Str → Str
  | [], res, lastSegmentLength, dots, seg =>
    (flushSeg allowAboveRoot res lastSegmentLength dots seg).1
  | c :: cs, res, lastSegmentLength, dots, seg =>
    if c = '/' then
      let p := flushSeg allowAboveRoot res lastSegmentLength dots seg
      normalizeStringGo allowAboveRoot cs p.1 p.2 0 []
    else if c = '.' ∧ dots ≠ -1 then
      normalizeStringGo allowAboveRoot cs res lastSegmentLength (dots + 1)
        (seg ++ [c])
    else
      normalizeStringGo allowAboveRoot cs res lastSegmentLength (-1)
        (seg ++ [c])

/-- normalizeString of part_005 lines 91-161: collapses `.`/`..`/empty
segments of a slash-separated path. -/
def normalizeString (path : Str) (allowAboveRoot : Bool) : Str :=
  normalizeStringGo allowAboveRoot path [] 0 0 []

/-- normalize of part_005 lines 168-210. -/
def normalize (path : Str) : Str :=
  if path.length = 0 then str (".")
  else
    let originalPath := path
    let p1 := normalizeWindowsPath path
    let isPathAbsolute := isAbsoluteRe p1
    let trailingSeparator := jsEndsWith p1 (str ("/"))
    let p2 := normalizeString p1 (¬ isPathAbsolute)
    if p2.length = 0 then
      if isPathAbsolute then str ("/")
      else if trailingSeparator ∧ originalPath.length > 0 ∧
          originalPath ≠ str (".") then str ("./")
      else str (".")
    else
      let p3 := if trailingSeparator ∧ ¬ jsEndsWith p2 (str ("/")) then
          p2 ++ ['/'] else p2
      let p4 := if driveLetterRe p3 ∧ p3.length = 2 then p3 ++ ['/'] else p3
      let normOriginal := replaceBackslashes originalPath
      if uncRe normOriginal then
        if jsStartsWith normOriginal (str ("//./")) then
          str ("//./") ++ (if jsStartsWith p4 (str ("/")) then p4.drop 1 else p4)
        else if jsStartsWith normOriginal (str ("//")) ∧
            ¬ jsStartsWith normOriginal (str ("//./")) then
          str ("//") ++ (if jsStartsWith p4 (str ("/")) then p4.drop 1 else p4)
        else if isPathAbsolute ∧ ¬ isAbsoluteRe p4 ∧ p4 ≠ str ("/") then
          '/' :: p4
        else p4
      else if isPathAbsolute ∧ ¬ isAbsoluteRe p4 ∧ p4 ≠ str ("/") then
        '/' :: p4
      else p4

/-- join of part_005 lines 215-234 (the `TypeError` guard lives in the
`JsVal` wrapper further below). -/
def join (segments : List Str) : Str :=
  if segments.length = 0 then str (".")
  else
    let joined := segments.foldl
      (fun acc segment =>
        if segment.length > 0 then
          (if acc.length = 0 then segment else acc ++ '/' :: segment)
        else acc) []
    if joined.length = 0 then str (".") else normalize joined

/-- cwd of part_005 lines 81-86: the process working directory with
backslashes replaced; the raw `process.cwd()` value is the `cwdS`
parameter threaded through `resolve` and `relative`. -/
def cwdFn (cwdS : Str) : Str := replaceBackslashes cwdS

/-- One iteration of the right-to-left accumulation loop of `resolve`
(part_005 lines 243-254); the flag records `resolvedAbsolute`. -/
def resolveStep (acc : Str × Bool) (path : Str) : Str × Bool :=
  if acc.2 then acc
  else if path.length = 0 then acc
  else
    let normalizedSegment := normalizeWindowsPath path
    (normalizedSegment ++ '/' :: acc.1, isAbsoluteRe normalizedSegment)

/-- resolve of part_005 lines 239-266, with the working directory as an
explicit parameter. -/
def resolve (cwdS : Str) (args : List Str) : Str :=
  let st := (args.reverse ++ [cwdFn cwdS]).foldl resolveStep ([], false)
  let resolvedPath := normalizeString st.1 (¬ st.2)
  if st.2 then
    (if isAbsoluteRe resolvedPath then resolvedPath else '/' :: resolvedPath)
  else if resolvedPath.length > 0 then resolvedPath
  else str (".")

/-- isAbsolute of part_005 lines 271-274 (string case). -/
def isAbsolute (p : Str) : Bool := isAbsoluteRe (normalizeWindowsPath p)

/-- Replacement of `ROOT_FOLDER_RE` (`^\/([A-Za-z]:)?$`) by `"$1"` used
inside `relative`: `/` becomes empty and `/X:` becomes `X:`; anything
else is unchanged. -/
def rootFolderReplace (s : Str) : Str :=
  match s with
  | ['/'] => []
  | ['/', c1, c2] => if c1.isAlpha ∧ c2 = ':' then [c1, c2] else s
  | _ => s

/-- Count of the common leading segments of two segment lists. -/
def commonSegmentsCount : List Str → List Str → Nat
  | a :: as, b :: bs => if a = b then commonSegmentsCount as bs + 1 else 0
  | _, _ => 0

/-- The Windows drive-mismatch test of `relative` (part_005 lines
325-334): both first segments are drive letters and they differ after
upper-casing. -/
def driveMismatchOf (fromSegments toSegments : List Str) : Bool :=
  match fromSegments.head?, toSegments.head? with
  | some a, some b =>
    driveLetterRe a && driveLetterRe b &&
      decide (a.map Char.toUpper ≠ b.map Char.toUpper)
  | _, _ => false

/-- Body of `relative` after its two initial `resolve` calls (part_005
lines 311-352); split out so the `TypeError`-aware wrapper below can
reuse it. -/
def relativeResolved (resolvedFrom resolvedTo : Str) : Str :=
  if resolvedFrom = resolvedTo then []
  else
    let fromSegments := (splitSlash (rootFolderReplace resolvedFrom)).filter
      (fun s => s ≠ [])
    let toSegments := (splitSlash (rootFolderReplace resolvedTo)).filter
      (fun s => s ≠ [])
    let driveMismatch : Bool := driveMismatchOf fromSegments toSegments
    if driveMismatch then
      resolvedTo
    else
      let c := commonSegmentsCount fromSegments toSegments
      let upSegments : List Str :=
        List.replicate (fromSegments.length - c) (str (".."))
      let downSegments := toSegments.drop c
      let result := joinSlash (upSegments ++ downSegments)
      if result.length > 0 then result else str (".")

/-- relative of part_005 lines 307-352, with the working directory as an
explicit parameter. -/
def relative (cwdS : Str) (fromP toP : Str) : Str :=
  relativeResolved (resolve cwdS [fromP]) (resolve cwdS [toP])

/-- dirname of part_005 lines 357-375 (string case). -/
def dirname (p : Str) : Str :=
  if p.length = 0 then str (".")
  else
    let normalizedPath := normalizeWindowsPath p
    match jsLastIndexOf normalizedPath '/' with
    | Int.negSucc _ =>
      if isAbsoluteRe normalizedPath then str ("/") else str (".")
    | Int.ofNat 0 => str ("/")
    | Int.ofNat k =>
      let dir := normalizedPath.take k
      if driveLetterRe dir ∧ dir.length = 2 then dir ++ ['/']
      else normalize dir

/-- extname of part_005 lines 287-302 (string case).  The dot search is
`lastIndexOf` inside the base part; an index `≤ 0` yields the empty
string. -/
def extname (p : Str) : Str :=
  let path := normalizeWindowsPath p
  let lastSlashIdx : Int :=
    match jsLastIndexOf path '/' with
    | Int.negSucc _ => 0
    | Int.ofNat k => Int.ofNat k
  let basePart := if lastSlashIdx = 0 then path
    else path.drop (lastSlashIdx.toNat + 1)
  if basePart = str (".") ∨ basePart = str ("..") then []
  else
    match jsLastIndexOf basePart '.' with
    | Int.negSucc _ => []
    | Int.ofNat 0 => []
    | Int.ofNat k => basePart.drop k

/-- basename of part_005 lines 399-425 (string case; the extension
argument is `none` when absent). -/
def basename (p : Str) (ext : Option Str) : Str :=
  let normalizedPath := normalizeWindowsPath p
  let endIdx := normalizedPath.length -
    (normalizedPath.reverse.takeWhile (· = '/')).length
  if endIdx = 0 then []
  else
    let upToEnd := normalizedPath.take endIdx
    let start : Nat :=
      match jsLastIndexOf upToEnd '/' with
      | Int.negSucc _ => 0
      | Int.ofNat k => k + 1
    let filename := (normalizedPath.take endIdx).drop start
    match ext with
    | none => filename
    | some e =>
      if e ≠ [] ∧ jsEndsWith filename e ∧ filename ≠ e then
        filename.take (filename.length - e.length)
      else filename

/-- The match of `PATH_ROOT_RE` (`^[/\\]|^[a-zA-Z]:[/\\]`): the matched
root prefix of the path, if any. -/
def pathRootMatch (s : Str) : Option Str :=
  match s with
  | c1 :: rest =>
    if isSlashy c1 then some [c1]
    else match rest with
      | c2 :: c3 :: _ =>
        if c1.isAlpha ∧ c2 = ':' ∧ isSlashy c3 then some [c1, c2, c3]
        else none
      | _ => none
  | [] => none

/-- Structure returned by `parse`. -/
structure ParsedPath where
  root : Str
  dir : Str
  base : Str
  ext : Str
  name : Str
deriving DecidableEq, Repr

/-- parse of part_005 lines 430-472 (string case). -/
def parse (p : Str) : ParsedPath :=
  let normalizedPath := normalizeWindowsPath p
  let b := basename normalizedPath none
  let e := extname b
  let n := b.take (b.length - e.length)
  let d := dirname normalizedPath
  let r0 : Str :=
    match pathRootMatch normalizedPath with
    | none => []
    | some m =>
      if driveLetterRe m ∧ m.length = 2 ∧ normalizedPath.length > 2 ∧
          normalizedPath.get? 2 = some '/' then m ++ ['/']
      else if m = str ("/") ∧ jsStartsWith d (str ("//")) then
        (if uncRe d then
          let uncParts := (splitSlash d).take 3
          (if joinSlash uncParts = [] then m else joinSlash uncParts)
        else m)
      else m
  let resolvedDir := if d = str (".") ∧ r0 ≠ [] ∧ r0 ≠ str (".") then r0 else d
  { root := r0, dir := resolvedDir, base := b, ext := e, name := n }

/-- Format input object of part_005 line 46-52: each field may be
missing (`none`) and a present empty string is falsy, like in the
source's `p.dir || p.root || ""` chain. -/
structure FormatInput where
  root : Option Str := none
  dir : Option Str := none
  base : Option Str := none
  ext : Option Str := none
  name : Option Str := none
deriving DecidableEq, Repr

/-- JavaScript truthiness of an optional string: present and non-empty. -/
def jsTruthyS : Option Str → Bool
  | none => false
  | some s => s ≠ []

/-- JavaScript `a || b` on optional strings. -/
def jsOrS (a b : Option Str) : Option Str :=
  if jsTruthyS a then a else b

/-- format of part_005 lines 380-394 (object case). -/
def format (p : FormatInput) : Str :=
  let dir := (jsOrS (jsOrS p.dir p.root) (some [])).getD []
  let base := (jsOrS p.base (some
    ((jsOrS p.name (some [])).getD [] ++ (jsOrS p.ext (some [])).getD []))).getD []
  if dir = [] then base
  else if some dir = p.root then dir ++ base
  else normalize (dir ++ '/' :: base)

/-! Alias table of part_005 lines 488-591.  A JavaScript object holding
the table is modelled as its list of own enumerable string-keyed
entries in insertion order, together with the non-enumerable
`normalizedAliasSymbol` mark as a boolean. -/

/-- JavaScript object model for the alias record. -/
structure JsRecord where
  entries : List (Str × Str)
  normalized : Bool
deriving DecidableEq, Repr

/-- Numeric value of a digit string. -/
def strToNat (k : Str) : Nat := k.foldl (fun n c => n * 10 + (c.toNat - 48)) 0

/-- Whether a key is a canonical array index (the keys JavaScript
enumerates first, in ascending numeric order). -/
def isArrayIndexKey (k : Str) : Bool :=
  k ≠ [] && k.all (·.isDigit) && (k = str ("0") || k.head? ≠ some '0') &&
    decide (strToNat k < 4294967295)

/-- Stable insertion into an ascending list keyed by `f`. -/
def insertAscBy (f : α → Nat) (x : α) : List α → List α
  | [] => [x]
  | y :: ys => if f y ≤ f x then y :: insertAscBy f x ys else x :: y :: ys

/-- Stable ascending sort keyed by `f`. -/
def sortAscBy (f : α → Nat) (l : List α) : List α :=
  l.foldl (fun acc x => insertAscBy f x acc) []

/-- Own enumerable entries in JavaScript property order: canonical
array-index keys first (ascending), then the rest in insertion order. -/
def jsOrderedEntries {α : Type} (es : List (Str × α)) : List (Str × α) :=
  sortAscBy (fun kv => strToNat kv.1) (es.filter (fun kv => isArrayIndexKey kv.1))
    ++ es.filter (fun kv => ¬ isArrayIndexKey kv.1)

/-- JavaScript property lookup. -/
def jsObjGet {α : Type} (es : List (Str × α)) (k : Str) : Option α :=
  (es.find? (fun kv => kv.1 = k)).map Prod.snd

/-- JavaScript property assignment: updates in place, else appends. -/
def jsObjSet : List (Str × Str) → Str → Str → List (Str × Str)
  | [], k, v => [(k, v)]
  | (k0, v0) :: rest, k, v =>
    if k0 = k then (k0, v) :: rest else (k0, v0) :: jsObjSet rest k v

/-- Object.fromEntries: later duplicate keys overwrite, position of the
first occurrence is kept. -/
def jsFromEntries (l : List (Str × Str)) : List (Str × Str) :=
  l.foldl (fun acc kv => jsObjSet acc kv.1 kv.2) []

/-- compareAliases of part_005 lines 74-76: descending segment count. -/
def compareAliases (a b : Str) : Int :=
  ((splitSlash b).length : Int) - ((splitSlash a).length : Int)

/-- Stable insertion respecting a JavaScript sort comparator. -/
def insertCmp (cmp : α → α → Int) (x : α) : List α → List α
  | [] => [x]
  | y :: ys => if cmp y x ≤ 0 then y :: insertCmp cmp x ys else x :: y :: ys

/-- Stable sort with a JavaScript comparator (`Array.prototype.sort` is
stable). -/
def sortCmp (cmp : α → α → Int) (l : List α) : List α :=
  l.foldl (fun acc x => insertCmp cmp x acc) []

/-- Nested-alias resolution loop of part_005 lines 509-527: a `for-in`
over the keys, whose body reads and rewrites values of the same object.
`keys` is the (unchanging) key enumeration of the object. -/
def nestedAliasLoop (keys : List Str) (start : List (Str × Str)) :
    List (Str × Str) :=
  keys.foldl
    (fun cur key =>
      keys.foldl
        (fun cur2 aliasPrefix =>
          if aliasPrefix = key ∨ jsStartsWith key (aliasPrefix ++ ['/']) ∨
              key = aliasPrefix then cur2
          else
            match jsObjGet cur2 key with
            | none => cur2
            | some value =>
              if jsStartsWith value aliasPrefix then
                let nextChar := value.get? aliasPrefix.length
                if nextChar = none ∨ nextChar = some '/' then
                  jsObjSet cur2 key
                    ((jsObjGet cur2 aliasPrefix).getD [] ++
                      value.drop aliasPrefix.length)
                else cur2
              else cur2)
        cur)
    start

/-- normalizeAliases of part_005 lines 488-537. -/
def normalizeAliases (aliases : JsRecord) : JsRecord :=
  if aliases.normalized then aliases
  else
    let sortedAliasesEntries :=
      sortCmp (fun a b => compareAliases a.1 b.1)
        ((jsOrderedEntries aliases.entries).map
          (fun kv => (normalizeWindowsPath kv.1, normalizeWindowsPath kv.2)))
    let sortedAliases := jsFromEntries sortedAliasesEntries
    let keys := (jsOrderedEntries sortedAliases).map Prod.fst
    let resolved := nestedAliasLoop keys sortedAliases
    { entries := jsOrderedEntries resolved, normalized := true }

/-- Entry loop of resolveAlias (part_005 lines 546-559). -/
def resolveAliasLoop (normalizedPath : Str) : List (Str × Str) → Str
  | [] => normalizedPath
  | (al, target) :: rest =>
    let effectiveAlias := if jsEndsWith al (str ("/")) then al else al ++ ['/']
    let effectivePath :=
      if jsEndsWith normalizedPath (str ("/")) then normalizedPath
      else normalizedPath ++ ['/']
    if jsStartsWith effectivePath effectiveAlias then
      join [target, normalizedPath.drop al.length]
    else if normalizedPath = al then target
    else resolveAliasLoop normalizedPath rest

/-- resolveAlias of part_005 lines 542-562. -/
def resolveAlias (path : Str) (aliases : JsRecord) : Str :=
  let normalizedPath := normalizeWindowsPath path
  let normalizedAliases := normalizeAliases aliases
  resolveAliasLoop normalizedPath (jsOrderedEntries normalizedAliases.entries)

end PK

/-! JavaScript-value wrappers for the failure-semantics claim: the
`typeof` guards at the top of the part_005 functions.  `JsVal.strv`
is a string argument, `JsVal.obj` an object (as accepted by `format`)
and `JsVal.other` any other value; the guards distinguish exactly these
shapes.  A thrown `TypeError` is the `Except.error` case. -/

/-- Model of a JavaScript argument value. -/
inductive JsVal where
  | strv (s : Str)
  | obj (o : PK.FormatInput)
  | other
deriving DecidableEq

/-- isAbsolute of part_005 lines 271-274: non-strings yield `false`. -/
def isAbsoluteJs (p : JsVal) : Except Str Bool :=
  match p with
  | .strv s => .ok (PK.isAbsolute s)
  | _ => .ok false

/-- extname of part_005 lines 287-302: non-strings yield the empty
string. -/
def extnameJs (p : JsVal) : Except Str Str :=
  match p with
  | .strv s => .ok (PK.extname s)
  | _ => .ok []

/-- dirname of part_005 lines 357-375: non-strings (and the empty
string) yield the dot. -/
def dirnameJs (p : JsVal) : Except Str Str :=
  match p with
  | .strv s => .ok (PK.dirname s)
  | _ => .ok (str ("."))

/-- toNamespacedPath of part_005 lines 279-282: non-strings are
returned unchanged (here: reported as a non-error with no string). -/
def toNamespacedPathJs (p : JsVal) : Except Str JsVal :=
  match p with
  | .strv s => if s.length = 0 then .ok p else .ok (.strv (PK.normalize s))
  | _ => .ok p

/-- Argument loop of join (part_005 lines 219-230): the first non-string
segment throws. -/
def joinJsLoop : List JsVal → Except Str (List Str)
  | [] => .ok []
  | .strv s :: rest => (joinJsLoop rest).map (fun r => s :: r)
  | _ :: _ => .error (str ("Arguments to path.join must be strings"))

/-- join of part_005 lines 215-234 with `typeof` guards. -/
def joinJs (segments : List JsVal) : Except Str Str :=
  (joinJsLoop segments).map PK.join

/-- Right-to-left accumulation loop of resolve (part_005 lines 243-254)
with the `typeof` guard; stops once an absolute segment is found, so a
non-string further left is then never inspected. -/
def resolveJsGo : List JsVal → Str × Bool → Except Str (Str × Bool)
  | [], acc => .ok acc
  | v :: rest, acc =>
    if acc.2 then .ok acc
    else
      match v with
      | .strv p =>
        if p.length = 0 then resolveJsGo rest acc
        else
          let ns := PK.normalizeWindowsPath p
          resolveJsGo rest (ns ++ '/' :: acc.1, PK.isAbsoluteRe ns)
      | _ => .error (str ("Arguments to path.resolve must be strings"))

/-- resolve of part_005 lines 239-266 with `typeof` guards. -/
def resolveJs (cwdS : Str) (args : List JsVal) : Except Str Str :=
  (resolveJsGo (args.reverse ++ [.strv (PK.cwdFn cwdS)]) ([], false)).map
    (fun st =>
      let resolvedPath := PK.normalizeString st.1 (¬ st.2)
      if st.2 then
        (if PK.isAbsoluteRe resolvedPath then resolvedPath
         else '/' :: resolvedPath)
      else if resolvedPath.length > 0 then resolvedPath
      else str ("."))

/-- relative of part_005 lines 307-352 with `typeof` guards: both inputs
pass through `resolve`, which performs the check. -/
def relativeJs (cwdS : Str) (fromP toP : JsVal) : Except Str Str := do
  let resolvedFrom ← resolveJs cwdS [fromP]
  let resolvedTo ← resolveJs cwdS [toP]
  pure (PK.relativeResolved resolvedFrom resolvedTo)

/-- basename of part_005 lines 399-425 with `typeof` guards. -/
def basenameJs (p : JsVal) (ext : Option JsVal) : Except Str Str :=
  match p with
  | .strv s =>
    (match ext with
     | none => .ok (PK.basename s none)
     | some (.strv e) => .ok (PK.basename s (some e))
     | some _ => .error (str ("[basename] `ext` must be a string.")))
  | _ => .error (str ("Path must be a string."))

/-- parse of part_005 lines 430-472 with `typeof` guard. -/
def parseJs (p : JsVal) : Except Str PK.ParsedPath :=
  match p with
  | .strv s => .ok (PK.parse s)
  | _ => .error (str ("Path must be a string."))

/-- format of part_005 lines 380-394 with its `typeof` guard: strings
and all other non-objects throw. -/
def formatJs (p : JsVal) : Except Str Str :=
  match p with
  | .obj o => .ok (PK.format o)
  | _ => .error
      (str ("Parameter \"pathObject\" must be an object, not null or other type."))

section PKChecks

example : PK.normalize (str ("/foo/bar//baz/asdf/quux/..")) =
    str ("/foo/bar/baz/asdf") := by decide
example : PK.normalize (str ("")) = str (".") := by decide
example : PK.normalize (str ("C:")) = str ("C:/") := by decide
example : PK.normalize (str ("c:")) = str ("c:/") := by decide
example : PK.normalize (str ("c:/")) = str ("C:/") := by decide
example : PK.join [str ("/foo"), str ("bar"), str ("baz/asdf")] =
    str ("/foo/bar/baz/asdf") := by decide
example : PK.relative (str ("/")) (str ("/data/orandea/test/aaa"))
    (str ("/data/orandea/impl/bbb")) = str ("../../impl/bbb") := by decide
example : PK.resolve (str ("/")) [str ("/c:/x")] = str ("c:/x") := by decide
example : PK.relative (str ("/")) (str ("/")) (str ("/c:/x")) =
    str ("c:/x") := by decide
example : PK.resolve (str ("/")) [str ("/"), str ("c:/x")] =
    str ("C:/x") := by decide
example : PK.resolveAlias (str ("@/foo/bar"))
    { entries := [(str ("@"), str ("./test-src"))], normalized := false } =
    str ("test-src/foo/bar") := by decide
example : PK.resolveAlias (str ("a\\b")) { entries := [], normalized := false } =
    str ("a/b") := by decide
example : (PK.normalizeAliases
    { entries := [(str ("@"), str ("./test-src"))],
      normalized := false }).normalized = true := by decide

end PKChecks

/-! Heap-instrumented embedding of `normalizeAliases`, used to state the
frame property of part_005 lines 488-537: the objects the function
writes to (`sortedAliases[key] = ...` at line 522, the property mark at
line 531) are the ones it allocated itself (`Object.fromEntries` at
line 505, the object spread at line 530); the argument object is only
read.  A heap is the list of allocated objects; a reference is an index
into it; allocation appends. -/

/-- Heap of JavaScript objects. -/
abbrev Heap := List PK.JsRecord

/-- Reads the value stored under `key` of the object at `sref`. -/
def heapReadKey (h : Heap) (sref : Nat) (key : Str) : Option Str :=
  match h.get? sref with
  | none => none
  | some obj => PK.jsObjGet obj.entries key

/-- Assigns `v` to `key` of the object at `sref`. -/
def heapWriteKey (h : Heap) (sref : Nat) (key v : Str) : Heap :=
  match h.get? sref with
  | none => h
  | some obj => h.set sref { obj with entries := PK.jsObjSet obj.entries key v }

/-- Nested-alias resolution loop of part_005 lines 509-527, reading and
writing the freshly allocated object at `sref` through the heap. -/
def nestedAliasLoopH (keys : List Str) (start : Heap) (sref : Nat) : Heap :=
  keys.foldl
    (fun hh key =>
      keys.foldl
        (fun hh2 aliasPrefix =>
          if aliasPrefix = key ∨ jsStartsWith key (aliasPrefix ++ ['/']) ∨
              key = aliasPrefix then hh2
          else
            match heapReadKey hh2 sref key with
            | none => hh2
            | some value =>
              if jsStartsWith value aliasPrefix then
                let nextChar := value.get? aliasPrefix.length
                if nextChar = none ∨ nextChar = some '/' then
                  heapWriteKey hh2 sref key
                    ((heapReadKey hh2 sref aliasPrefix).getD [] ++
                      value.drop aliasPrefix.length)
                else hh2
              else hh2)
        hh)
    start

/-- normalizeAliases of part_005 lines 488-537 on the heap model.
Returns the updated heap and the reference of the result object. -/
def normalizeAliasesH (h : Heap) (r : Nat) : Heap × Nat :=
  match h.get? r with
  | none => (h, r)
  | some aliases =>
    if aliases.normalized then (h, r)
    else
      let sortedAliasesEntries :=
        PK.sortCmp (fun a b => PK.compareAliases a.1 b.1)
          ((PK.jsOrderedEntries aliases.entries).map
            (fun kv => (PK.normalizeWindowsPath kv.1,
              PK.normalizeWindowsPath kv.2)))
      let sref := h.length
      let h1 := h ++ [PK.JsRecord.mk (PK.jsFromEntries sortedAliasesEntries) false]
      let keys := (PK.jsOrderedEntries
        (PK.jsFromEntries sortedAliasesEntries)).map Prod.fst
      let h2 := nestedAliasLoopH keys h1 sref
      let finalEntries := PK.jsOrderedEntries
        (((h2.get? sref).map PK.JsRecord.entries).getD [])
      (h2 ++ [PK.JsRecord.mk finalEntries true], h2.length)

namespace Dler

/-! Embedding of `src/deprecated/@dler/mod.ts`. -/

/-- ImportType of mod.ts lines 116-122.  The `module` member is spelled
`moduleT` because `module` cannot be an identifier here. -/
inductive ImportType where
  | absolute
  | alias
  | bare
  | dynamic
  | moduleT
  | relative
deriving DecidableEq, Repr

/-- PathTypeInfo of mod.ts lines 176-179. -/
structure PathTypeInfo where
  type : ImportType
  symbol : Option Str
deriving DecidableEq, Repr

/-- Second alternative `[^/]+` of the package-name regex. -/
def pkgNameAlt2 (p : Str) : Option Str :=
  let t := p.takeWhile (· ≠ '/')
  if t = [] then none else some t

/-- First alternative `@[^/]+\/[^/]+` of the package-name regex,
applied to the part after the `@`: both `[^/]+` runs are the maximal
slash-free runs, so the greedy match is deterministic. -/
def pkgNameScoped (rest : Str) : Option Str :=
  let s1 := rest.takeWhile (· ≠ '/')
  match rest.drop s1.length with
  | '/' :: tail =>
    let s2 := tail.takeWhile (· ≠ '/')
    if s1 ≠ [] ∧ s2 ≠ [] then some ('@' :: s1 ++ '/' :: s2)
    else none
  | _ => none

/-- The match of the regex `^(@[^/]+\/[^/]+|[^/]+)` of mod.ts line 262:
the scoped-name alternative first, else the plain `[^/]+` run. -/
def pkgNameMatch (p : Str) : Option Str :=
  match p with
  | c :: rest =>
    if c = '@' then
      (match pkgNameScoped rest with
       | some r => some r
       | none => pkgNameAlt2 p)
    else pkgNameAlt2 p
  | [] => none

/-- extractPackageName of mod.ts lines 255-264. -/
def extractPackageName (importPath : Option Str) : Option Str :=
  match importPath with
  | none => none
  | some p =>
    if p = [] ∨ jsStartsWith p (str (".")) ∨ jsStartsWith p (str ("/")) then
      none
    else pkgNameMatch p

/-- The test of the regex `^[A-Za-z]:\\` of mod.ts line 1522. -/
def driveBackslashRe (s : Str) : Bool :=
  match s with
  | c1 :: c2 :: c3 :: _ => c1.isAlpha && c2 = ':' && c3 = bslash
  | _ => false

/-- determineImportPathType of mod.ts lines 1501-1542. -/
def determineImportPathType (importPath : Str) : PathTypeInfo :=
  if jsStartsWith importPath (str ("@/")) then
    { type := .alias, symbol := some (str ("@/")) }
  else if jsStartsWith importPath (str ("~/")) then
    { type := .alias, symbol := some (str ("~/")) }
  else if jsStartsWith importPath (str ("./")) then
    { type := .relative, symbol := some (str ("./")) }
  else if jsStartsWith importPath (str ("../")) then
    { type := .relative, symbol := some (str ("../")) }
  else if jsStartsWith importPath (str ("/")) then
    { type := .absolute, symbol := some (str ("/")) }
  else if driveBackslashRe importPath then
    { type := .absolute, symbol := some (importPath.take 3) }
  else if jsStartsWith importPath (str ("http://")) then
    { type := .bare, symbol := some (str ("http://")) }
  else if jsStartsWith importPath (str ("https://")) then
    { type := .bare, symbol := some (str ("https://")) }
  else
    match extractPackageName (some importPath) with
    | some _ => { type := .moduleT, symbol := none }
    | none => { type := .bare, symbol := none }

end Dler

/-- Splits on either slash character, JavaScript `split(/[\\/]/)`. -/
def splitAnySlash : Str → List Str
  | [] => [[]]
  | c :: cs =>
    if PK.isSlashy c then [] :: splitAnySlash cs
    else
      match splitAnySlash cs with
      | [] => [[c]]
      | p :: ps => (c :: p) :: ps

/-- Applies a function `n` times. -/
def iterateN (f : α → α) : Nat → α → α
  | 0, x => x
  | n + 1, x => iterateN f n (f x)

namespace Dler

/-- Interface of the platform path library (`node:path`) that mod.ts
pulls in; the conversion functions are defined relative to it, together
with the cached working directory `CWD` of mod.ts line 235. -/
structure NodeEnv where
  resolve : List Str → Str
  relative : Str → Str → Str
  dirname : Str → Str
  join : List Str → Str
  basename : Str → Str
  normalize : Str → Str
  isAbsolute : Str → Bool
  cwd : Str

/-- LibConfigDeprecated of mod.ts lines 25-96; only `libMainFile` is
consulted by the conversion logic, the remaining fields configure the
out-of-scope publishing workflow. -/
structure LibConfigDeprecated where
  libMainFile : Str
deriving DecidableEq, Repr

/-- ConversionOptions of mod.ts lines 99-107. -/
structure ConversionOptions where
  aliasPrefix : Str
  baseDir : Str
  currentLibName : Option Str
  libsList : List (Str × LibConfigDeprecated)
  sourceFile : Str
  urlMap : List (Str × Str)
  strip : List Str
deriving DecidableEq, Repr

/-- JavaScript whitespace class `\s`. -/
def isJsSpace (c : Char) : Bool :=
  c = ' ' || c.toNat = 9 || c.toNat = 10 || c.toNat = 11 || c.toNat = 12 ||
  c.toNat = 13 || c.toNat = 160 || c.toNat = 5760 ||
  (8192 ≤ c.toNat && c.toNat ≤ 8202) || c.toNat = 8232 || c.toNat = 8233 ||
  c.toNat = 8239 || c.toNat = 8287 || c.toNat = 12288 || c.toNat = 65279

/-- Either quote character. -/
def isQuote (c : Char) : Bool := c = squote || c = dquote

/-- Match of `(['"])(https?:\/\/[^'"]+)\1` at the start of `s`, giving
the captured URL.  The greedy `[^'"]+` cannot contain either quote, so
the closing back-reference check is deterministic. -/
def bareUrlAt (s : Str) : Option Str :=
  match s with
  | [] => none
  | q :: rest =>
    if isQuote q then
      let scheme : Option Str :=
        if jsStartsWith rest (str ("https://")) then some (str ("https://"))
        else if jsStartsWith rest (str ("http://")) then some (str ("http://"))
        else none
      match scheme with
      | none => none
      | some sch =>
        let tail := rest.drop sch.length
        let body := tail.takeWhile (fun c => ¬ isQuote c)
        if body = [] then none
        else
          match tail.drop body.length with
          | q2 :: _ => if q2 = q then some (sch ++ body) else none
          | [] => none
    else none

/-- Match of `from\s+` followed by the quoted-URL pattern at the start
of `s`. -/
def bareUrlFromAt (s : Str) : Option Str :=
  if jsStartsWith s (str ("from")) then
    let t := s.drop 4
    let sp := t.takeWhile isJsSpace
    if sp = [] then none else bareUrlAt (t.drop sp.length)
  else none

/-- Leftmost unanchored search with a start-anchored matcher. -/
def reSearch (m : Str → Option Str) : Str → Option Str
  | [] => m []
  | s@(_ :: rest) =>
    match m s with
    | some u => some u
    | none => reSearch m rest

/-- getBareImportUrl of mod.ts lines 281-292. -/
def getBareImportUrl (importStr : Str) (requireFromKeyword : Bool) :
    Option Str :=
  if requireFromKeyword then reSearch bareUrlFromAt importStr
  else reSearch bareUrlAt importStr

/-- isLibraryImport of mod.ts lines 303-322. -/
def isLibraryImport (env : NodeEnv) (relativePathToRoot libName : Str)
    (libConfigDeprecated : LibConfigDeprecated)
    (currentLibName : Option Str) : Bool :=
  if PK.jsTruthyS currentLibName && currentLibName = some libName then false
  else
    let libMainDir :=
      PK.replaceBackslashes (env.dirname libConfigDeprecated.libMainFile)
    jsStartsWith relativePathToRoot (libMainDir ++ ['/'])

/-- Entry loop of matchLibraryImport (mod.ts lines 331-351). -/
def matchLibraryImportLoop (env : NodeEnv) (relativeToRoot : Str)
    (currentLibName : Option Str) :
    List (Str × LibConfigDeprecated) → Option Str
  | [] => none
  | (libName, cfg) :: rest =>
    if cfg.libMainFile ≠ [] ∧
        isLibraryImport env relativeToRoot libName cfg currentLibName then
      some libName
    else matchLibraryImportLoop env relativeToRoot currentLibName rest

/-- matchLibraryImport of mod.ts lines 331-351. -/
def matchLibraryImport (env : NodeEnv) (relativeToRoot : Str)
    (libsList : List (Str × LibConfigDeprecated))
    (currentLibName : Option Str) : Option Str :=
  matchLibraryImportLoop env relativeToRoot currentLibName
    (PK.jsOrderedEntries libsList)

/-- replaceJsExtension of mod.ts lines 358-367. -/
def replaceJsExtension (importPath : Str) : Str :=
  if jsEndsWith importPath (str (".js")) then
    importPath.take (importPath.length - 3) ++ str (".ts")
  else importPath

/-- convertAbsoluteToAlias of mod.ts lines 378-381. -/
def convertAbsoluteToAlias (env : NodeEnv) (ip : Str)
    (opts : ConversionOptions) : Str :=
  let relativePath := PK.replaceBackslashes (env.relative opts.baseDir ip)
  opts.aliasPrefix ++ relativePath

/-- convertAbsoluteToBare of mod.ts lines 382-388. -/
def convertAbsoluteToBare (env : NodeEnv) (ip : Str) : Str :=
  PK.replaceBackslashes (env.relative env.cwd ip)

/-- convertAbsoluteToModule of mod.ts lines 389-401. -/
def convertAbsoluteToModule (env : NodeEnv) (ip : Str)
    (opts : ConversionOptions) : Str :=
  let relativeToRoot := PK.replaceBackslashes (env.relative env.cwd ip)
  match matchLibraryImport env relativeToRoot opts.libsList
      opts.currentLibName with
  | some libName => libName
  | none => ip

/-- convertAbsoluteToRelative of mod.ts lines 402-414. -/
def convertAbsoluteToRelative (env : NodeEnv) (ip : Str)
    (opts : ConversionOptions) : Str :=
  let relativePath :=
    PK.replaceBackslashes (env.relative (env.dirname opts.sourceFile) ip)
  if ¬ jsStartsWith relativePath (str (".")) ∧
      ¬ env.isAbsolute relativePath then
    str ("./") ++ relativePath
  else relativePath

/-- convertAliasToAbsolute of mod.ts lines 417-444, including the
moved-output-directory reconstruction. -/
def convertAliasToAbsolute (env : NodeEnv) (ip : Str)
    (opts : ConversionOptions) : Str :=
  if ¬ jsStartsWith ip opts.aliasPrefix then ip
  else
    let subPath := ip.drop opts.aliasPrefix.length
    let absolutePath := env.resolve [opts.baseDir, subPath]
    let sourceFileRelativeToBase := env.relative opts.baseDir opts.sourceFile
    if sourceFileRelativeToBase ≠ [] then
      let sourceFileParts := splitAnySlash sourceFileRelativeToBase
      let newBaseDir := iterateN env.dirname (sourceFileParts.length - 1)
        (env.dirname opts.sourceFile)
      let relativeToBase := (splitSlash subPath).filter (fun s => s ≠ [])
      env.resolve (newBaseDir :: relativeToBase)
    else absolutePath

/-- convertAliasToBare of mod.ts lines 445-450. -/
def convertAliasToBare (env : NodeEnv) (ip : Str)
    (opts : ConversionOptions) : Str :=
  if ¬ jsStartsWith ip opts.aliasPrefix then ip
  else convertAbsoluteToBare env (convertAliasToAbsolute env ip opts)

/-- convertAliasToModule of mod.ts lines 451-455. -/
def convertAliasToModule (env : NodeEnv) (ip : Str)
    (opts : ConversionOptions) : Str :=
  if ¬ jsStartsWith ip opts.aliasPrefix then ip
  else convertAbsoluteToModule env (convertAliasToAbsolute env ip opts) opts

/-- convertAliasToRelative of mod.ts lines 456-460. -/
def convertAliasToRelative (env : NodeEnv) (ip : Str)
    (opts : ConversionOptions) : Str :=
  if ¬ jsStartsWith ip opts.aliasPrefix then ip
  else convertAbsoluteToRelative env (convertAliasToAbsolute env ip opts) opts

/-- convertBareToAbsolute of mod.ts lines 463-491. -/
def convertBareToAbsolute (env : NodeEnv) (ip : Str)
    (opts : ConversionOptions) : Str :=
  let urlHit : Option Str :=
    match getBareImportUrl ip false with
    | some u =>
      (match PK.jsObjGet opts.urlMap u with
       | some lp => if lp ≠ [] then some lp else none
       | none => none)
    | none => none
  match urlHit with
  | some localPath => env.resolve [env.cwd, localPath]
  | none =>
    let packageName := extractPackageName (some ip)
    let libConfigDeprecated :=
      match packageName with
      | some pn => PK.jsObjGet opts.libsList pn
      | none => none
    match libConfigDeprecated with
    | some cfg =>
      if cfg.libMainFile ≠ [] then env.resolve [env.cwd, cfg.libMainFile]
      else ip
    | none => ip

/-- convertBareToAlias of mod.ts lines 492-498. -/
def convertBareToAlias (env : NodeEnv) (ip : Str)
    (opts : ConversionOptions) : Str :=
  let absolutePath := convertBareToAbsolute env ip opts
  if absolutePath ≠ ip then convertAbsoluteToAlias env absolutePath opts
  else ip

/-- convertBareToDynamic of mod.ts lines 500-506: the path itself is
returned unchanged, the statement-level rewrite lives elsewhere. -/
def convertBareToDynamic (ip : Str) : Str := ip

/-- convertBareToModule of mod.ts lines 507-524. -/
def convertBareToModule (env : NodeEnv) (ip : Str)
    (opts : ConversionOptions) : Str :=
  let urlHit : Option Str :=
    match getBareImportUrl ip false with
    | some u =>
      (match PK.jsObjGet opts.urlMap u with
       | some lp => if lp ≠ [] then some lp else none
       | none => none)
    | none => none
  match urlHit with
  | some localPath =>
    convertAbsoluteToModule env (env.resolve [env.cwd, localPath]) opts
  | none =>
    match extractPackageName (some ip) with
    | some pn =>
      (match PK.jsObjGet opts.libsList pn with
       | some _ => pn
       | none => ip)
    | none => ip

/-- convertBareToRelative of mod.ts lines 525-531. -/
def convertBareToRelative (env : NodeEnv) (ip : Str)
    (opts : ConversionOptions) : Str :=
  let absolutePath := convertBareToAbsolute env ip opts
  if absolutePath ≠ ip then convertAbsoluteToRelative env absolutePath opts
  else ip

/-- convertDynamicToAbsolute of mod.ts lines 534-537. -/
def convertDynamicToAbsolute (env : NodeEnv) (ip : Str)
    (opts : ConversionOptions) : Str :=
  env.resolve [env.dirname opts.sourceFile, ip]

/-- convertDynamicToAlias of mod.ts lines 538-541. -/
def convertDynamicToAlias (env : NodeEnv) (ip : Str)
    (opts : ConversionOptions) : Str :=
  convertAbsoluteToAlias env (convertDynamicToAbsolute env ip opts) opts

/-- convertDynamicToBare of mod.ts lines 542-546. -/
def convertDynamicToBare (env : NodeEnv) (ip : Str)
    (opts : ConversionOptions) : Str :=
  convertAbsoluteToBare env (convertDynamicToAbsolute env ip opts)

/-- convertDynamicToModule of mod.ts lines 547-550. -/
def convertDynamicToModule (env : NodeEnv) (ip : Str)
    (opts : ConversionOptions) : Str :=
  convertAbsoluteToModule env (convertDynamicToAbsolute env ip opts) opts

/-- convertDynamicToRelative of mod.ts lines 551-555. -/
def convertDynamicToRelative (env : NodeEnv) (ip : Str)
    (opts : ConversionOptions) : Str :=
  convertAbsoluteToRelative env (convertDynamicToAbsolute env ip opts) opts

/-- convertModuleToAbsolute of mod.ts lines 558-574. -/
def convertModuleToAbsolute (env : NodeEnv) (ip : Str)
    (opts : ConversionOptions) : Str :=
  let packageName := extractPackageName (some ip)
  let libConfigDeprecated :=
    match packageName with
    | some pn => PK.jsObjGet opts.libsList pn
    | none => none
  match libConfigDeprecated with
  | some cfg =>
    if cfg.libMainFile ≠ [] then
      env.dirname (env.resolve [env.cwd, cfg.libMainFile])
    else ip
  | none => ip

/-- convertModuleToAlias of mod.ts lines 575-581. -/
def convertModuleToAlias (env : NodeEnv) (ip : Str)
    (opts : ConversionOptions) : Str :=
  let absolutePath := convertModuleToAbsolute env ip opts
  if absolutePath ≠ ip then convertAbsoluteToAlias env absolutePath opts
  else ip

/-- convertModuleToBare of mod.ts lines 582-589. -/
def convertModuleToBare (env : NodeEnv) (ip : Str)
    (opts : ConversionOptions) : Str :=
  let absolutePath := convertModuleToAbsolute env ip opts
  if absolutePath ≠ ip then convertAbsoluteToBare env absolutePath
  else ip

/-- convertModuleToRelative of mod.ts lines 590-596. -/
def convertModuleToRelative (env : NodeEnv) (ip : Str)
    (opts : ConversionOptions) : Str :=
  let absolutePath := convertModuleToAbsolute env ip opts
  if absolutePath ≠ ip then convertAbsoluteToRelative env absolutePath opts
  else ip

/-- convertRelativeToAbsolute of mod.ts lines 599-604. -/
def convertRelativeToAbsolute (env : NodeEnv) (ip : Str)
    (opts : ConversionOptions) : Str :=
  env.resolve [env.dirname opts.sourceFile, ip]

/-- convertRelativeToAlias of mod.ts lines 605-608. -/
def convertRelativeToAlias (env : NodeEnv) (ip : Str)
    (opts : ConversionOptions) : Str :=
  convertAbsoluteToAlias env (convertRelativeToAbsolute env ip opts) opts

/-- convertRelativeToBare of mod.ts lines 609-613. -/
def convertRelativeToBare (env : NodeEnv) (ip : Str)
    (opts : ConversionOptions) : Str :=
  convertAbsoluteToBare env (convertRelativeToAbsolute env ip opts)

/-- convertRelativeToModule of mod.ts lines 614-617. -/
def convertRelativeToModule (env : NodeEnv) (ip : Str)
    (opts : ConversionOptions) : Str :=
  convertAbsoluteToModule env (convertRelativeToAbsolute env ip opts) opts

/-- conversionMapping of mod.ts lines 622-657: the conversion function
registered for a `fromType:toType` pair, or none.  No pair with equal
components is registered. -/
def conversionMapping (env : NodeEnv) (pair : ImportType × ImportType) :
    Option (Str → ConversionOptions → Str) :=
  match pair with
  | (.absolute, .alias) => some (convertAbsoluteToAlias env)
  | (.absolute, .bare) => some (fun ip _ => convertAbsoluteToBare env ip)
  | (.absolute, .moduleT) => some (convertAbsoluteToModule env)
  | (.absolute, .relative) => some (convertAbsoluteToRelative env)
  | (.alias, .absolute) => some (convertAliasToAbsolute env)
  | (.alias, .bare) => some (convertAliasToBare env)
  | (.alias, .moduleT) => some (convertAliasToModule env)
  | (.alias, .relative) => some (convertAliasToRelative env)
  | (.bare, .absolute) => some (convertBareToAbsolute env)
  | (.bare, .alias) => some (convertBareToAlias env)
  | (.bare, .dynamic) => some (fun ip _ => convertBareToDynamic ip)
  | (.bare, .moduleT) => some (convertBareToModule env)
  | (.bare, .relative) => some (convertBareToRelative env)
  | (.dynamic, .absolute) => some (convertDynamicToAbsolute env)
  | (.dynamic, .alias) => some (convertDynamicToAlias env)
  | (.dynamic, .bare) => some (convertDynamicToBare env)
  | (.dynamic, .moduleT) => some (convertDynamicToModule env)
  | (.dynamic, .relative) => some (convertDynamicToRelative env)
  | (.moduleT, .absolute) => some (convertModuleToAbsolute env)
  | (.moduleT, .alias) => some (convertModuleToAlias env)
  | (.moduleT, .bare) => some (convertModuleToBare env)
  | (.moduleT, .relative) => some (convertModuleToRelative env)
  | (.relative, .absolute) => some (convertRelativeToAbsolute env)
  | (.relative, .alias) => some (convertRelativeToAlias env)
  | (.relative, .bare) => some (convertRelativeToBare env)
  | (.relative, .moduleT) => some (convertRelativeToModule env)
  | _ => none

/-- Options argument of convertSingleImportPath (mod.ts line 672):
`ConversionOptions` with `aliasPrefix` optional. -/
structure ConvertOptionsIn where
  aliasPrefix : Option Str
  baseDir : Str
  currentLibName : Option Str
  libsList : List (Str × LibConfigDeprecated)
  sourceFile : Str
  urlMap : List (Str × Str)
  strip : List Str
deriving DecidableEq, Repr

/-- Leading run `^((\.\.\/|\.\/)+)` of `./` and `../` pieces. -/
def leadingDotSlashes : Str → Str
  | '.' :: '.' :: '/' :: rest => '.' :: '.' :: '/' :: leadingDotSlashes rest
  | '.' :: '/' :: rest => '.' :: '/' :: leadingDotSlashes rest
  | _ => []

/-- Strip-pattern loop of convertSingleImportPath (mod.ts lines
759-795): leading-segment stripping followed by the resolution check
that discards a strip which would change the import's target. -/
def stripLoopPart (env : NodeEnv) (importingFileDir : Str)
    (convertedPath : Str) (fullOptions : ConversionOptions) : Str :=
  let processedPath := fullOptions.strip.foldl
    (fun pp stripSegment =>
      let normalizedStripSegment :=
        if jsEndsWith stripSegment (str ("/")) then stripSegment
        else stripSegment ++ ['/']
      let leading := leadingDotSlashes pp
      let afterLeading := pp.drop leading.length
      if jsStartsWith afterLeading normalizedStripSegment then
        leading ++ afterLeading.drop normalizedStripSegment.length
      else pp)
    convertedPath
  let preStripAbsoluteTarget := env.resolve [importingFileDir, convertedPath]
  let postStripAbsoluteTarget := env.resolve [importingFileDir, processedPath]
  if env.normalize preStripAbsoluteTarget ≠
      env.normalize postStripAbsoluteTarget then
    let p2 := PK.replaceBackslashes
      (env.relative importingFileDir preStripAbsoluteTarget)
    if ¬ jsStartsWith p2 (str (".")) then str ("./") ++ p2 else p2
  else processedPath

/-- Strip post-processing of convertSingleImportPath (mod.ts lines
691-796), including the moved-files adjustment for alias origins. -/
def stripPostProcess (env : NodeEnv) (fromType : ImportType)
    (importPath convertedPath : Str) (fullOptions : ConversionOptions) :
    Str :=
  let importingFileDir := env.dirname fullOptions.sourceFile
  let aliasAdjusted : Option Str :=
    if fromType = .alias ∧ fullOptions.baseDir ≠ [] then
      let sourceTreeTarget := env.resolve [fullOptions.baseDir,
        importPath.drop fullOptions.aliasPrefix.length]
      let importingFileRelativeToBase :=
        env.relative fullOptions.baseDir fullOptions.sourceFile
      let targetFileRelativeToBase :=
        env.relative fullOptions.baseDir sourceTreeTarget
      if importingFileRelativeToBase ≠ [] ∧
          targetFileRelativeToBase ≠ [] then
        let importingFileParts := splitAnySlash importingFileRelativeToBase
        let newBaseDir := iterateN env.dirname
          (importingFileParts.length - 1) (env.dirname fullOptions.sourceFile)
        let newTargetLocation :=
          env.join [newBaseDir, env.basename targetFileRelativeToBase]
        let processedPath := PK.replaceBackslashes
          (env.relative importingFileDir newTargetLocation)
        some (if ¬ jsStartsWith processedPath (str (".")) then
          str ("./") ++ processedPath else processedPath)
      else none
    else none
  match aliasAdjusted with
  | some p => p
  | none => stripLoopPart env importingFileDir convertedPath fullOptions

/-- convertSingleImportPath of mod.ts lines 668-799. -/
def convertSingleImportPath (env : NodeEnv) (fromType toType : ImportType)
    (importPath : Str) (options : ConvertOptionsIn) : Str :=
  let fullOptions : ConversionOptions :=
    { aliasPrefix := match options.aliasPrefix with
        | some s => s
        | none => str ("~/")
      baseDir := options.baseDir
      currentLibName := options.currentLibName
      libsList := options.libsList
      sourceFile := options.sourceFile
      urlMap := options.urlMap
      strip := options.strip }
  match conversionMapping env (fromType, toType) with
  | none => importPath
  | some converter =>
    let convertedPath := converter importPath fullOptions
    if fullOptions.strip.length > 0 ∧ convertedPath ≠ importPath ∧
        fullOptions.sourceFile ≠ [] then
      stripPostProcess env fromType importPath convertedPath fullOptions
    else convertedPath

/-- FileResult of mod.ts lines 128-132. -/
structure FileResult where
  filePath : Str
  message : Str
  success : Bool
deriving DecidableEq, Repr

/-- ConvertImportPathsOptions of mod.ts lines 135-147 (the fields the
validation phase and dispatch consult). -/
structure ConvertImportPathsOptions where
  baseDir : Str
  fromType : ImportType
  toType : ImportType
  libsList : List (Str × LibConfigDeprecated)
  aliasPrefix : Option Str := none
  currentLibName : Option Str := none
  distJsrDryRun : Bool := false
  generateSourceMap : Bool := false
  strip : Option (List Str) := none
  urlMap : List (Str × Str) := []

/-- Run model of convertImportPaths (mod.ts lines 1162-1393): the
validation phase of lines 1179-1202 made explicit, with the rest of the
run abstracted.  `statIsDirectory` stands for the `stat(baseDir)` call
(`none` is ENOENT, otherwise whether the entry is a directory);
`traverse` stands for the strip-pattern derivation and the directory
walk of `processDirectoryRecursively`, returning the per-file results
together with the list of files that were read — every `readFile` of
the run happens inside `traverse`.  The second component of the result
is the list of files read during the whole run. -/
def convertImportPathsRun (o : ConvertImportPathsOptions)
    (statIsDirectory : Option Bool)
    (traverse : Unit → List FileResult × List Str) :
    Except Str (List FileResult) × List Str :=
  if o.baseDir = [] then
    (Except.error (str ("`baseDir` option is required.")), [])
  else if (o.fromType = .alias ∨ o.toType = .alias) ∧
      ¬ PK.jsTruthyS o.aliasPrefix then
    (Except.error (str ("aliasPrefix is required for alias path conversions")),
      [])
  else
    match statIsDirectory with
    | none => (Except.error (str ("Specified baseDir does not exist")), [])
    | some false =>
      (Except.error (str ("Specified baseDir is not a directory")), [])
    | some true =>
      let r := traverse ()
      (Except.ok r.1, r.2)

end Dler

namespace Rex

/-! Small JavaScript-regex interpreter used to embed the literal regex
patterns of part_006: backtracking with leftmost-biased alternation and
greedy quantifiers, numbered capturing groups keeping the last
iteration's capture, and `matchAll` semantics (successive searches from
the previous match's end, advancing by one after an empty match).  The
interpreter is fuelled; the fuel used below is far above the depth any
of the embedded patterns can reach on the inputs evaluated. -/

/-- Regex abstract syntax. -/
inductive RE where
  | eps
  | lit (c : Char)
  | cls (neg : Bool) (ranges : List (Char × Char))
  | cat (a b : RE)
  | alt (a b : RE)
  | star (a : RE)
  | plus (a : RE)
  | opt (a : RE)
  | grp (idx : Nat) (a : RE)

/-- Character class membership. -/
def clsMatch (neg : Bool) (ranges : List (Char × Char)) (c : Char) : Bool :=
  let inR := ranges.any (fun r => r.1 ≤ c ∧ c ≤ r.2)
  if neg then ¬ inR else inR

/-- Backtracking matcher in continuation style; `caps` records closed
groups, most recent first. -/
def reRun (s : Str) : Nat → RE → Nat → List (Nat × Nat × Nat) →
    (Nat → List (Nat × Nat × Nat) → Option (Nat × List (Nat × Nat × Nat))) →
    Option (Nat × List (Nat × Nat × Nat))
  | 0, _, _, _, _ => none
  | fuel + 1, re, i, caps, k =>
    match re with
    | .eps => k i caps
    | .lit c =>
      (match s.get? i with
       | some c2 => if c2 = c then k (i + 1) caps else none
       | none => none)
    | .cls neg rs =>
      (match s.get? i with
       | some c2 => if clsMatch neg rs c2 then k (i + 1) caps else none
       | none => none)
    | .cat a b =>
      reRun s fuel a i caps (fun j caps2 => reRun s fuel b j caps2 k)
    | .alt a b =>
      (match reRun s fuel a i caps k with
       | some r => some r
       | none => reRun s fuel b i caps k)
    | .star a =>
      (match reRun s fuel a i caps
          (fun j caps2 =>
            if j = i then none else reRun s fuel (.star a) j caps2 k) with
       | some r => some r
       | none => k i caps)
    | .plus a =>
      reRun s fuel a i caps (fun j caps2 => reRun s fuel (.star a) j caps2 k)
    | .opt a =>
      (match reRun s fuel a i caps k with
       | some r => some r
       | none => k i caps)
    | .grp idx a =>
      reRun s fuel a i caps (fun j caps2 => k j ((idx, i, j) :: caps2))

/-- Fuel bound used for the embedded patterns. -/
def fuelFor (s : Str) : Nat := (s.length + 1) * 400 + 2000

/-- Anchored match attempt at position `i`. -/
def reExecAt (s : Str) (re : RE) (i : Nat) :
    Option (Nat × List (Nat × Nat × Nat)) :=
  reRun s (fuelFor s) re i [] (fun j caps => some (j, caps))

/-- One regex match: start, end, and closed capture groups. -/
structure MatchRes where
  index : Nat
  stop : Nat
  caps : List (Nat × Nat × Nat)
deriving DecidableEq, Repr

/-- Search loop trying successive start positions. -/
def searchGo (s : Str) (re : RE) : Nat → Nat → Option MatchRes
  | _, 0 => none
  | i, n + 1 =>
    match reExecAt s re i with
    | some (j, caps) => some ⟨i, j, caps⟩
    | none => searchGo s re (i + 1) n

/-- Leftmost match at or after `start` (JavaScript `exec` from a given
`lastIndex`). -/
def reSearchIn (s : Str) (re : RE) (start : Nat) : Option MatchRes :=
  searchGo s re start (s.length + 1 - start)

/-- matchAll loop. -/
def matchAllGo (s : Str) (re : RE) : Nat → Nat → List MatchRes
  | _, 0 => []
  | pos, n + 1 =>
    match reSearchIn s re pos with
    | none => []
    | some m =>
      let next := if m.stop = m.index then m.stop + 1 else m.stop
      m :: matchAllGo s re next n

/-- JavaScript `String.prototype.matchAll` with a global regex. -/
def jsMatchAll (s : Str) (re : RE) : List MatchRes :=
  matchAllGo s re 0 (s.length + 1)

/-- Full text of a match. -/
def MatchRes.matched (m : MatchRes) (s : Str) : Str :=
  (s.drop m.index).take (m.stop - m.index)

/-- Value of capture group `idx` (the most recent closure), if the group
participated in the match. -/
def MatchRes.group (m : MatchRes) (s : Str) (idx : Nat) : Option Str :=
  match m.caps.find? (fun c => c.1 = idx) with
  | none => none
  | some c => some ((s.drop c.2.1).take (c.2.2 - c.2.1))

/-- Concatenation of a pattern list. -/
def rcat (l : List RE) : RE := l.foldr .cat .eps

/-- Literal word. -/
def rlit (l : Str) : RE := rcat (l.map .lit)

/-- Ranges of the class `\s` (JavaScript whitespace). -/
def jsSpaceRanges : List (Char × Char) :=
  [(' ', ' '), (Char.ofNat 9, Char.ofNat 13), (Char.ofNat 160, Char.ofNat 160),
   (Char.ofNat 5760, Char.ofNat 5760), (Char.ofNat 8192, Char.ofNat 8202),
   (Char.ofNat 8232, Char.ofNat 8233), (Char.ofNat 8239, Char.ofNat 8239),
   (Char.ofNat 8287, Char.ofNat 8287), (Char.ofNat 12288, Char.ofNat 12288),
   (Char.ofNat 65279, Char.ofNat 65279)]

/-- Class `\s`. -/
def rws : RE := .cls false jsSpaceRanges

/-- Class `\w`. -/
def rw : RE := .cls false [('A', 'Z'), ('a', 'z'), ('0', '9'), ('_', '_')]

/-- Class matching either quote. -/
def rquote : RE := .cls false [(squote, squote), (dquote, dquote)]

/-- Class matching anything but a quote. -/
def rnotquote : RE := .cls true [(squote, squote), (dquote, dquote)]

/-- Opening brace character. -/
def obrace : Char := Char.ofNat 123

/-- Closing brace character. -/
def cbrace : Char := Char.ofNat 125

/-- Class matching anything but a closing brace. -/
def rnotcbrace : RE := .cls true [(cbrace, cbrace)]

/-- Pattern piece `\{[^}]*\}`. -/
def braceBlock : RE := rcat [.lit obrace, .star rnotcbrace, .lit cbrace]

/-- Class `.` (anything but a line terminator). -/
def rdot : RE := .cls true
  [(Char.ofNat 10, Char.ofNat 10), (Char.ofNat 13, Char.ofNat 13),
   (Char.ofNat 8232, Char.ofNat 8233)]

end Rex

/-- JavaScript `String.prototype.trim`. -/
def jsTrim (s : Str) : Str :=
  ((s.dropWhile Dler.isJsSpace).reverse.dropWhile Dler.isJsSpace).reverse

/-- First index at which `sub` occurs in `s` (`String.prototype.indexOf`
for a non-empty search string). -/
def indexOfSubGo (sub : Str) : Str → Nat → Option Nat
  | [], i => if jsStartsWith [] sub then some i else none
  | s@(_ :: rest), i =>
    if jsStartsWith s sub then some i else indexOfSubGo sub rest (i + 1)

/-- First index of `sub` in `s`, or none. -/
def indexOfSub (s sub : Str) : Option Nat := indexOfSubGo sub s 0

/-- JavaScript `String.prototype.includes`. -/
def jsIncludes (s sub : Str) : Bool := (indexOfSub s sub).isSome

/-- Split loop for a non-empty separator. -/
def splitOnSubGo (sep : Str) : Nat → Str → List Str
  | 0, s => [s]
  | n + 1, s =>
    match indexOfSub s sep with
    | none => [s]
    | some i => s.take i :: splitOnSubGo sep n (s.drop (i + sep.length))

/-- JavaScript `String.prototype.split` with a non-empty separator. -/
def splitOnSub (sep s : Str) : List Str := splitOnSubGo sep (s.length + 1) s

namespace P6

/-! Embedding of `getFileImportsExports` of src/unnamed/part_006 (lines
1-283, the first version of the file). -/

/-- Specifier kind; the original string values are `named`, `default`,
`namespace` and `all` (renamed here because of reserved words). -/
inductive SpecKind where
  | namedS
  | defaultS
  | namespaceS
  | allS
deriving DecidableEq, Repr

/-- ImportExportSpecifier of part_006 lines 2-7; an absent optional
field is `none`. -/
structure ImportExportSpecifier where
  type : SpecKind
  name : Str
  aliasName : Option Str := none
  isType : Option Bool := none
deriving DecidableEq, Repr

/-- Statement form, `static` or `dynamic`. -/
inductive StmtType where
  | static
  | dynamic
deriving DecidableEq, Repr

/-- Statement kind, `import` or `export` (renamed: reserved words). -/
inductive StmtKind where
  | importK
  | exportK
deriving DecidableEq, Repr

/-- Path type union of part_006 line 14 (`module` renamed). -/
inductive PathType where
  | alias
  | relative
  | absolute
  | bare
  | moduleT
deriving DecidableEq, Repr

/-- ImportExportInfo of part_006 lines 9-20 (`end` renamed to `stop`). -/
structure ImportExportInfo where
  statement : Str
  type : StmtType
  kind : StmtKind
  source : Option Str
  pathType : Option PathType
  pathTypeSymbol : Option Str
  isTypeOnly : Option Bool
  specifiers : Option (List ImportExportSpecifier)
  start : Nat
  stop : Nat
deriving DecidableEq, Repr

/-- Kind filter of the options, `import`, `export` or `all`. -/
inductive KindFilter where
  | importK
  | exportK
  | allK
deriving DecidableEq, Repr

/-- GetFileImportsExportsOptions of part_006 lines 22-26, with the
defaults of lines 35-39 already applied. -/
structure GetOptions where
  kind : KindFilter := .allK
  pathTypes : List PathType :=
    [.alias, .relative, .absolute, .bare, .moduleT]
  limitPerType : Option Nat := none
deriving DecidableEq, Repr

/-- The staticImport pattern of part_006 line 46-47. -/
def reStaticImport : Rex.RE :=
  Rex.RE.alt
    (Rex.rcat [Rex.rlit (str ("import")), Rex.RE.plus Rex.rws,
      Rex.RE.opt (Rex.rcat [Rex.rlit (str ("type")), Rex.RE.plus Rex.rws]),
      Rex.RE.opt (Rex.rcat [Rex.RE.plus Rex.rw,
        Rex.RE.opt (Rex.rcat [Rex.RE.star Rex.rws, Rex.RE.lit ',',
          Rex.RE.star Rex.rws])]),
      Rex.RE.opt (Rex.RE.alt Rex.braceBlock
        (Rex.rcat [Rex.RE.lit '*', Rex.RE.plus Rex.rws,
          Rex.rlit (str ("as")), Rex.RE.plus Rex.rws, Rex.RE.plus Rex.rw])),
      Rex.RE.plus Rex.rws, Rex.rlit (str ("from")), Rex.RE.plus Rex.rws,
      Rex.rquote, Rex.RE.grp 1 (Rex.RE.plus Rex.rnotquote), Rex.rquote])
    (Rex.rcat [Rex.rlit (str ("import")), Rex.RE.plus Rex.rws,
      Rex.RE.opt (Rex.rcat [Rex.rlit (str ("type")), Rex.RE.plus Rex.rws]),
      Rex.RE.grp 2 (Rex.RE.plus Rex.rw), Rex.RE.plus Rex.rws,
      Rex.rlit (str ("from")), Rex.RE.plus Rex.rws,
      Rex.rquote, Rex.RE.grp 3 (Rex.RE.plus Rex.rnotquote), Rex.rquote])

/-- The dynamicImport pattern of part_006 line 49. -/
def reDynamicImport : Rex.RE :=
  Rex.rcat [Rex.rlit (str ("import")), Rex.RE.star Rex.rws, Rex.RE.lit '(',
    Rex.RE.star Rex.rws, Rex.rquote,
    Rex.RE.grp 1 (Rex.RE.plus Rex.rnotquote), Rex.rquote,
    Rex.RE.star Rex.rws, Rex.RE.lit ')']

/-- The staticExport pattern of part_006 lines 51-52. -/
def reStaticExport : Rex.RE :=
  Rex.rcat [Rex.rlit (str ("export")), Rex.RE.plus Rex.rws,
    Rex.RE.opt (Rex.rcat [Rex.rlit (str ("type")), Rex.RE.plus Rex.rws]),
    Rex.RE.alt Rex.braceBlock
      (Rex.rcat [Rex.RE.lit '*',
        Rex.RE.opt (Rex.rcat [Rex.RE.plus Rex.rws, Rex.rlit (str ("as")),
          Rex.RE.plus Rex.rws, Rex.RE.plus Rex.rw])]),
    Rex.RE.plus Rex.rws, Rex.rlit (str ("from")), Rex.RE.plus Rex.rws,
    Rex.rquote, Rex.RE.grp 1 (Rex.RE.plus Rex.rnotquote), Rex.rquote]

/-- The defaultExport pattern of part_006 lines 54-55. -/
def reDefaultExport : Rex.RE :=
  Rex.rcat [Rex.rlit (str ("export")), Rex.RE.plus Rex.rws,
    Rex.rlit (str ("default")), Rex.RE.plus Rex.rws,
    Rex.RE.alt (Rex.RE.plus Rex.rw)
      (Rex.RE.alt Rex.braceBlock
        (Rex.RE.alt
          (Rex.rcat [Rex.rlit (str ("class")), Rex.RE.plus Rex.rws,
            Rex.RE.plus Rex.rw])
          (Rex.rcat [Rex.rlit (str ("function")), Rex.RE.plus Rex.rws,
            Rex.RE.plus Rex.rw])))]

/-- The namedExport pattern of part_006 lines 57-58. -/
def reNamedExport : Rex.RE :=
  Rex.rcat [Rex.rlit (str ("export")), Rex.RE.plus Rex.rws,
    (List.foldr Rex.RE.alt (Rex.rlit (str ("type")))
      [Rex.rlit (str ("const")), Rex.rlit (str ("let")),
       Rex.rlit (str ("var")), Rex.rlit (str ("function")),
       Rex.rlit (str ("class")), Rex.rlit (str ("enum")),
       Rex.rlit (str ("interface"))]),
    Rex.RE.plus Rex.rws, Rex.RE.grp 1 (Rex.RE.plus Rex.rw)]

/-- The namespace-specifier pattern of part_006 line 79
(`(?:import|export)\s+(?:type\s+)?\*\s+as\s+(\w+)`). -/
def reNamespaceSpec : Rex.RE :=
  Rex.rcat [Rex.RE.alt (Rex.rlit (str ("import"))) (Rex.rlit (str ("export"))),
    Rex.RE.plus Rex.rws,
    Rex.RE.opt (Rex.rcat [Rex.rlit (str ("type")), Rex.RE.plus Rex.rws]),
    Rex.RE.lit '*', Rex.RE.plus Rex.rws, Rex.rlit (str ("as")),
    Rex.RE.plus Rex.rws, Rex.RE.grp 1 (Rex.RE.plus Rex.rw)]

/-- The default-specifier pattern of part_006 line 90
(`import\s+(?:type\s+)?(\w+)(?:\s*,|\s+from)`). -/
def reDefaultSpec : Rex.RE :=
  Rex.rcat [Rex.rlit (str ("import")), Rex.RE.plus Rex.rws,
    Rex.RE.opt (Rex.rcat [Rex.rlit (str ("type")), Rex.RE.plus Rex.rws]),
    Rex.RE.grp 1 (Rex.RE.plus Rex.rw),
    Rex.RE.alt (Rex.rcat [Rex.RE.star Rex.rws, Rex.RE.lit ','])
      (Rex.rcat [Rex.RE.plus Rex.rws, Rex.rlit (str ("from"))])]

/-- The named-block pattern of part_006 line 102 (`{([^}]*)}`). -/
def reNamedBlock : Rex.RE :=
  Rex.rcat [Rex.RE.lit Rex.obrace,
    Rex.RE.grp 1 (Rex.RE.star Rex.rnotcbrace), Rex.RE.lit Rex.cbrace]

/-- The per-item type pattern of part_006 line 110 (`^type\s+(.+)`,
anchored). -/
def reItemType : Rex.RE :=
  Rex.rcat [Rex.rlit (str ("type")), Rex.RE.plus Rex.rws,
    Rex.RE.grp 1 (Rex.RE.plus Rex.rdot)]

/-- One named item of a brace block (part_006 lines 109-133). -/
def specOfItem (isTypeOnly : Bool) (item : Str) :
    Option ImportExportSpecifier :=
  let typeMatch := Rex.reExecAt item reItemType 0
  let actualItem : Str :=
    match typeMatch with
    | some (j, caps) =>
      (match (Rex.MatchRes.mk 0 j caps).group item 1 with
       | some g => g
       | none => item)
    | none => item
  if actualItem = [] then none
  else
    let isItemType := typeMatch.isSome || isTypeOnly
    if jsIncludes actualItem (str (" as ")) then
      let parts := (splitOnSub (str (" as ")) actualItem).map jsTrim
      let name := (parts.get? 0).getD []
      let aliasV := parts.get? 1
      if name = [] then none
      else
        some
          { type := .namedS, name := name, aliasName := aliasV,
            isType := some isItemType }
    else
      some { type := .namedS, name := actualItem, isType := some isItemType }

/-- extractSpecifiers of part_006 lines 72-137. -/
def extractSpecifiers (statement : Str) : List ImportExportSpecifier :=
  let isTypeOnly := jsIncludes statement (str ("import type")) ||
    jsIncludes statement (str ("export type"))
  match Rex.reSearchIn statement reNamespaceSpec 0 with
  | some m =>
    (match m.group statement 1 with
     | some nsName =>
       if nsName ≠ [] then
         [{ type := .namespaceS, name := nsName, isType := some isTypeOnly }]
       else namedAndDefault isTypeOnly statement
     | none => namedAndDefault isTypeOnly statement)
  | none => namedAndDefault isTypeOnly statement
where
  /-- Default- and named-specifier passes (part_006 lines 89-134). -/
  namedAndDefault (isTypeOnly : Bool) (statement : Str) :
      List ImportExportSpecifier :=
    let defaultSpecs : List ImportExportSpecifier :=
      match Rex.reSearchIn statement reDefaultSpec 0 with
      | some m =>
        (match m.group statement 1 with
         | some dn =>
           if dn ≠ [] ∧ ¬ jsIncludes statement [Rex.obrace] then
             [{ type := .defaultS, name := dn, isType := some isTypeOnly }]
           else []
         | none => [])
      | none => []
    let namedSpecs : List ImportExportSpecifier :=
      match Rex.reSearchIn statement reNamedBlock 0 with
      | some m =>
        (match m.group statement 1 with
         | some inner =>
           if inner ≠ [] then
             (((splitOnSub (str (",")) inner).map jsTrim).filter
               (fun item => item ≠ [])).filterMap (specOfItem isTypeOnly)
           else []
         | none => [])
      | none => []
    defaultSpecs ++ namedSpecs

/-- getPathType of part_006 lines 62-69. -/
def getPathType (path : Str) : PathType :=
  if jsStartsWith path (str (".")) then .relative
  else if jsStartsWith path (str ("/")) then .absolute
  else if jsStartsWith path (str ("@")) ∨ jsStartsWith path (str ("~")) then
    .alias
  else if jsStartsWith path (str ("http://")) ∨
      jsStartsWith path (str ("https://")) then .moduleT
  else .bare

/-- The `/^[@~]/` symbol extraction of part_006 line 158. -/
def aliasSymbolOf (source : Str) : Option Str :=
  match source with
  | c :: _ => if c = '@' ∨ c = '~' then some [c] else none
  | [] => none

/-- Record built for one static-import match (part_006 lines 143-165). -/
def staticImportInfo (content : Str) (options : GetOptions)
    (m : Rex.MatchRes) : Option ImportExportInfo :=
  let source := if PK.jsTruthyS (m.group content 1) then m.group content 1
    else m.group content 3
  match source with
  | none => none
  | some src =>
    if src = [] then none
    else
      let pathType := getPathType src
      if ¬ options.pathTypes.contains pathType then none
      else
        let stmt := m.matched content
        some
          { statement := stmt, type := .static, kind := .importK,
            source := some src, pathType := some pathType,
            pathTypeSymbol := if pathType = .alias then aliasSymbolOf src
              else none,
            isTypeOnly := some (jsIncludes stmt (str ("import type"))),
            specifiers := some (extractSpecifiers stmt),
            start := m.index, stop := m.index + stmt.length }

/-- Record built for one dynamic-import match (part_006 lines 169-192). -/
def dynamicImportInfo (content : Str) (options : GetOptions)
    (m : Rex.MatchRes) : Option ImportExportInfo :=
  match m.group content 1 with
  | none => none
  | some src =>
    if src = [] then none
    else
      let pathType := getPathType src
      if ¬ options.pathTypes.contains pathType then none
      else
        let stmt := m.matched content
        some
          { statement := stmt, type := .dynamic, kind := .importK,
            source := some src, pathType := some pathType,
            pathTypeSymbol := if pathType = .alias then aliasSymbolOf src
              else none,
            isTypeOnly := some false, specifiers := some [],
            start := m.index, stop := m.index + stmt.length }

/-- Record built for one export-with-source match (part_006 lines
198-221). -/
def staticExportInfo (content : Str) (options : GetOptions)
    (m : Rex.MatchRes) : Option ImportExportInfo :=
  match m.group content 1 with
  | none => none
  | some src =>
    if src = [] then none
    else
      let pathType := getPathType src
      if ¬ options.pathTypes.contains pathType then none
      else
        let stmt := m.matched content
        some
          { statement := stmt, type := .static, kind := .exportK,
            source := some src, pathType := some pathType,
            pathTypeSymbol := if pathType = .alias then aliasSymbolOf src
              else none,
            isTypeOnly := some (jsIncludes stmt (str ("export type"))),
            specifiers := some (extractSpecifiers stmt),
            start := m.index, stop := m.index + stmt.length }

/-- Record built for one default-export match (part_006 lines 224-240). -/
def defaultExportInfo (content : Str) (m : Rex.MatchRes) :
    ImportExportInfo :=
  let stmt := m.matched content
  { statement := stmt
    type := .static
    kind := .exportK
    source := none
    pathType := none
    pathTypeSymbol := none
    isTypeOnly := some false
    specifiers := some [{ type := .defaultS, name := str ("default") }]
    start := m.index
    stop := m.index + stmt.length }

/-- Record built for one named-export match (part_006 lines 243-262). -/
def namedExportInfo (content : Str) (m : Rex.MatchRes) :
    Option ImportExportInfo :=
  match m.group content 1 with
  | none => none
  | some name =>
    if name = [] then none
    else
      let stmt := m.matched content
      some
        { statement := stmt, type := .static, kind := .exportK,
          source := none, pathType := none, pathTypeSymbol := none,
          isTypeOnly := some (jsIncludes stmt (str ("export type"))),
          specifiers := some [{ type := .namedS, name := name }],
          start := m.index, stop := m.index + stmt.length }

/-- Full scan of part_006 lines 139-263, before the limit step: the
static imports, then dynamic imports, then exports with a source clause, then
default exports, then named exports. -/
def scanResults (content : Str) (options : GetOptions) :
    List ImportExportInfo :=
  let importInfos :=
    if options.kind = .importK ∨ options.kind = .allK then
      (Rex.jsMatchAll content reStaticImport).filterMap
        (staticImportInfo content options) ++
      (Rex.jsMatchAll content reDynamicImport).filterMap
        (dynamicImportInfo content options)
    else []
  let exportInfos :=
    if options.kind = .exportK ∨ options.kind = .allK then
      (Rex.jsMatchAll content reStaticExport).filterMap
        (staticExportInfo content options) ++
      (Rex.jsMatchAll content reDefaultExport).map
        (defaultExportInfo content) ++
      (Rex.jsMatchAll content reNamedExport).filterMap
        (namedExportInfo content)
    else []
  importInfos ++ exportInfos

/-- Bucket key of the limit step, part_006 line 269:
`` `${curr.kind}-${curr.pathType || "none"}` ``. -/
def bucketKey (r : ImportExportInfo) : Str :=
  (match r.kind with
   | .importK => str ("import")
   | .exportK => str ("export")) ++ '-' ::
  (match r.pathType with
   | some .alias => str ("alias")
   | some .relative => str ("relative")
   | some .absolute => str ("absolute")
   | some .bare => str ("bare")
   | some .moduleT => str ("module")
   | none => str ("none"))

/-- Grouping reduce of part_006 lines 267-275: an object keyed by
bucket, each bucket keeping its records in scan order; keys appear in
first-occurrence order. -/
def groupByKey (rs : List ImportExportInfo) :
    List (Str × List ImportExportInfo) :=
  rs.foldl
    (fun acc r =>
      let k := bucketKey r
      if (acc.find? (fun kv => kv.1 = k)).isSome then
        acc.map (fun kv => if kv.1 = k then (kv.1, kv.2 ++ [r]) else kv)
      else acc ++ [(k, [r])])
    []

/-- Limit step of part_006 lines 266-280. -/
def applyLimit (limitPerType : Nat) (rs : List ImportExportInfo) :
    List ImportExportInfo :=
  (groupByKey rs).flatMap (fun kv => kv.2.take limitPerType)

/-- getFileImportsExports of part_006 lines 31-283.  `limitPerType` is
applied only when truthy (present and non-zero). -/
def getFileImportsExports (content : Str)
    (options : GetOptions := {}) : List ImportExportInfo :=
  let results := scanResults content options
  match options.limitPerType with
  | some n => if n ≠ 0 then applyLimit n results else results
  | none => results

end P6


/-- Classifier described by the amended claim C1, written from the
amended claim's words: alias prefixes first, then relative, then
absolute (slash or drive-letter-plus-backslash), then URLs as `bare`
carrying the scheme as symbol, then every non-empty path not starting
with a dot as `module` with a null symbol (no registry is consulted),
and the rest as `bare` with a null symbol. -/
def c1SpecClassifier (p : Str) : Dler.PathTypeInfo :=
  if jsStartsWith p (str ("@/")) then
    { type := .alias, symbol := some (str ("@/")) }
  else if jsStartsWith p (str ("~/")) then
    { type := .alias, symbol := some (str ("~/")) }
  else if jsStartsWith p (str ("./")) then
    { type := .relative, symbol := some (str ("./")) }
  else if jsStartsWith p (str ("../")) then
    { type := .relative, symbol := some (str ("../")) }
  else if jsStartsWith p (str ("/")) then
    { type := .absolute, symbol := some (str ("/")) }
  else if Dler.driveBackslashRe p then
    { type := .absolute, symbol := some (p.take 3) }
  else if jsStartsWith p (str ("http://")) then
    { type := .bare, symbol := some (str ("http://")) }
  else if jsStartsWith p (str ("https://")) then
    { type := .bare, symbol := some (str ("https://")) }
  else if p ≠ [] ∧ ¬ jsStartsWith p (str (".")) then
    { type := .moduleT, symbol := none }
  else
    { type := .bare, symbol := none }

/-- Starting with a one-character prefix is a head test. -/
theorem jsStartsWith_single (c x : Char) (t : Str) :
    jsStartsWith (c :: t) [x] = true ↔ c = x := by
  unfold jsStartsWith
  rw [List.isPrefixOf_iff_prefix]
  constructor
  · intro h
    exact (List.cons_prefix_cons.mp h).1.symm
  · intro h
    subst h
    exact List.cons_prefix_cons.mpr ⟨rfl, List.nil_prefix⟩

/-- The plain `[^/]+` alternative matches any string whose first
character is not a slash. -/
theorem pkgNameAlt2_cons_isSome (c : Char) (t : Str) (hc : c ≠ '/') :
    (Dler.pkgNameAlt2 (c :: t)).isSome := by
  unfold Dler.pkgNameAlt2
  simp [List.takeWhile_cons, hc]

/-- The package-name regex matches every non-empty string whose first
character is not a slash. -/
theorem pkgNameMatch_cons_isSome (c : Char) (t : Str) (hc : c ≠ '/') :
    (Dler.pkgNameMatch (c :: t)).isSome := by
  have halt := pkgNameAlt2_cons_isSome c t hc
  unfold Dler.pkgNameMatch
  by_cases h : c = '@'
  · simp only [h, if_true]
    cases hs : Dler.pkgNameScoped t with
    | some r => simp
    | none => simpa [h] using halt
  · simpa [h] using halt

/-- C1 counterexample: the claim as stated is false on the code.  A
URL import is classified `bare` with the scheme as its symbol, not `module`
via URL; and the unregistered package name `lodash` is classified
`module` even though no library registry is consulted, not `bare` with
a null symbol. -/
theorem c1_counterexample :
    Dler.determineImportPathType (str ("http://a/b")) =
      { type := Dler.ImportType.bare, symbol := some (str ("http://")) } ∧
    Dler.ImportType.bare ≠ Dler.ImportType.moduleT ∧
    Dler.determineImportPathType (str ("lodash")) =
      { type := Dler.ImportType.moduleT, symbol := none } := by
  exact ⟨by decide, by decide, by decide⟩

/-- C1 (amended): for every import path `determineImportPathType`
assigns the first matching category in this order: a configured alias
prefix (`@/`, `~/`) gives alias; `./` or `../` gives relative; `/` or a
drive letter followed by a backslash gives absolute; `http://` or
`https://` gives bare with the URL scheme as symbol; every other
non-empty path not starting with a dot gives module with a null symbol
(the package-name heuristic, no registry consulted); the remaining
paths give bare with a null symbol. -/
theorem c1_classifier_characterization (p : Str) :
    Dler.determineImportPathType p = c1SpecClassifier p := by
  unfold Dler.determineImportPathType c1SpecClassifier
  by_cases h1 : jsStartsWith p (str ("@/")) = true
  · simp only [if_pos h1]
  simp only [if_neg h1]
  by_cases h2 : jsStartsWith p (str ("~/")) = true
  · simp only [if_pos h2]
  simp only [if_neg h2]
  by_cases h3 : jsStartsWith p (str ("./")) = true
  · simp only [if_pos h3]
  simp only [if_neg h3]
  by_cases h4 : jsStartsWith p (str ("../")) = true
  · simp only [if_pos h4]
  simp only [if_neg h4]
  by_cases h5 : jsStartsWith p (str ("/")) = true
  · simp only [if_pos h5]
  simp only [if_neg h5]
  by_cases h6 : Dler.driveBackslashRe p = true
  · simp only [if_pos h6]
  simp only [if_neg h6]
  by_cases h7 : jsStartsWith p (str ("http://")) = true
  · simp only [if_pos h7]
  simp only [if_neg h7]
  by_cases h8 : jsStartsWith p (str ("https://")) = true
  · simp only [if_pos h8]
  simp only [if_neg h8]
  by_cases h9 : p ≠ [] ∧ ¬ jsStartsWith p (str (".")) = true
  · obtain ⟨h9a, h9b⟩ := h9
    have hcond : ¬ (p = [] ∨ jsStartsWith p (str (".")) = true ∨
        jsStartsWith p (str ("/")) = true) := by
      push_neg
      exact ⟨h9a, h9b, h5⟩
    obtain ⟨c, t, rfl⟩ : ∃ c t, p = c :: t := by
      cases p with
      | nil => exact absurd rfl h9a
      | cons c t => exact ⟨c, t, rfl⟩
    have hc : c ≠ '/' := by
      intro hcc
      exact h5 ((jsStartsWith_single c '/' t).mpr hcc)
    have hsome := pkgNameMatch_cons_isSome c t hc
    unfold Dler.extractPackageName
    simp only [hcond, if_neg]
    obtain ⟨v, hv⟩ := Option.isSome_iff_exists.mp hsome
    simp [hv, h9a, h9b]
  · have hcond : p = [] ∨ jsStartsWith p (str (".")) = true ∨
        jsStartsWith p (str ("/")) = true := by
      by_cases hp : p = []
      · exact Or.inl hp
      · rcases not_and_or.mp h9 with hh | hh
        · exact absurd hp (by simpa using hh)
        · exact Or.inr (Or.inl (by simpa using hh))
    unfold Dler.extractPackageName
    simp only [hcond, if_true, if_pos]
    rw [if_neg]
    rintro ⟨ha, hb⟩
    exact h9 ⟨ha, by simp [hb]⟩

/-- C2 (amended): for every conversion in which fromType equals toType
the conversion is the identity on the path, whatever the context: no
converter is registered for a same-type pair, so the dispatcher returns
the import path unchanged, including alias to alias under a changed
base directory. -/
theorem c2_same_type_identity (env : Dler.NodeEnv) (t : Dler.ImportType)
    (ip : Str) (options : Dler.ConvertOptionsIn) :
    Dler.convertSingleImportPath env t t ip options = ip := by
  cases t <;> rfl

/-- NodeEnv instance on the pathkit path algebra with root working
directory, used to evaluate the C2 counterexample concretely. -/
def c2Env : Dler.NodeEnv :=
  { resolve := PK.resolve (str ("/"))
    relative := PK.relative (str ("/"))
    dirname := PK.dirname
    join := PK.join
    basename := fun p => PK.basename p none
    normalize := PK.normalize
    isAbsolute := PK.isAbsolute
    cwd := str ("/") }

/-- Conversion context with a changed base directory (the source file
lives under `/newbase`, where an alias re-resolution would produce
`../foo`, as the alias-to-relative conversion of the same engine
does). -/
def c2Opts : Dler.ConvertOptionsIn :=
  { aliasPrefix := some (str ("~/"))
    baseDir := str ("/newbase")
    currentLibName := none
    libsList := []
    sourceFile := str ("/newbase/sub/file.ts")
    urlMap := []
    strip := [str ("src/")] }

/-- C2 counterexample: alias-to-alias conversion under a changed
baseDir IS the identity — the mapping has no `alias:alias` entry and
the path comes back unchanged — contradicting the claim that it is not
the identity and re-resolves against the new base. -/
theorem c2_counterexample :
    Dler.convertSingleImportPath c2Env .alias .alias (str ("~/foo")) c2Opts =
      str ("~/foo") ∧
    Dler.conversionMapping c2Env
      (Dler.ImportType.alias, Dler.ImportType.alias) = none ∧
    Dler.convertSingleImportPath c2Env .alias .relative (str ("~/foo"))
      c2Opts = str ("../foo") := by
  exact ⟨rfl, rfl, by decide⟩

/-- C3: a run whose fromType or toType is alias and whose aliasPrefix
is missing (or empty, which is equally falsy) fails with the
configuration error, and the list of files read is empty — whatever
the directory traversal would have done. -/
theorem c3_alias_config_error (o : Dler.ConvertImportPathsOptions)
    (stat : Option Bool)
    (traverse : Unit → List Dler.FileResult × List Str)
    (hAlias : o.fromType = .alias ∨ o.toType = .alias)
    (hNoPrefix : ¬ PK.jsTruthyS o.aliasPrefix = true)
    (hBase : o.baseDir ≠ []) :
    Dler.convertImportPathsRun o stat traverse =
      (Except.error (str ("aliasPrefix is required for alias path conversions")),
        []) := by
  unfold Dler.convertImportPathsRun
  rw [if_neg hBase, if_pos ⟨hAlias, hNoPrefix⟩]

/-- C3 witness: a concrete alias run without an aliasPrefix, against a
traversal that would have read a file, errors out having read
nothing. -/
theorem c3_witness :
    Dler.convertImportPathsRun
      { baseDir := str ("/proj/src"), fromType := .alias,
        toType := .relative, libsList := [] }
      (some true) (fun _ => ([], [str ("/proj/src/a.ts")])) =
      (Except.error (str ("aliasPrefix is required for alias path conversions")),
        []) :=
  c3_alias_config_error _ _ _ (Or.inl rfl) (by decide) (by decide)

/-- Match test of one alias-table entry against a path, exactly the two
conditions of the resolveAlias loop (part_005 lines 547-558). -/
def aliasEntryMatches (normalizedPath al : Str) : Bool :=
  let effectiveAlias := if jsEndsWith al (str ("/")) then al else al ++ ['/']
  let effectivePath :=
    if jsEndsWith normalizedPath (str ("/")) then normalizedPath
    else normalizedPath ++ ['/']
  jsStartsWith effectivePath effectiveAlias || decide (normalizedPath = al)

/-- The resolveAlias entry loop returns the path when no entry
matches. -/
theorem resolveAliasLoop_no_match (np : Str) (l : List (Str × Str))
    (h : ∀ kv ∈ l, aliasEntryMatches np kv.1 = false) :
    PK.resolveAliasLoop np l = np := by
  induction l with
  | nil => rfl
  | cons kv rest ih =>
    obtain ⟨al, target⟩ := kv
    have hkv := h (al, target) (List.mem_cons_self _ _)
    unfold aliasEntryMatches at hkv
    simp only [Bool.or_eq_false_iff, decide_eq_false_iff_not] at hkv
    unfold PK.resolveAliasLoop
    rw [if_neg, if_neg]
    · exact ih (fun kv2 hm => h kv2 (List.mem_cons_of_mem _ hm))
    · exact hkv.2
    · simp only [hkv.1]
      exact Bool.false_ne_true

/-- C5 (amended): when no alias entry of the normalized table matches,
resolveAlias returns the windows-normalized input — backslashes turned
into slashes and a leading drive letter upper-cased — which is the
input character for character exactly when the input is already in that
form. -/
theorem c5_resolveAlias_no_match (path : Str) (aliases : PK.JsRecord)
    (h : ∀ kv ∈ PK.jsOrderedEntries (PK.normalizeAliases aliases).entries,
      aliasEntryMatches (PK.normalizeWindowsPath path) kv.1 = false) :
    PK.resolveAlias path aliases = PK.normalizeWindowsPath path := by
  unfold PK.resolveAlias
  exact resolveAliasLoop_no_match _ _ h

/-- C5 witness: a path matching no entry of a one-entry table comes
back as its windows normalization (here, unchanged). -/
theorem c5_witness :
    PK.resolveAlias (str ("foo/bar"))
      (PK.JsRecord.mk [(str ("@"), str ("./test-src"))] false) =
      PK.normalizeWindowsPath (str ("foo/bar")) :=
  c5_resolveAlias_no_match _ _ (by decide)

/-- C5 counterexample: with an empty table nothing matches, yet the
result is not character for character the input — the backslash has
been replaced. -/
theorem c5_counterexample :
    PK.resolveAlias (str ("a\\b")) (PK.JsRecord.mk [] false) =
      str ("a/b") ∧ str ("a/b") ≠ str ("a\\b") := by
  exact ⟨by decide, by decide⟩

/-- C6 (amended): join, resolve, relative, basename and parse reject a
non-string argument by throwing a TypeError; isAbsolute, extname and
dirname silently return a default (`false`, the empty string, the dot)
instead; format rejects every non-object, strings included. -/
theorem c6_nonstring_behaviour (v : JsVal) (h : ∀ s, v ≠ JsVal.strv s) :
    joinJs [v] =
      Except.error (str ("Arguments to path.join must be strings")) ∧
    (∀ cwdS, resolveJs cwdS [v] =
      Except.error (str ("Arguments to path.resolve must be strings"))) ∧
    (∀ cwdS w, relativeJs cwdS v w =
      Except.error (str ("Arguments to path.resolve must be strings"))) ∧
    basenameJs v none = Except.error (str ("Path must be a string.")) ∧
    parseJs v = Except.error (str ("Path must be a string.")) ∧
    isAbsoluteJs v = Except.ok false ∧
    extnameJs v = Except.ok [] ∧
    dirnameJs v = Except.ok (str (".")) ∧
    formatJs JsVal.other = Except.error
      (str ("Parameter \"pathObject\" must be an object, not null or other type.")) ∧
    (∀ s, formatJs (JsVal.strv s) = Except.error
      (str ("Parameter \"pathObject\" must be an object, not null or other type."))) := by
  cases v with
  | strv s => exact absurd rfl (h s)
  | obj o =>
    exact ⟨rfl, fun _ => rfl, fun _ _ => rfl, rfl, rfl, rfl, rfl, rfl, rfl,
      fun _ => rfl⟩
  | other =>
    exact ⟨rfl, fun _ => rfl, fun _ _ => rfl, rfl, rfl, rfl, rfl, rfl, rfl,
      fun _ => rfl⟩

/-- C6 witness: the guarded behaviour evaluated at a concrete
non-string value. -/
theorem c6_witness :
    isAbsoluteJs JsVal.other = Except.ok false ∧
    joinJs [JsVal.other] =
      Except.error (str ("Arguments to path.join must be strings")) :=
  ⟨(c6_nonstring_behaviour JsVal.other
      (fun _ hh => JsVal.noConfusion hh)).2.2.2.2.2.1,
   (c6_nonstring_behaviour JsVal.other
      (fun _ hh => JsVal.noConfusion hh)).1⟩

/-- C6 counterexample: isAbsolute, extname and dirname do not fail with
a type error on a non-string: they return `false`, the empty string and
the dot. -/
theorem c6_counterexample :
    isAbsoluteJs JsVal.other = Except.ok false ∧
    extnameJs JsVal.other = Except.ok [] ∧
    dirnameJs JsVal.other = Except.ok (str (".")) ∧
    (∀ e, isAbsoluteJs JsVal.other ≠ Except.error e) := by
  exact ⟨rfl, rfl, rfl, fun e hh => Except.noConfusion hh⟩

/-- The normalizeAliases result always carries the normalized mark. -/
theorem normalizeAliases_mark (t : PK.JsRecord) :
    (PK.normalizeAliases t).normalized = true := by
  unfold PK.normalizeAliases
  by_cases h : t.normalized <;> simp [h]

/-- C9: normalizeAliases is idempotent, and applying it to an
already-normalized table returns that very table. -/
theorem c9_normalizeAliases_idempotent :
    (∀ t : PK.JsRecord,
      PK.normalizeAliases (PK.normalizeAliases t) = PK.normalizeAliases t) ∧
    (∀ t : PK.JsRecord, t.normalized = true → PK.normalizeAliases t = t) := by
  have hsecond : ∀ t : PK.JsRecord, t.normalized = true →
      PK.normalizeAliases t = t := by
    intro t ht
    unfold PK.normalizeAliases
    simp [ht]
  exact ⟨fun t => hsecond _ (normalizeAliases_mark t), hsecond⟩

/-- Concrete raw table for the C9 witness. -/
def c9Table : PK.JsRecord :=
  PK.JsRecord.mk [(str ("@"), str ("./test-src"))] false

/-- C9 witness: idempotence and the normalized no-op evaluated on
concrete tables. -/
theorem c9_witness :
    PK.normalizeAliases (PK.normalizeAliases c9Table) =
      PK.normalizeAliases c9Table ∧
    PK.normalizeAliases (PK.JsRecord.mk [] true) = PK.JsRecord.mk [] true :=
  ⟨c9_normalizeAliases_idempotent.1 c9Table,
   c9_normalizeAliases_idempotent.2 _ rfl⟩

/-- Setting one list position leaves the others unchanged. -/
theorem list_set_get_ne {α : Type} (l : List α) (j : Nat) (a : α) (i : Nat)
    (hne : i ≠ j) : (l.set j a).get? i = l.get? i := by
  induction l generalizing i j with
  | nil => rfl
  | cons x xs ih =>
    cases j with
    | zero =>
      cases i with
      | zero => exact absurd rfl hne
      | succ i2 => rfl
    | succ j2 =>
      cases i with
      | zero => rfl
      | succ i2 => exact ih j2 i2 (fun hh => hne (by rw [hh]))

/-- A heap write at `sref` does not change the object at `i ≠ sref`. -/
theorem heapWriteKey_get_ne (h : Heap) (sref : Nat) (key v : Str) (i : Nat)
    (hne : i ≠ sref) : (heapWriteKey h sref key v).get? i = h.get? i := by
  unfold heapWriteKey
  cases hh : h.get? sref with
  | none => rfl
  | some obj => exact list_set_get_ne h sref _ i hne

/-- Fold preservation of a predicate. -/
theorem foldl_pred_preserved {α β : Type} (P : α → Prop) (f : α → β → α)
    (hf : ∀ a b, P a → P (f a b)) :
    ∀ (l : List β) (a : α), P a → P (l.foldl f a) := by
  intro l
  induction l with
  | nil => exact fun a ha => ha
  | cons x xs ih => exact fun a ha => ih _ (hf a x ha)

/-- The nested-alias loop writes only to `sref`. -/
theorem nestedAliasLoopH_get_ne (keys : List Str) (h : Heap) (sref i : Nat)
    (hne : i ≠ sref) :
    (nestedAliasLoopH keys h sref).get? i = h.get? i := by
  unfold nestedAliasLoopH
  refine foldl_pred_preserved (fun hh => hh.get? i = h.get? i) _ ?_ keys h rfl
  intro a key ha
  refine foldl_pred_preserved (fun hh => hh.get? i = h.get? i) _ ?_ keys a ha
  intro a2 ap ha2
  dsimp only
  split
  · exact ha2
  · split
    · exact ha2
    · split
      · split
        · rw [heapWriteKey_get_ne _ _ _ _ _ hne]
          exact ha2
        · exact ha2
      · exact ha2

/-- A heap write preserves the heap length. -/
theorem heapWriteKey_length (h : Heap) (sref : Nat) (key v : Str) :
    (heapWriteKey h sref key v).length = h.length := by
  unfold heapWriteKey
  cases hh : h.get? sref with
  | none => rfl
  | some obj => exact List.length_set _ _ _

/-- The nested-alias loop preserves the heap length. -/
theorem nestedAliasLoopH_length (keys : List Str) (h : Heap) (sref : Nat) :
    (nestedAliasLoopH keys h sref).length = h.length := by
  unfold nestedAliasLoopH
  refine foldl_pred_preserved (fun hh => hh.length = h.length) _ ?_ keys h rfl
  intro a key ha
  refine foldl_pred_preserved (fun hh => hh.length = h.length) _ ?_ keys a ha
  intro a2 ap ha2
  dsimp only
  split
  · exact ha2
  · split
    · exact ha2
    · split
      · split
        · rw [heapWriteKey_length]
          exact ha2
        · exact ha2
      · exact ha2

/-- C10: normalizeAliases never mutates its argument.  Every object
allocated before the call — in particular the argument record at `r` —
still holds exactly its original entries afterwards; when the argument
is not already marked normalized the result reference points past the
original heap, a freshly built object; and on an already-marked table
the call returns the same reference with the heap untouched. -/
theorem c10_normalizeAliases_no_mutation (h : Heap) (r : Nat)
    (hr : r < h.length) :
    (∀ i, i < h.length → (normalizeAliasesH h r).1.get? i = h.get? i) ∧
    ((h.get? r).map PK.JsRecord.normalized = some false →
      (normalizeAliasesH h r).2 ≥ h.length) ∧
    ((h.get? r).map PK.JsRecord.normalized = some true →
      normalizeAliasesH h r = (h, r)) := by
  cases hobj : h.get? r with
  | none =>
    exact absurd hobj (by
      intro hh
      exact absurd (List.get?_eq_none.mp hh) (by omega))
  | some obj =>
    by_cases hn : obj.normalized = true
    · refine ⟨?_, ?_, ?_⟩
      · intro i _
        unfold normalizeAliasesH
        rw [hobj]
        simp [hn]
      · intro hfalse
        simp [hn] at hfalse
      · intro _
        unfold normalizeAliasesH
        rw [hobj]
        simp [hn]
    · have hn2 : obj.normalized = false := by
        simpa using hn
      refine ⟨?_, ?_, ?_⟩
      · intro i hi
        unfold normalizeAliasesH
        rw [hobj]
        simp only [hn2, Bool.false_eq_true, if_false]
        have hlen1 : (h ++ [PK.JsRecord.mk (PK.jsFromEntries
            (PK.sortCmp (fun a b => PK.compareAliases a.1 b.1)
              ((PK.jsOrderedEntries obj.entries).map
                (fun kv => (PK.normalizeWindowsPath kv.1,
                  PK.normalizeWindowsPath kv.2))))) false]).length =
            h.length + 1 := by
          simp
        rw [List.get?_append]
        · rw [nestedAliasLoopH_get_ne _ _ _ _ (by omega)]
          rw [List.get?_append hi]
        · rw [nestedAliasLoopH_length, hlen1]
          omega
      · intro _
        unfold normalizeAliasesH
        rw [hobj]
        simp only [hn2, Bool.false_eq_true, if_false]
        rw [nestedAliasLoopH_length]
        simp
      · intro htrue
        simp [hn2] at htrue

/-- Concrete heap for the C10 witness: one raw alias record. -/
def c10Heap : Heap :=
  [PK.JsRecord.mk [(str ("@"), str ("a\\b"))] false]

/-- C10 witness: on a concrete heap the argument record is unchanged
and the result reference is fresh. -/
theorem c10_witness :
    (normalizeAliasesH c10Heap 0).1.get? 0 = c10Heap.get? 0 ∧
    (normalizeAliasesH c10Heap 0).2 ≥ c10Heap.length :=
  ⟨(c10_normalizeAliases_no_mutation c10Heap 0 (by decide)).1 0 (by decide),
   (c10_normalizeAliases_no_mutation c10Heap 0 (by decide)).2.1 (by decide)⟩

namespace P6

/-- Group found under a key in the grouping accumulator (empty when the
key is absent). -/
def lookupGroup (acc : List (Str × List ImportExportInfo)) (k : Str) :
    List ImportExportInfo :=
  match acc.find? (fun kv => kv.1 = k) with
  | some kv => kv.2
  | none => []

/-- Well-formedness of the grouping accumulator: every record sits
under its own bucket key, and keys are pairwise distinct. -/
def groupsWF (acc : List (Str × List ImportExportInfo)) : Prop :=
  (∀ kv ∈ acc, ∀ r ∈ kv.2, bucketKey r = kv.1) ∧
  acc.Pairwise (fun a b => a.1 ≠ b.1)

/-- One grouping step. -/
def groupStep (acc : List (Str × List ImportExportInfo))
    (r : ImportExportInfo) : List (Str × List ImportExportInfo) :=
  let k := bucketKey r
  if (acc.find? (fun kv => kv.1 = k)).isSome then
    acc.map (fun kv => if kv.1 = k then (kv.1, kv.2 ++ [r]) else kv)
  else acc ++ [(k, [r])]

/-- groupByKey is the fold of the grouping step. -/
theorem groupByKey_eq_foldl (rs : List ImportExportInfo) :
    groupByKey rs = rs.foldl groupStep [] := rfl

end P6

namespace P6

/-- Finding by key commutes with the value-only update map. -/
theorem find_key_map (acc : List (Str × List ImportExportInfo))
    (k k2 : Str) (r : ImportExportInfo) :
    (acc.map (fun kv => if kv.1 = k2 then (kv.1, kv.2 ++ [r]) else kv)).find?
      (fun kv => kv.1 = k) =
    (acc.find? (fun kv => kv.1 = k)).map
      (fun kv => if kv.1 = k2 then (kv.1, kv.2 ++ [r]) else kv) := by
  induction acc with
  | nil => rfl
  | cons kv rest ih =>
    have hfst : ((if kv.1 = k2 then (kv.1, kv.2 ++ [r]) else kv) :
        Str × List ImportExportInfo).1 = kv.1 := by
      by_cases h2 : kv.1 = k2 <;> simp [h2]
    rw [List.map_cons]
    by_cases hk : kv.1 = k
    · rw [List.find?_cons_of_pos _ (by simp only [hfst]; simpa using hk),
          List.find?_cons_of_pos _ (by simpa using hk)]
      rfl
    · rw [List.find?_cons_of_neg _ (by simp only [hfst]; simpa using hk),
          List.find?_cons_of_neg _ (by simpa using hk)]
      exact ih

/-- Finding in an append when the first part has no hit. -/
theorem find_append_of_none {α : Type} (p : α → Bool) (l1 l2 : List α)
    (h : l1.find? p = none) : (l1 ++ l2).find? p = l2.find? p := by
  induction l1 with
  | nil => rfl
  | cons x xs ih =>
    rw [List.find?_cons] at h
    by_cases hx : p x = true
    · simp [hx] at h
    · simp only [Bool.not_eq_true] at hx
      simp only [List.cons_append, List.find?_cons, hx]
      exact ih (by simpa [hx] using h)

/-- One grouping step appends the record to its own bucket and leaves
every other bucket unchanged. -/
theorem lookupGroup_groupStep (acc : List (Str × List ImportExportInfo))
    (r : ImportExportInfo) (k : Str) :
    lookupGroup (groupStep acc r) k =
      lookupGroup acc k ++ (if bucketKey r = k then [r] else []) := by
  unfold groupStep lookupGroup
  by_cases hpresent : (acc.find? (fun kv => kv.1 = bucketKey r)).isSome = true
  · simp only [hpresent, if_true, find_key_map]
    cases hfind : acc.find? (fun kv => kv.1 = k) with
    | none =>
      simp only [Option.map_none']
      by_cases hk : bucketKey r = k
      · rw [hk] at hpresent
        rw [hfind] at hpresent
        simp at hpresent
      · simp [hk]
    | some kv0 =>
      have hkv0 : kv0.1 = k := by
        have := List.find?_some hfind
        simpa using this
      simp only [Option.map_some']
      by_cases hk : bucketKey r = k
      · rw [if_pos (by rw [hkv0, hk]), if_pos hk]
      · rw [if_neg (by rw [hkv0]; exact fun hh => hk hh.symm), if_neg hk]
        simp
  · simp only [hpresent, if_false, Bool.false_eq_true]
    have hnone : acc.find? (fun kv => kv.1 = bucketKey r) = none := by
      cases hf : acc.find? (fun kv => kv.1 = bucketKey r) with
      | none => rfl
      | some kv0 => rw [hf] at hpresent; simp at hpresent
    by_cases hk : bucketKey r = k
    · rw [← hk]
      rw [find_append_of_none _ _ _ hnone]
      simp [hnone]
    · rw [List.find?_append]
      cases hfind : acc.find? (fun kv => kv.1 = k) with
      | none =>
        simp only [Option.none_orElse]
        simp [hk]
      | some kv0 => simp [hk]

/-- The grouping step preserves well-formedness. -/
theorem groupsWF_groupStep (acc : List (Str × List ImportExportInfo))
    (r : ImportExportInfo) (hwf : groupsWF acc) :
    groupsWF (groupStep acc r) := by
  obtain ⟨hmem, hpw⟩ := hwf
  unfold groupStep
  by_cases hpresent : (acc.find? (fun kv => kv.1 = bucketKey r)).isSome = true
  · simp only [hpresent, if_true]
    constructor
    · intro kv hkv r2 hr2
      obtain ⟨kv0, hkv0mem, hkv0eq⟩ := List.mem_map.mp hkv
      by_cases h0 : kv0.1 = bucketKey r
      · rw [if_pos h0] at hkv0eq
        subst hkv0eq
        simp only []
        rcases List.mem_append.mp hr2 with hr2a | hr2b
        · exact hmem kv0 hkv0mem r2 hr2a
        · rw [List.mem_singleton.mp hr2b]
          exact h0.symm
      · rw [if_neg h0] at hkv0eq
        subst hkv0eq
        exact hmem kv0 hkv0mem r2 hr2
    · have hkeys : ∀ kv : Str × List ImportExportInfo,
          ((if kv.1 = bucketKey r then (kv.1, kv.2 ++ [r]) else kv) :
            Str × List ImportExportInfo).1 = kv.1 := by
        intro kv
        by_cases h0 : kv.1 = bucketKey r <;> simp [h0]
      rw [List.pairwise_map]
      refine hpw.imp_of_mem ?_
      intro a b _ _ hab
      rw [hkeys a, hkeys b]
      exact hab
  · simp only [hpresent, if_false, Bool.false_eq_true]
    have hnone : acc.find? (fun kv => kv.1 = bucketKey r) = none := by
      cases hf : acc.find? (fun kv => kv.1 = bucketKey r) with
      | none => rfl
      | some kv0 => rw [hf] at hpresent; simp at hpresent
    have habsent : ∀ kv ∈ acc, kv.1 ≠ bucketKey r := by
      intro kv hkv
      have := List.find?_eq_none.mp hnone kv hkv
      simpa using this
    constructor
    · intro kv hkv r2 hr2
      rcases List.mem_append.mp hkv with hkva | hkvb
      · exact hmem kv hkva r2 hr2
      · rw [List.mem_singleton.mp hkvb] at hr2 ⊢
        simp only []
        rw [List.mem_singleton.mp hr2]
    · rw [List.pairwise_append]
      refine ⟨hpw, List.pairwise_singleton _ _, ?_⟩
      intro a ha b hb
      rw [List.mem_singleton.mp hb]
      exact habsent a ha

/-- Folding the grouping step appends each record to its bucket. -/
theorem lookupGroup_foldl (rs : List ImportExportInfo)
    (acc : List (Str × List ImportExportInfo)) (k : Str) :
    lookupGroup (rs.foldl groupStep acc) k =
      lookupGroup acc k ++ rs.filter (fun r => bucketKey r = k) := by
  induction rs generalizing acc with
  | nil => simp
  | cons r rest ih =>
    rw [List.foldl_cons, ih, lookupGroup_groupStep, List.filter_cons]
    by_cases hk : bucketKey r = k
    · simp [hk]
    · simp [hk]

/-- The grouped fold is well-formed. -/
theorem groupsWF_foldl (rs : List ImportExportInfo)
    (acc : List (Str × List ImportExportInfo)) (hwf : groupsWF acc) :
    groupsWF (rs.foldl groupStep acc) := by
  induction rs generalizing acc with
  | nil => exact hwf
  | cons r rest ih => exact ih _ (groupsWF_groupStep _ _ hwf)

/-- Bucket lookup unfolds along a cons. -/
theorem lookupGroup_cons (kv : Str × List ImportExportInfo)
    (rest : List (Str × List ImportExportInfo)) (k : Str) :
    lookupGroup (kv :: rest) k =
      if kv.1 = k then kv.2 else lookupGroup rest k := by
  unfold lookupGroup
  by_cases h : kv.1 = k
  · rw [List.find?_cons_of_pos _ (by simpa using h), if_pos h]
  · rw [List.find?_cons_of_neg _ (by simpa using h), if_neg h]

/-- Filtering the sliced buckets of a well-formed grouping by a key
gives the sliced bucket of that key. -/
theorem filter_flatMap_groups (acc : List (Str × List ImportExportInfo))
    (hwf : groupsWF acc) (n : Nat) (key : Str) :
    (acc.flatMap (fun kv => kv.2.take n)).filter
      (fun r => bucketKey r = key) = (lookupGroup acc key).take n := by
  obtain ⟨hmem, hpw⟩ := hwf
  induction acc with
  | nil => simp [lookupGroup]
  | cons kv rest ih =>
    rw [List.flatMap_cons, List.filter_append]
    rw [List.pairwise_cons] at hpw
    have hrest := ih (fun kv2 h2 => hmem kv2 (List.mem_cons_of_mem _ h2))
      hpw.2
    by_cases hk : kv.1 = key
    · have hall : (kv.2.take n).filter (fun r => bucketKey r = key) =
          kv.2.take n := by
        rw [List.filter_eq_self]
        intro r hr
        have := hmem kv (List.mem_cons_self _ _) r (List.mem_of_mem_take hr)
        simp [this, hk]
      have hrestnone : lookupGroup rest key = [] := by
        unfold lookupGroup
        have hfind : rest.find? (fun kv2 => kv2.1 = key) = none := by
          rw [List.find?_eq_none]
          intro kv2 h2
          simp only [decide_eq_true_eq]
          rw [← hk]
          exact fun hh => (hpw.1 kv2 h2) hh.symm
        rw [hfind]
      rw [hall, hrest, hrestnone, lookupGroup_cons, if_pos hk]
      simp
    · have hnone : (kv.2.take n).filter (fun r => bucketKey r = key) = [] := by
        rw [List.filter_eq_nil]
        intro r hr
        have := hmem kv (List.mem_cons_self _ _) r (List.mem_of_mem_take hr)
        simp [this, hk]
      rw [hnone, hrest, lookupGroup_cons, if_neg hk]
      simp

end P6

/-- C4 (amended): with a positive limitPerType, getFileImportsExports
returns at most limitPerType records per (kind, pathType) bucket, the
cap being applied after the full scan, and the records kept in each
bucket are the first limitPerType of that bucket in scan order — the
scan running its passes in the order static imports, dynamic imports,
exports with a source, default exports, named exports, which need not
coincide with original statement order across passes. -/
theorem c4_limit_per_bucket (content : Str) (kind : P6.KindFilter)
    (pathTypes : List P6.PathType) (n : Nat) (hn : 0 < n) (key : Str) :
    ((P6.getFileImportsExports content
        { kind := kind, pathTypes := pathTypes,
          limitPerType := some n }).filter
      (fun r => P6.bucketKey r = key)) =
    ((P6.scanResults content
        { kind := kind, pathTypes := pathTypes,
          limitPerType := some n }).filter
      (fun r => P6.bucketKey r = key)).take n ∧
    ((P6.getFileImportsExports content
        { kind := kind, pathTypes := pathTypes,
          limitPerType := some n }).filter
      (fun r => P6.bucketKey r = key)).length ≤ n := by
  have hne : n ≠ 0 := Nat.pos_iff_ne_zero.mp hn
  have hmain : ((P6.getFileImportsExports content
      { kind := kind, pathTypes := pathTypes,
        limitPerType := some n }).filter
      (fun r => P6.bucketKey r = key)) =
      ((P6.scanResults content
        { kind := kind, pathTypes := pathTypes,
          limitPerType := some n }).filter
        (fun r => P6.bucketKey r = key)).take n := by
    unfold P6.getFileImportsExports
    simp only [hne, if_true, ne_eq, not_false_iff]
    unfold P6.applyLimit
    rw [P6.groupByKey_eq_foldl]
    rw [P6.filter_flatMap_groups _
      (P6.groupsWF_foldl _ [] ⟨by simp, List.Pairwise.nil⟩)]
    rw [P6.lookupGroup_foldl]
    rfl
  refine ⟨hmain, ?_⟩
  rw [hmain]
  exact List.length_take_le _ _

/-- Source text of the C4 counterexample: a dynamic import at offset 0
followed by a static import at offset 14, both of the same
(import, relative) bucket. -/
def c4content : Str := str ("import(\"./a\");import x from \"./b\";")

/-- C4 counterexample: with limitPerType 1 the record kept in the
(import, relative) bucket is the static import starting at offset 14,
while the full scan also finds the dynamic import of `./a` starting at
offset 0 — the kept record is not the first of its bucket in original
statement order, because the cap is applied to the per-pass scan order
(static imports before dynamic imports). -/
theorem c4_counterexample :
    (P6.getFileImportsExports c4content { limitPerType := some 1 }).map
      (fun r => (r.source, r.start)) = [(some (str ("./b")), 14)] ∧
    (P6.getFileImportsExports c4content {}).map
      (fun r => (r.source, r.start)) =
      [(some (str ("./b")), 14), (some (str ("./a")), 0)] ∧
    (0 : Nat) < 14 := by
  exact ⟨by decide, by decide, by decide⟩

/-- C4 witness: the amended bucket property evaluated on the concrete
content with limit one and the (import, relative) bucket. -/
theorem c4_witness :
    ((P6.getFileImportsExports c4content
        { kind := .allK,
          pathTypes := [.alias, .relative, .absolute, .bare, .moduleT],
          limitPerType := some 1 }).filter
      (fun r => P6.bucketKey r = str ("import-relative"))) =
    ((P6.scanResults c4content
        { kind := .allK,
          pathTypes := [.alias, .relative, .absolute, .bare, .moduleT],
          limitPerType := some 1 }).filter
      (fun r => P6.bucketKey r = str ("import-relative"))).take 1 ∧
    ((P6.getFileImportsExports c4content
        { kind := .allK,
          pathTypes := [.alias, .relative, .absolute, .bare, .moduleT],
          limitPerType := some 1 }).filter
      (fun r => P6.bucketKey r = str ("import-relative"))).length ≤ 1 :=
  c4_limit_per_bucket c4content .allK
    [.alias, .relative, .absolute, .bare, .moduleT] 1 (by decide)
    (str ("import-relative"))

/-- C7 counterexample: normalize is not idempotent.  A bare lowercase
drive `c:` first gains a slash and only the second pass upper-cases the
drive letter. -/
theorem c7_counterexample :
    PK.normalize (str ("c:")) = str ("c:/") ∧
    PK.normalize (PK.normalize (str ("c:"))) = str ("C:/") ∧
    PK.normalize (PK.normalize (str ("c:"))) ≠ PK.normalize (str ("c:")) := by
  exact ⟨by decide, by decide, by decide⟩

/-- C8 counterexample: the resolve/relative round trip fails for the
absolute path `/c:/x`.  Resolving it yields `c:/x`; re-resolving the
relative result upper-cases the now-leading drive letter, so the round
trip produces `C:/x` instead. -/
theorem c8_counterexample :
    PK.isAbsolute (str ("/c:/x")) = true ∧
    PK.relative (str ("/")) (str ("/")) (str ("/c:/x")) = str ("c:/x") ∧
    PK.resolve (str ("/"))
      [str ("/"), PK.relative (str ("/")) (str ("/")) (str ("/c:/x"))] =
      str ("C:/x") ∧
    PK.resolve (str ("/")) [str ("/c:/x")] = str ("c:/x") ∧
    str ("C:/x") ≠ str ("c:/x") := by
  exact ⟨by decide, by decide, by decide, by decide, by decide⟩

namespace PKSpec

/-! Specification-level account of `PK.normalizeString`: the character
loop is proved equal to a fold of a segment-stack step over the
slash-split input.  Everything the amended C7 and C8 claims need is
then derived on that clean model. -/

/-- The double-dot segment. -/
def dd : Str := ['.', '.']

/-- A clean segment: non-empty, slash- and backslash-free, neither `.`
nor `..`. -/
def clean (s : Str) : Prop :=
  s ≠ [] ∧ '/' ∉ s ∧ bslash ∉ s ∧ s ≠ ['.'] ∧ s ≠ dd

/-- Length of the most recent segment of the stack. -/
def headLen : List Str → Nat
  | [] => 0
  | s :: _ => s.length

/-- The string held by the loop's `res` variable: the stack's segments
joined, oldest first. -/
def joinRev (stack : List Str) : Str := joinSlash stack.reverse

/-- Effect of a double-dot segment on the stack: pops a regular
segment, stacks above the root when that is allowed. -/
def collapsePop (aar : Bool) : List Str → List Str
  | [] => if aar then [dd] else []
  | top :: rest =>
    if top = dd then (if aar then dd :: top :: rest else top :: rest)
    else rest

/-- One segment of the collapse: empties and dots are dropped, a
double dot pops, and every other segment is pushed. -/
def collapseStep (aar : Bool) (stack : List Str) (seg : Str) : List Str :=
  if seg = [] ∨ seg = ['.'] then stack
  else if seg = dd then collapsePop aar stack
  else seg :: stack

/-- Collapse of a segment list over a starting stack. -/
def collapseList (aar : Bool) (stack : List Str) (segs : List Str) :
    List Str :=
  segs.foldl (collapseStep aar) stack

/-- Value of the loop's `dots` counter for a partial segment. -/
def dotsOf (seg : Str) : Int :=
  if seg.all (· = '.') then (seg.length : Int) else -1

/-- Stack segments produced by the loop are non-empty and slash-free. -/
def segsWF (stack : List Str) : Prop := ∀ s ∈ stack, s ≠ [] ∧ '/' ∉ s

/-- Join of a snoc. -/
theorem joinSlash_append_single (xs : List Str) (s : Str) :
    joinSlash (xs ++ [s]) =
      (if xs = [] then s else joinSlash xs ++ '/' :: s) := by
  induction xs with
  | nil => rfl
  | cons x xs ih =>
    cases xs with
    | nil => rfl
    | cons y ys =>
      simp only [List.cons_append]
      show x ++ '/' :: joinSlash ((y :: ys) ++ [s]) = _
      rw [ih]
      simp [joinSlash]

/-- Join of a stack with a new most-recent segment. -/
theorem joinRev_cons (s : Str) (stack : List Str) :
    joinRev (s :: stack) =
      (if stack = [] then s else joinRev stack ++ '/' :: s) := by
  unfold joinRev
  rw [List.reverse_cons, joinSlash_append_single]
  by_cases h : stack = []
  · simp [h]
  · rw [if_neg (by simpa using h), if_neg h]

/-- A non-empty well-formed stack joins to a non-empty string. -/
theorem joinRev_ne_nil (stack : List Str) (hwf : segsWF stack)
    (hne : stack ≠ []) : joinRev stack ≠ [] := by
  cases stack with
  | nil => exact absurd rfl hne
  | cons s rest =>
    rw [joinRev_cons]
    by_cases h : rest = []
    · rw [if_pos h]
      exact (hwf s (List.mem_cons_self _ _)).1
    · rw [if_neg h]
      simp

/-- Length of the join of a cons with non-empty tail. -/
theorem joinRev_cons_length (s : Str) (stack : List Str)
    (hne : stack ≠ []) :
    (joinRev (s :: stack)).length =
      (joinRev stack).length + 1 + s.length := by
  rw [joinRev_cons, if_neg hne]
  simp
  omega

/-- The last-occurrence search over an append. -/
theorem lastIndexOfAux_append (c : Char) (l1 l2 : Str) :
    lastIndexOfAux c (l1 ++ l2) =
      (match lastIndexOfAux c l2 with
       | some i => some (l1.length + i)
       | none => lastIndexOfAux c l1) := by
  induction l1 with
  | nil =>
    show lastIndexOfAux c l2 = _
    cases h : lastIndexOfAux c l2 with
    | none => rfl
    | some i => simp
  | cons x xs ih =>
    show (match lastIndexOfAux c (xs ++ l2) with
          | some i => some (i + 1)
          | none => if x = c then some 0 else none) = _
    rw [ih]
    cases h2 : lastIndexOfAux c l2 with
    | none =>
      conv_rhs => rw [lastIndexOfAux]
    | some i =>
      show some (xs.length + i + 1) = some (xs.length + 1 + i)
      rw [Nat.add_right_comm]

/-- No occurrence means no index. -/
theorem lastIndexOfAux_of_not_mem (c : Char) (l : Str) (h : c ∉ l) :
    lastIndexOfAux c l = none := by
  induction l with
  | nil => rfl
  | cons x xs ih =>
    unfold lastIndexOfAux
    rw [ih (fun hm => h (List.mem_cons_of_mem _ hm))]
    rw [if_neg (fun hx => h (by rw [hx]; exact List.mem_cons_self _ _))]

/-- Last slash position in a joined stack. -/
theorem lastIndexOf_slash_joinRev (s : Str) (stack : List Str)
    (hwf : segsWF (s :: stack)) :
    jsLastIndexOf (joinRev (s :: stack)) '/' =
      (if stack = [] then (-1 : Int) else ((joinRev stack).length : Int)) := by
  have hs := hwf s (List.mem_cons_self _ _)
  rw [joinRev_cons]
  by_cases h : stack = []
  · rw [if_pos h, if_pos h]
    unfold jsLastIndexOf
    rw [lastIndexOfAux_of_not_mem _ _ hs.2]
  · rw [if_neg h, if_neg h]
    unfold jsLastIndexOf
    rw [lastIndexOfAux_append]
    have hstep : lastIndexOfAux '/' ('/' :: s) = some 0 := by
      unfold lastIndexOfAux
      rw [lastIndexOfAux_of_not_mem _ _ hs.2]
      simp
    rw [hstep]
    simp

/-- Truncating a joined stack at the last slash recovers the popped
stack. -/
theorem take_joinRev (s : Str) (stack : List Str) (hne : stack ≠ []) :
    (joinRev (s :: stack)).take (joinRev stack).length = joinRev stack := by
  rw [joinRev_cons, if_neg hne]
  exact List.take_left _ _

/-- A string of the form `prefix ++ top` with a two-character `top`
ends in `..` exactly when `top` is `..`. -/
theorem endsWith_dd_iff (b top : Str) (hlen : top.length = 2) :
    jsEndsWith (b ++ top) dd = true ↔ top = dd := by
  unfold jsEndsWith
  rw [List.isSuffixOf_iff_suffix]
  constructor
  · intro h
    obtain ⟨pre, hpre⟩ := h
    exact ((List.append_inj' hpre (by simp [dd, hlen])).2).symm
  · intro h
    rw [h]
    exact List.suffix_append _ _

end PKSpec

namespace PKSpec

/-- The literal `..` as a character list. -/
theorem str_dd : str (".." ) = dd := by decide

/-- The literal `/..` as a character list. -/
theorem str_slashdd : str ("/..") = '/' :: dd := by decide

/-- A well-formed stack stays well formed without its head. -/
theorem segsWF_tail {s : Str} {l : List Str} (h : segsWF (s :: l)) :
    segsWF l := fun x hx => h x (List.mem_cons_of_mem _ hx)

/-- The head of a well-formed stack is non-empty and slash-free. -/
theorem segsWF_head {s : Str} {l : List Str} (h : segsWF (s :: l)) :
    s ≠ [] ∧ '/' ∉ s := h s (List.mem_cons_self _ _)

/-- A one-segment stack joins to that segment. -/
theorem joinRev_single (s : Str) : joinRev [s] = s := rfl

/-- A join is at least as long as the most recent segment. -/
theorem joinRev_cons_length_ge (s : Str) (stack : List Str) :
    s.length ≤ (joinRev (s :: stack)).length := by
  rw [joinRev_cons]
  by_cases h : stack = []
  · rw [if_pos h]
  · rw [if_neg h]
    simp
    omega

/-- Only the single dot has exactly one counted dot. -/
theorem dotsOf_eq_one {seg : Str} (h : dotsOf seg = 1) : seg = ['.'] := by
  unfold dotsOf at h
  by_cases ha : seg.all (fun c => c = '.')
  · rw [if_pos ha] at h
    have hlen : seg.length = 1 := by exact_mod_cast h
    cases seg with
    | nil => simp at hlen
    | cons c cs =>
      cases cs with
      | nil =>
        have hc := List.all_eq_true.mp ha c (List.mem_cons_self _ _)
        simp at hc
        rw [hc]
      | cons d ds => simp at hlen
  · rw [if_neg ha] at h
    exact absurd h (by decide)

/-- Only the double dot has exactly two counted dots. -/
theorem dotsOf_eq_two {seg : Str} (h : dotsOf seg = 2) : seg = dd := by
  unfold dotsOf at h
  by_cases ha : seg.all (fun c => c = '.')
  · rw [if_pos ha] at h
    have hlen : seg.length = 2 := by exact_mod_cast h
    cases seg with
    | nil => simp at hlen
    | cons c cs =>
      cases cs with
      | nil => simp at hlen
      | cons d ds =>
        cases ds with
        | nil =>
          have hc := List.all_eq_true.mp ha c (List.mem_cons_self _ _)
          have hd := List.all_eq_true.mp ha d
            (List.mem_cons_of_mem _ (List.mem_cons_self _ _))
          simp at hc hd
          rw [hc, hd]
          rfl
        | cons e es => simp at hlen
  · rw [if_neg ha] at h
    exact absurd h (by decide)

/-- A join with a two-character head ends in `..` exactly when the head
is `..`. -/
theorem joinRev_endsWith_dd (top : Str) (rest : List Str)
    (hlen : top.length = 2) :
    jsEndsWith (joinRev (top :: rest)) dd = true ↔ top = dd := by
  rw [joinRev_cons]
  by_cases h : rest = []
  · rw [if_pos h]
    have h2 := endsWith_dd_iff [] top hlen
    simpa using h2
  · rw [if_neg h]
    have hsplit : joinRev rest ++ '/' :: top =
        (joinRev rest ++ ['/']) ++ top := by simp
    rw [hsplit]
    exact endsWith_dd_iff _ _ hlen

/-- `flushSeg` on loop state matching a stack performs exactly one
collapse step. -/
theorem flushSeg_spec (aar : Bool) (stack : List Str) (seg : Str)
    (hwf : segsWF stack) :
    PK.flushSeg aar (joinRev stack) (headLen stack) (dotsOf seg) seg =
      (joinRev (collapseStep aar stack seg),
       headLen (collapseStep aar stack seg)) := by
  by_cases h0 : seg = [] ∨ seg = ['.']
  · have hg : seg = [] ∨ dotsOf seg = 1 := by
      rcases h0 with h | h
      · exact Or.inl h
      · exact Or.inr (by rw [h]; rfl)
    unfold PK.flushSeg collapseStep
    rw [if_pos hg, if_pos h0]
  · have hg : ¬ (seg = [] ∨ dotsOf seg = 1) := by
      rintro (h | h)
      · exact h0 (Or.inl h)
      · exact h0 (Or.inr (dotsOf_eq_one h))
    by_cases hdd : seg = dd
    · subst hdd
      have h2 : dotsOf dd = 2 := rfl
      unfold PK.flushSeg collapseStep
      rw [if_neg hg, if_pos h2, if_neg h0, if_pos rfl, str_dd]
      cases stack with
      | nil => cases aar <;> decide
      | cons top rest =>
        by_cases htop : top = dd
        · subst htop
          have hC : ¬ ((joinRev (dd :: rest)).length < 2 ∨
              headLen (dd :: rest) ≠ 2 ∨
              ¬ jsEndsWith (joinRev (dd :: rest)) dd) := by
            push_neg
            refine ⟨?_, rfl, ?_⟩
            · have hge := joinRev_cons_length_ge dd rest
              have hdl : dd.length = 2 := rfl
              omega
            · exact (joinRev_endsWith_dd dd rest rfl).mpr rfl
          rw [if_neg hC]
          have hpos : (joinRev (dd :: rest)).length > 0 :=
            List.length_pos.mpr
              (joinRev_ne_nil _ hwf (List.cons_ne_nil _ _))
          rw [if_pos hpos, str_slashdd]
          have hj : joinRev (dd :: dd :: rest) =
              joinRev (dd :: rest) ++ '/' :: dd := by
            rw [joinRev_cons, if_neg (List.cons_ne_nil _ _)]
          cases aar with
          | false => rfl
          | true =>
            show (joinRev (dd :: rest) ++ '/' :: dd, 2) =
              (joinRev (dd :: dd :: rest), headLen (dd :: dd :: rest))
            rw [hj]
            rfl
        · have hC : (joinRev (top :: rest)).length < 2 ∨
              headLen (top :: rest) ≠ 2 ∨
              ¬ jsEndsWith (joinRev (top :: rest)) dd := by
            by_cases hl2 : top.length = 2
            · refine Or.inr (Or.inr ?_)
              intro hE
              exact htop ((joinRev_endsWith_dd top rest hl2).mp hE)
            · exact Or.inr (Or.inl hl2)
          rw [if_pos hC]
          have hpopr : collapsePop aar (top :: rest) = rest := by
            show (if top = dd then _ else rest) = rest
            rw [if_neg htop]
          rw [hpopr]
          cases rest with
          | nil =>
            rw [joinRev_single]
            by_cases hgt : top.length > 2
            · rw [if_pos hgt]
              have hnone : jsLastIndexOf top '/' = -1 := by
                unfold jsLastIndexOf
                rw [lastIndexOfAux_of_not_mem _ _ (segsWF_head hwf).2]
              rw [if_pos hnone]
              rfl
            · rw [if_neg hgt,
                if_pos (List.length_pos.mpr (segsWF_head hwf).1)]
              rfl
          | cons r rs =>
            have hwfr : segsWF (r :: rs) := segsWF_tail hwf
            have hjne : joinRev (r :: rs) ≠ [] :=
              joinRev_ne_nil _ hwfr (List.cons_ne_nil _ _)
            have hlen3 : (joinRev (top :: r :: rs)).length =
                (joinRev (r :: rs)).length + 1 + top.length :=
              joinRev_cons_length _ _ (List.cons_ne_nil _ _)
            have htoppos : 0 < top.length :=
              List.length_pos.mpr (segsWF_head hwf).1
            have hjpos : 0 < (joinRev (r :: rs)).length :=
              List.length_pos.mpr hjne
            have hgt : (joinRev (top :: r :: rs)).length > 2 := by omega
            rw [if_pos hgt]
            have hli : jsLastIndexOf (joinRev (top :: r :: rs)) '/' =
                ((joinRev (r :: rs)).length : Int) := by
              rw [lastIndexOf_slash_joinRev _ _ hwf,
                if_neg (List.cons_ne_nil _ _)]
            have hline : ¬ jsLastIndexOf (joinRev (top :: r :: rs)) '/' =
                -1 := by
              rw [hli]
              omega
            rw [if_neg hline, hli]
            have htn : (((joinRev (r :: rs)).length : Int)).toNat =
                (joinRev (r :: rs)).length := Int.toNat_natCast _
            rw [htn, take_joinRev top (r :: rs) (List.cons_ne_nil _ _)]
            have hli2 := lastIndexOf_slash_joinRev r rs hwfr
            cases rs with
            | nil =>
              rw [if_pos rfl] at hli2
              rw [hli2]
              congr 1
              rw [joinRev_single]
              show ((List.length r : Int) - 1 - -1).toNat = r.length
              omega
            | cons r2 rs2 =>
              rw [if_neg (List.cons_ne_nil _ _)] at hli2
              rw [hli2]
              have hlen4 : (joinRev (r :: r2 :: rs2)).length =
                  (joinRev (r2 :: rs2)).length + 1 + r.length :=
                joinRev_cons_length _ _ (List.cons_ne_nil _ _)
              congr 1
              show ((List.length (joinRev (r :: r2 :: rs2)) : Int) - 1 -
                (List.length (joinRev (r2 :: rs2)) : Int)).toNat = r.length
              omega
    · have hne2 : ¬ dotsOf seg = 2 := fun h => hdd (dotsOf_eq_two h)
      unfold PK.flushSeg collapseStep
      rw [if_neg hg, if_neg hne2, if_neg h0, if_neg hdd]
      cases stack with
      | nil =>
        rw [if_neg (by decide : ¬ (joinRev ([] : List Str)).length > 0),
          joinRev_single]
        rfl
      | cons t ts =>
        have hpos : (joinRev (t :: ts)).length > 0 :=
          List.length_pos.mpr
            (joinRev_ne_nil _ hwf (List.cons_ne_nil _ _))
        rw [if_pos hpos]
        have hj : joinRev (seg :: t :: ts) =
            joinRev (t :: ts) ++ '/' :: seg := by
          rw [joinRev_cons, if_neg (List.cons_ne_nil _ _)]
        rw [hj]
        rfl

end PKSpec

namespace PKSpec

/-- Popping preserves stack well-formedness. -/
theorem segsWF_collapsePop (aar : Bool) (stack : List Str)
    (hwf : segsWF stack) : segsWF (collapsePop aar stack) := by
  cases stack with
  | nil =>
    cases aar with
    | false => intro x hx; exact absurd hx (List.not_mem_nil x)
    | true =>
      intro x hx
      rw [List.mem_singleton.mp hx]
      exact ⟨by decide, by decide⟩
  | cons top rest =>
    show segsWF (if top = dd then _ else rest)
    by_cases h : top = dd
    · rw [if_pos h]
      cases aar with
      | false => exact hwf
      | true =>
        intro x hx
        rcases List.mem_cons.mp hx with h1 | h1
        · rw [h1]; exact ⟨by decide, by decide⟩
        · exact hwf x h1
    · rw [if_neg h]
      exact segsWF_tail hwf

/-- A collapse step preserves stack well-formedness for a slash-free
segment. -/
theorem segsWF_collapseStep (aar : Bool) (stack : List Str) (seg : Str)
    (hwf : segsWF stack) (hsl : '/' ∉ seg) :
    segsWF (collapseStep aar stack seg) := by
  unfold collapseStep
  by_cases h0 : seg = [] ∨ seg = ['.']
  · rw [if_pos h0]; exact hwf
  · rw [if_neg h0]
    by_cases hdd : seg = dd
    · rw [if_pos hdd]
      exact segsWF_collapsePop aar stack hwf
    · rw [if_neg hdd]
      intro x hx
      rcases List.mem_cons.mp hx with h1 | h1
      · rw [h1]
        exact ⟨fun h => h0 (Or.inl h), hsl⟩
      · exact hwf x h1

/-- Remaining split of the input when `seg` characters are already
consumed into the current segment. -/
def splitSlashCont (seg : Str) (cs : Str) : List Str :=
  (seg ++ ((splitSlash cs).headD [])) :: (splitSlash cs).tail

/-- The split of the empty remainder. -/
theorem splitSlashCont_nil (seg : Str) : splitSlashCont seg [] = [seg] := by
  simp [splitSlashCont, splitSlash]

/-- Unfolding equation of the split at a cons. -/
theorem splitSlash_cons (c : Char) (cs : Str) :
    splitSlash (c :: cs) =
      (if c = '/' then [] :: splitSlash cs
       else
         match splitSlash cs with
         | [] => [[c]]
         | p :: ps => (c :: p) :: ps) := rfl

/-- The split never returns the empty list of pieces. -/
theorem splitSlash_ne_nil (cs : Str) : splitSlash cs ≠ [] := by
  cases cs with
  | nil => decide
  | cons c cs2 =>
    rw [splitSlash_cons]
    by_cases h : c = '/'
    · rw [if_pos h]
      exact List.cons_ne_nil _ _
    · rw [if_neg h]
      cases hsp : splitSlash cs2 with
      | nil => exact List.cons_ne_nil _ _
      | cons p ps => exact List.cons_ne_nil _ _

/-- With an empty current segment the continuation split is the plain
split. -/
theorem splitSlashCont_nil_eq (cs : Str) :
    splitSlashCont [] cs = splitSlash cs := by
  unfold splitSlashCont
  cases hsp : splitSlash cs with
  | nil => exact absurd hsp (splitSlash_ne_nil cs)
  | cons p ps => simp [hsp]

/-- A slash closes the current segment. -/
theorem splitSlashCont_slash (seg : Str) (cs : Str) :
    splitSlashCont seg ('/' :: cs) = seg :: splitSlash cs := by
  unfold splitSlashCont
  rw [splitSlash_cons, if_pos rfl]
  simp

/-- A non-slash character extends the current segment. -/
theorem splitSlashCont_nonslash {c : Char} (hc : ¬ c = '/') (seg cs : Str) :
    splitSlashCont seg (c :: cs) = splitSlashCont (seg ++ [c]) cs := by
  unfold splitSlashCont
  rw [splitSlash_cons, if_neg hc]
  cases hsp : splitSlash cs with
  | nil => exact absurd hsp (splitSlash_ne_nil cs)
  | cons p ps => simp

/-- A dot extends the dot counter when it has not been abandoned. -/
theorem dotsOf_append_dot {seg : Str} (h : dotsOf seg ≠ -1) :
    dotsOf (seg ++ ['.']) = dotsOf seg + 1 := by
  unfold dotsOf at h ⊢
  by_cases ha : seg.all (fun c => c = '.')
  · rw [if_pos ha]
    rw [if_pos (by simp [List.all_append, ha])]
    simp
  · rw [if_neg ha] at h
    exact absurd rfl h

/-- Any other appended character abandons the dot counter. -/
theorem dotsOf_append_other {seg : Str} {c : Char}
    (h : ¬ (c = '.' ∧ dotsOf seg ≠ -1)) :
    dotsOf (seg ++ [c]) = -1 := by
  unfold dotsOf
  rw [if_neg ?_]
  intro hall
  have hc : c = '.' := by
    have := List.all_eq_true.mp hall c (by simp)
    simpa using this
  have hseg : seg.all (fun x => x = '.') := by
    rw [List.all_eq_true]
    intro x hx
    exact List.all_eq_true.mp hall x (List.mem_append_left _ hx)
  refine h ⟨hc, ?_⟩
  unfold dotsOf
  rw [if_pos hseg]
  omega

/-- The character loop of `normalizeString` is the fold of the collapse
step over the slash-split remainder. -/
theorem normalizeStringGo_spec (aar : Bool) (cs : Str) :
    ∀ (stack : List Str) (seg : Str), segsWF stack → '/' ∉ seg →
    PK.normalizeStringGo aar cs (joinRev stack) (headLen stack)
        (dotsOf seg) seg =
      joinRev (collapseList aar stack (splitSlashCont seg cs)) := by
  induction cs with
  | nil =>
    intro stack seg hwf hsl
    show (PK.flushSeg aar (joinRev stack) (headLen stack)
        (dotsOf seg) seg).1 = _
    rw [flushSeg_spec aar stack seg hwf, splitSlashCont_nil]
    rfl
  | cons c cs ih =>
    intro stack seg hwf hsl
    unfold PK.normalizeStringGo
    by_cases hc : c = '/'
    · rw [if_pos hc, hc]
      show PK.normalizeStringGo aar cs
          (PK.flushSeg aar (joinRev stack) (headLen stack)
            (dotsOf seg) seg).1
          (PK.flushSeg aar (joinRev stack) (headLen stack)
            (dotsOf seg) seg).2 0 [] = _
      rw [flushSeg_spec aar stack seg hwf]
      show PK.normalizeStringGo aar cs
          (joinRev (collapseStep aar stack seg))
          (headLen (collapseStep aar stack seg)) (dotsOf []) [] = _
      rw [ih (collapseStep aar stack seg) []
          (segsWF_collapseStep aar stack seg hwf hsl)
          (List.not_mem_nil '/'),
        splitSlashCont_nil_eq, splitSlashCont_slash]
      rfl
    · rw [if_neg hc]
      have hslc : '/' ∉ seg ++ [c] := by
        intro hmem
        rcases List.mem_append.mp hmem with h | h
        · exact hsl h
        · exact hc (List.mem_singleton.mp h).symm
      by_cases hdot : c = '.' ∧ dotsOf seg ≠ -1
      · rw [if_pos hdot]
        have hd : dotsOf seg + 1 = dotsOf (seg ++ [c]) := by
          rw [hdot.1]
          exact (dotsOf_append_dot hdot.2).symm
        rw [hd, ih stack (seg ++ [c]) hwf hslc,
          splitSlashCont_nonslash hc]
      · rw [if_neg hdot]
        have hd : (-1 : Int) = dotsOf (seg ++ [c]) :=
          (dotsOf_append_other hdot).symm
        rw [hd, ih stack (seg ++ [c]) hwf hslc,
          splitSlashCont_nonslash hc]

/-- `normalizeString` is the segment collapse of the slash-split
input. -/
theorem normalizeString_spec (s : Str) (aar : Bool) :
    PK.normalizeString s aar =
      joinRev (collapseList aar [] (splitSlash s)) := by
  show PK.normalizeStringGo aar s (joinRev []) (headLen []) (dotsOf []) [] = _
  rw [normalizeStringGo_spec aar s []
      [] (fun x hx => absurd hx (List.not_mem_nil x)) (List.not_mem_nil '/'),
    splitSlashCont_nil_eq]

end PKSpec

namespace PKSpec

/-- A slash-free string splits into itself. -/
theorem splitSlash_of_not_mem (s : Str) (h : '/' ∉ s) :
    splitSlash s = [s] := by
  induction s with
  | nil => rfl
  | cons c cs ih =>
    rw [splitSlash_cons,
      if_neg (fun hc => h (by rw [hc]; exact List.mem_cons_self _ _)),
      ih (fun hm => h (List.mem_cons_of_mem _ hm))]

/-- Splitting a slash-free segment followed by a slash peels the
segment. -/
theorem splitSlash_seg_slash (s r : Str) (h : '/' ∉ s) :
    splitSlash (s ++ '/' :: r) = s :: splitSlash r := by
  induction s with
  | nil =>
    show splitSlash ('/' :: r) = [] :: splitSlash r
    rw [splitSlash_cons, if_pos rfl]
  | cons c cs ih =>
    have hc : ¬ c = '/' := fun hc => h (by rw [hc]; exact List.mem_cons_self _ _)
    show splitSlash (c :: (cs ++ '/' :: r)) = (c :: cs) :: splitSlash r
    rw [splitSlash_cons, if_neg hc, ih (fun hm => h (List.mem_cons_of_mem _ hm))]

/-- Splitting is a left inverse of joining for slash-free pieces. -/
theorem splitSlash_joinSlash (L : List Str) (hL : ∀ s ∈ L, '/' ∉ s)
    (hne : L ≠ []) : splitSlash (joinSlash L) = L := by
  induction L with
  | nil => exact absurd rfl hne
  | cons s rest ih =>
    cases rest with
    | nil =>
      show splitSlash s = [s]
      exact splitSlash_of_not_mem s (hL s (List.mem_cons_self _ _))
    | cons t ts =>
      show splitSlash (s ++ '/' :: joinSlash (t :: ts)) = s :: t :: ts
      rw [splitSlash_seg_slash _ _ (hL s (List.mem_cons_self _ _)),
        ih (fun x hx => hL x (List.mem_cons_of_mem _ hx)) (List.cons_ne_nil _ _)]

/-- A trailing slash splits off one empty piece. -/
theorem splitSlash_append_slash (x : Str) :
    splitSlash (x ++ ['/']) = splitSlash x ++ [[]] := by
  induction x with
  | nil => rfl
  | cons c cs ih =>
    show splitSlash (c :: (cs ++ ['/'])) = splitSlash (c :: cs) ++ [[]]
    rw [splitSlash_cons, splitSlash_cons]
    by_cases hc : c = '/'
    · rw [if_pos hc, if_pos hc, ih]
      rfl
    · rw [if_neg hc, if_neg hc, ih]
      cases hsp : splitSlash cs with
      | nil => exact absurd hsp (splitSlash_ne_nil cs)
      | cons p ps => rfl

/-- An empty segment is dropped by the collapse. -/
theorem collapseStep_nilseg (aar : Bool) (stack : List Str) :
    collapseStep aar stack [] = stack := by
  unfold collapseStep
  rw [if_pos (Or.inl rfl)]

/-- A dot segment is dropped by the collapse. -/
theorem collapseStep_dotseg (aar : Bool) (stack : List Str) :
    collapseStep aar stack ['.'] = stack := by
  unfold collapseStep
  rw [if_pos (Or.inr rfl)]

/-- A clean segment is pushed by the collapse. -/
theorem collapseStep_clean (aar : Bool) (stack : List Str) {seg : Str}
    (h : clean seg) : collapseStep aar stack seg = seg :: stack := by
  unfold collapseStep
  rw [if_neg (fun h0 => h0.elim h.1 h.2.2.2.1), if_neg h.2.2.2.2]

/-- A double dot pops a clean head. -/
theorem collapseStep_dd_pop (aar : Bool) (top : Str) (rest : List Str)
    (h : top ≠ dd) : collapseStep aar (top :: rest) dd = rest := by
  unfold collapseStep
  rw [if_neg (by decide), if_pos rfl]
  show (if top = dd then _ else rest) = rest
  rw [if_neg h]

/-- A double dot stacks on an all-dot stack when above-root is
allowed. -/
theorem collapseStep_dd_grow (rest : List Str) :
    collapseStep true (dd :: rest) dd = dd :: dd :: rest := by
  unfold collapseStep
  rw [if_neg (by decide), if_pos rfl]
  show (if dd = dd then _ else rest) = dd :: dd :: rest
  rw [if_pos rfl]
  rfl

/-- The collapse of a concatenation is the composition. -/
theorem collapseList_append (aar : Bool) (st : List Str)
    (L1 L2 : List Str) :
    collapseList aar st (L1 ++ L2) =
      collapseList aar (collapseList aar st L1) L2 := by
  simp [collapseList, List.foldl_append]

/-- Double dots accumulate over an all-dot stack. -/
theorem collapseList_replicate_dd (k : Nat) :
    ∀ j, collapseList true (List.replicate j dd) (List.replicate k dd) =
      List.replicate (j + k) dd := by
  induction k with
  | zero => intro j; simp [collapseList]
  | succ k ih =>
    intro j
    show collapseList true
      (collapseStep true (List.replicate j dd) dd) (List.replicate k dd) = _
    have hstep : collapseStep true (List.replicate j dd) dd =
        List.replicate (j + 1) dd := by
      cases j with
      | zero => decide
      | succ j2 =>
        rw [List.replicate_succ, collapseStep_dd_grow]
        rw [show List.replicate (j2 + 1 + 1) dd =
          dd :: dd :: List.replicate j2 dd from by simp [List.replicate_succ]]
    rw [hstep, ih (j + 1)]
    congr 1
    omega

/-- Clean segments push onto any stack in reverse. -/
theorem collapseList_push_cleans (aar : Bool) (L : List Str)
    (stack : List Str) (h : ∀ s ∈ L, clean s) :
    collapseList aar stack L = L.reverse ++ stack := by
  induction L generalizing stack with
  | nil => simp [collapseList]
  | cons c l ih =>
    show collapseList aar (collapseStep aar stack c) l = _
    rw [collapseStep_clean aar stack (h c (List.mem_cons_self _ _)),
      ih (c :: stack) (fun x hx => h x (List.mem_cons_of_mem _ hx))]
    simp

/-- Double dots pop clean stack entries one by one. -/
theorem collapseList_pop_dds (aar : Bool) (m : Nat) :
    ∀ (stack : List Str), m ≤ stack.length → (∀ s ∈ stack, s ≠ dd) →
    collapseList aar stack (List.replicate m dd) = stack.drop m := by
  induction m with
  | zero => intro stack _ _; simp [collapseList]
  | succ m ih =>
    intro stack hlen hdd
    cases stack with
    | nil => simp at hlen
    | cons t rest =>
      rw [List.replicate_succ]
      show collapseList aar (collapseStep aar (t :: rest) dd)
        (List.replicate m dd) = _
      rw [collapseStep_dd_pop aar t rest (hdd t (List.mem_cons_self _ _)),
        ih rest (by simpa using hlen)
          (fun s hs => hdd s (List.mem_cons_of_mem _ hs))]
      rfl

/-- The collapsed stack of any backslash-free input is clean segments
over above-root double dots. -/
theorem Good_collapseList (aar : Bool) (L : List Str)
    (hL : ∀ s ∈ L, '/' ∉ s ∧ bslash ∉ s) :
    ∀ (cs : List Str) (k : Nat), (∀ s ∈ cs, clean s) →
      (aar = false → k = 0) →
    ∃ cs2 k2, collapseList aar (cs ++ List.replicate k dd) L =
        cs2 ++ List.replicate k2 dd ∧
      (∀ s ∈ cs2, clean s) ∧ (aar = false → k2 = 0) := by
  induction L with
  | nil =>
    intro cs k hcs hk
    exact ⟨cs, k, rfl, hcs, hk⟩
  | cons seg L ih =>
    intro cs k hcs hk
    show ∃ cs2 k2,
      collapseList aar (collapseStep aar (cs ++ List.replicate k dd) seg) L =
        _ ∧ _
    have hseg := hL seg (List.mem_cons_self _ _)
    have hL2 : ∀ s ∈ L, '/' ∉ s ∧ bslash ∉ s :=
      fun s hs => hL s (List.mem_cons_of_mem _ hs)
    by_cases h0 : seg = [] ∨ seg = ['.']
    · have : collapseStep aar (cs ++ List.replicate k dd) seg =
          cs ++ List.replicate k dd := by
        rcases h0 with h | h
        · rw [h, collapseStep_nilseg]
        · rw [h, collapseStep_dotseg]
      rw [this]
      exact ih hL2 cs k hcs hk
    · by_cases hdd2 : seg = dd
      · subst hdd2
        cases cs with
        | cons c cs1 =>
          have : collapseStep aar ((c :: cs1) ++ List.replicate k dd) dd =
              cs1 ++ List.replicate k dd := by
            show collapseStep aar (c :: (cs1 ++ List.replicate k dd)) dd = _
            exact collapseStep_dd_pop aar c _
              (hcs c (List.mem_cons_self _ _)).2.2.2.2
          rw [this]
          exact ih hL2 cs1 k
            (fun s hs => hcs s (List.mem_cons_of_mem _ hs)) hk
        | nil =>
          by_cases haar : aar = true
          · subst haar
            have hstep : collapseStep true ([] ++ List.replicate k dd) dd =
                [] ++ List.replicate (k + 1) dd := by
              cases k with
              | zero => decide
              | succ k2 =>
                show collapseStep true (List.replicate (k2 + 1) dd) dd = _
                rw [List.replicate_succ, collapseStep_dd_grow]
                simp [List.replicate_succ]
            rw [hstep]
            exact ih hL2 [] (k + 1)
              (fun s hs => absurd hs (List.not_mem_nil s)) (fun h => by simp at h)
          · have haar2 : aar = false := by
              revert haar; cases aar <;> simp
            subst haar2
            have hk0 : k = 0 := hk rfl
            subst hk0
            have hstep : collapseStep false ([] ++ List.replicate 0 dd) dd =
                [] ++ List.replicate 0 dd := by decide
            rw [hstep]
            exact ih hL2 [] 0 (fun s hs => absurd hs (List.not_mem_nil s))
              (fun _ => rfl)
      · have hclean : clean seg := by
          refine ⟨fun h => h0 (Or.inl h), hseg.1, hseg.2,
            fun h => h0 (Or.inr h), hdd2⟩
        have : collapseStep aar (cs ++ List.replicate k dd) seg =
            (seg :: cs) ++ List.replicate k dd := by
          rw [collapseStep_clean aar _ hclean]
          rfl
        rw [this]
        exact ih hL2 (seg :: cs) k
          (fun s hs => by
            rcases List.mem_cons.mp hs with h | h
            · rw [h]; exact hclean
            · exact hcs s h) hk

/-- Collapsing the reverse of a good stack reproduces the stack. -/
theorem collapse_reproduce (aar2 : Bool) (cs : List Str) (k : Nat)
    (hcs : ∀ s ∈ cs, clean s) (hk : k ≠ 0 → aar2 = true) :
    collapseList aar2 [] (List.replicate k dd ++ cs.reverse) =
      cs ++ List.replicate k dd := by
  rw [collapseList_append]
  cases k with
  | zero =>
    show collapseList aar2 [] cs.reverse = _
    rw [collapseList_push_cleans aar2 _ _ (fun s hs => hcs s (by simpa using hs))]
    simp
  | succ k2 =>
    have haar : aar2 = true := hk (Nat.succ_ne_zero k2)
    subst haar
    have h1 : collapseList true [] (List.replicate (k2 + 1) dd) =
        List.replicate (k2 + 1) dd := by
      have := collapseList_replicate_dd (k2 + 1) 0
      simpa using this
    rw [h1, collapseList_push_cleans true _ _
      (fun s hs => hcs s (by simpa using hs))]
    simp

end PKSpec

namespace PKSpec

/-- Unfolding of the join at a cons. -/
theorem joinSlash_cons (s : Str) (L : List Str) :
    joinSlash (s :: L) = s ++ (if L = [] then [] else '/' :: joinSlash L) := by
  cases L with
  | nil => simp [joinSlash]
  | cons t ts => rfl

/-- Every character of a join is a slash or comes from a piece. -/
theorem mem_joinSlash {c : Char} (L : List Str) (h : c ∈ joinSlash L) :
    c = '/' ∨ ∃ s ∈ L, c ∈ s := by
  induction L with
  | nil => simp [joinSlash] at h
  | cons s ts ih =>
    rw [joinSlash_cons] at h
    rcases List.mem_append.mp h with h1 | h1
    · exact Or.inr ⟨s, List.mem_cons_self _ _, h1⟩
    · by_cases ht : ts = []
      · rw [if_pos ht] at h1
        simp at h1
      · rw [if_neg ht] at h1
        rcases List.mem_cons.mp h1 with h2 | h2
        · exact Or.inl h2
        · rcases ih h2 with h3 | ⟨x, hx, hcx⟩
          · exact Or.inl h3
          · exact Or.inr ⟨x, List.mem_cons_of_mem _ hx, hcx⟩

/-- A join with a non-empty first piece is non-empty. -/
theorem joinSlash_ne_nil (s : Str) (L : List Str) (h : s ≠ []) :
    joinSlash (s :: L) ≠ [] := by
  rw [joinSlash_cons]
  intro hc
  exact h (List.append_eq_nil.mp hc).1

/-- A suffix no longer than the right part ignores the left part. -/
theorem suffix_append_iff (a b s : Str) (h : s.length ≤ b.length) :
    s <:+ a ++ b ↔ s <:+ b := by
  constructor
  · intro hs
    rw [List.suffix_iff_eq_drop] at hs ⊢
    rw [hs]
    rw [List.length_append]
    have harith : a.length + b.length - s.length =
        a.length + (b.length - s.length) := by omega
    rw [harith, List.drop_append]
    congr 1
    rw [List.length_drop]
    omega
  · intro hs
    exact hs.trans (List.suffix_append a b)

/-- Ends-with ignores a prefix shorter than the tested suffix allows. -/
theorem jsEndsWith_append (a b s : Str) (h : s.length ≤ b.length) :
    jsEndsWith (a ++ b) s = jsEndsWith b s := by
  unfold jsEndsWith
  by_cases hsb : s <:+ b
  · rw [List.isSuffixOf_iff_suffix.mpr hsb,
      List.isSuffixOf_iff_suffix.mpr ((suffix_append_iff a b s h).mpr hsb)]
  · have h1 : s.isSuffixOf b = false := by
      cases hx : s.isSuffixOf b with
      | false => rfl
      | true => exact absurd (List.isSuffixOf_iff_suffix.mp hx) hsb
    have h2 : s.isSuffixOf (a ++ b) = false := by
      cases hx : s.isSuffixOf (a ++ b) with
      | false => rfl
      | true =>
        exact absurd ((suffix_append_iff a b s h).mp
          (List.isSuffixOf_iff_suffix.mp hx)) hsb
    rw [h1, h2]

/-- A string with a trailing slash ends with a slash. -/
theorem jsEndsWith_append_slash (x : Str) :
    jsEndsWith (x ++ ['/']) (str ("/")) = true := by
  unfold jsEndsWith
  exact List.isSuffixOf_iff_suffix.mpr ⟨x, rfl⟩

/-- The join of a well-formed stack never ends with a slash. -/
theorem jsEndsWith_joinRev_slash (S : List Str) (hwf : segsWF S)
    (hne : S ≠ []) : jsEndsWith (joinRev S) (str ("/")) = false := by
  cases hE : jsEndsWith (joinRev S) (str ("/")) with
  | false => rfl
  | true =>
    exfalso
    have hsuf : (str ("/")) <:+ joinRev S :=
      List.isSuffixOf_iff_suffix.mp hE
    cases S with
    | nil => exact absurd rfl hne
    | cons s rest =>
      have hs := hwf s (List.mem_cons_self _ _)
      have hlen : (str ("/")).length ≤ s.length := by
        have := List.length_pos.mpr hs.1
        simp [str]
        omega
      have hsufs : (str ("/")) <:+ s := by
        rw [joinRev_cons] at hsuf
        by_cases h : rest = []
        · rw [if_pos h] at hsuf
          exact hsuf
        · rw [if_neg h] at hsuf
          have : joinRev rest ++ '/' :: s =
              (joinRev rest ++ ['/']) ++ s := by simp
          rw [this] at hsuf
          exact (suffix_append_iff _ _ _ hlen).mp hsuf
      exact hs.2 (hsufs.subset (by simp [str]))

/-- A string starts with any of its prefixes. -/
theorem jsStartsWith_append_self (a x : Str) :
    jsStartsWith (a ++ x) a = true := by
  unfold jsStartsWith
  exact List.isPrefixOf_iff_prefix.mpr (List.prefix_append a x)

/-- Upper-casing a character that is not lower-case does nothing. -/
theorem toUpper_of_not_lower (c : Char) (h : c.isLower = false) :
    c.toUpper = c := by
  unfold Char.toUpper
  simp only [Char.isLower] at h
  rw [if_neg ?_]
  intro hand
  rcases hand with ⟨h1, h2⟩
  rw [Bool.and_eq_false_iff] at h
  unfold Char.toNat at h1 h2
  rcases h with h | h
  · simp only [decide_eq_false_iff_not] at h
    exact h h1
  · simp only [decide_eq_false_iff_not] at h
    exact h h2

end PKSpec

namespace PKSpec

/-- A single slash followed by a non-slash character is absolute. -/
theorem isAbsoluteRe_slash_cons (c : Char) (rest : Str) (h1 : ¬ c = '/')
    (h2 : ¬ c = bslash) : PK.isAbsoluteRe ('/' :: c :: rest) = true := by
  simp [PK.isAbsoluteRe, PK.isSlashy, h1, h2]

/-- Two slashes followed by a dot are not absolute. -/
theorem isAbsoluteRe_unc_dot (rest : Str) :
    PK.isAbsoluteRe ('/' :: '/' :: '.' :: rest) = false := by
  simp [PK.isAbsoluteRe, PK.isSlashy]

/-- A non-slash first character rules the UNC prefix out. -/
theorem uncRe_cons_false (c : Char) (rest : Str) (h1 : ¬ c = '/')
    (h2 : ¬ c = bslash) : PK.uncRe (c :: rest) = false := by
  cases rest with
  | nil => rfl
  | cons d ds => simp [PK.uncRe, PK.isSlashy, h1, h2]

/-- A slash followed by a non-slash rules the UNC prefix out. -/
theorem uncRe_slash_cons_false (c : Char) (rest : Str) (h1 : ¬ c = '/')
    (h2 : ¬ c = bslash) : PK.uncRe ('/' :: c :: rest) = false := by
  simp [PK.uncRe, PK.isSlashy, h1, h2]

/-- Drive upper-casing does nothing on a leading slash. -/
theorem upperDriveStart_slash (rest : Str) :
    PK.upperDriveStart ('/' :: rest) = '/' :: rest := by
  unfold PK.upperDriveStart
  cases rest with
  | nil => rfl
  | cons c2 rest2 =>
    cases rest2 with
    | nil => rfl
    | cons c3 rest3 =>
      show (if ('/' : Char).isAlpha = true ∧ c2 = ':' ∧ c3 = '/' then
          ('/' : Char).toUpper :: c2 :: c3 :: rest3
        else '/' :: c2 :: c3 :: rest3) = '/' :: c2 :: c3 :: rest3
      rw [if_neg (fun hand => absurd hand.1 (by decide))]

/-- The matched output shape `x:/` of the lowercase-drive test. -/
def lowerDriveSlash (s : Str) : Bool :=
  match s with
  | c1 :: c2 :: c3 :: _ => c1.isLower && c2 = ':' && c3 = '/'
  | _ => false

/-- Drive upper-casing fixes any string without a lowercase `x:/`
start. -/
theorem upperDriveStart_of_not_lower (s : Str)
    (h : lowerDriveSlash s = false) : PK.upperDriveStart s = s := by
  unfold PK.upperDriveStart
  cases s with
  | nil => rfl
  | cons c1 rest1 =>
    cases rest1 with
    | nil => rfl
    | cons c2 rest2 =>
      cases rest2 with
      | nil => rfl
      | cons c3 rest3 =>
        show (if c1.isAlpha = true ∧ c2 = ':' ∧ c3 = '/' then
            c1.toUpper :: c2 :: c3 :: rest3
          else c1 :: c2 :: c3 :: rest3) = c1 :: c2 :: c3 :: rest3
        by_cases hp : c1.isAlpha = true ∧ c2 = ':' ∧ c3 = '/'
        · rw [if_pos hp]
          unfold lowerDriveSlash at h
          have hlow : c1.isLower = false := by
            rcases Bool.and_eq_false_iff.mp h with h4 | h4
            · rcases Bool.and_eq_false_iff.mp h4 with h5 | h5
              · exact h5
              · exact absurd hp.2.1 (by simpa using h5)
            · exact absurd hp.2.2 (by simpa using h4)
          rw [toUpper_of_not_lower c1 hlow]
        · rw [if_neg hp]

/-- The `p3`/`p4` post-processing of `normalize`: optional trailing
slash restoration and bare-drive slash. -/
def mkP4 (p2 : Str) (t : Bool) : Str :=
  let p3 := if t ∧ ¬ jsEndsWith p2 (str ("/")) then p2 ++ ['/'] else p2
  if PK.driveLetterRe p3 ∧ p3.length = 2 then p3 ++ ['/'] else p3

/-- First stage of `normalize`: slashes normalized, drive
upper-cased. -/
def p1of (p : Str) : Str := PK.normalizeWindowsPath p

/-- Second stage of `normalize`: the collapsed string. -/
def p2of (p : Str) : Str :=
  PK.normalizeString (p1of p) (¬ PK.isAbsoluteRe (p1of p))

/-- Third stage of `normalize`. -/
def p4of (p : Str) : Str :=
  mkP4 (p2of p) (jsEndsWith (p1of p) (str ("/")))

/-- `normalize` unfolded into its named stages. -/
theorem normalize_eq (p : Str) (h : ¬ p.length = 0) :
    PK.normalize p =
      (if (p2of p).length = 0 then
        (if PK.isAbsoluteRe (p1of p) then str ("/")
         else if jsEndsWith (p1of p) (str ("/")) ∧ p.length > 0 ∧
             p ≠ str (".") then str ("./")
         else str ("."))
      else
        (if PK.uncRe (PK.replaceBackslashes p) then
          (if jsStartsWith (PK.replaceBackslashes p) (str ("//./")) then
            str ("//./") ++ (if jsStartsWith (p4of p) (str ("/")) then
              (p4of p).drop 1 else p4of p)
          else if jsStartsWith (PK.replaceBackslashes p) (str ("//")) ∧
              ¬ jsStartsWith (PK.replaceBackslashes p) (str ("//./")) then
            str ("//") ++ (if jsStartsWith (p4of p) (str ("/")) then
              (p4of p).drop 1 else p4of p)
          else if PK.isAbsoluteRe (p1of p) ∧ ¬ PK.isAbsoluteRe (p4of p) ∧
              p4of p ≠ str ("/") then
            '/' :: p4of p
          else p4of p)
        else if PK.isAbsoluteRe (p1of p) ∧ ¬ PK.isAbsoluteRe (p4of p) ∧
            p4of p ≠ str ("/") then
          '/' :: p4of p
        else p4of p)) := by
  unfold PK.normalize p4of p2of p1of mkP4
  rw [if_neg h]

end PKSpec

namespace PKSpec

/-- Replacing backslashes in a backslash-free string does nothing. -/
theorem replaceBackslashes_id (s : Str) (h : bslash ∉ s) :
    PK.replaceBackslashes s = s := by
  unfold PK.replaceBackslashes
  induction s with
  | nil => rfl
  | cons c cs ih =>
    show (if c = bslash then '/' else c) :: List.map _ cs = c :: cs
    rw [if_neg (fun hc => h (by rw [hc]; exact List.mem_cons_self _ _)),
      ih (fun hm => h (List.mem_cons_of_mem _ hm))]

/-- Backslash replacement leaves no backslashes. -/
theorem bslash_not_mem_replaceBackslashes (s : Str) :
    bslash ∉ PK.replaceBackslashes s := by
  intro h
  obtain ⟨c, _, heq⟩ := List.mem_map.mp h
  by_cases hc : c = bslash
  · rw [if_pos hc] at heq
    exact absurd heq (by decide)
  · rw [if_neg hc] at heq
    exact hc heq

/-- Upper-casing an alphabetic range character never yields a
backslash. -/
theorem toUpper_ne_bslash (c : Char) (h : c ≠ bslash) :
    c.toUpper ≠ bslash := by
  unfold Char.toUpper
  by_cases hc : c.toNat ≥ 97 ∧ c.toNat ≤ 122
  · rw [if_pos hc]
    intro heq
    have h1 : (Char.ofNat (c.toNat - 32)).toNat = c.toNat - 32 := by
      unfold Char.ofNat
      rw [dif_pos (Or.inl (by omega))]
      rfl
    have h2 : bslash.toNat = 92 := rfl
    rw [heq, h2] at h1
    omega
  · rw [if_neg hc]
    exact h

/-- Drive upper-casing introduces no backslashes. -/
theorem bslash_not_mem_upperDriveStart (s : Str) (h : bslash ∉ s) :
    bslash ∉ PK.upperDriveStart s := by
  unfold PK.upperDriveStart
  cases s with
  | nil => exact h
  | cons c1 rest1 =>
    cases rest1 with
    | nil => exact h
    | cons c2 rest2 =>
      cases rest2 with
      | nil => exact h
      | cons c3 rest3 =>
        by_cases hp : c1.isAlpha = true ∧ c2 = ':' ∧ c3 = '/'
        · show bslash ∉ (if c1.isAlpha = true ∧ c2 = ':' ∧ c3 = '/' then
              c1.toUpper :: c2 :: c3 :: rest3 else _)
          rw [if_pos hp]
          intro hm
          rcases List.mem_cons.mp hm with h1 | h1
          · exact toUpper_ne_bslash c1
              (fun hc => h (by rw [← hc]; exact List.mem_cons_self _ _)) h1.symm
          · exact h (List.mem_cons_of_mem _ h1)
        · show bslash ∉ (if c1.isAlpha = true ∧ c2 = ':' ∧ c3 = '/' then
              c1.toUpper :: c2 :: c3 :: rest3 else c1 :: c2 :: c3 :: rest3)
          rw [if_neg hp]
          exact h

/-- The first normalize stage is backslash-free. -/
theorem bslash_not_mem_p1of (p : Str) : bslash ∉ p1of p := by
  unfold p1of PK.normalizeWindowsPath
  by_cases hp : p = []
  · rw [if_pos hp]
    rw [hp]
    exact List.not_mem_nil _
  · rw [if_neg hp]
    exact bslash_not_mem_upperDriveStart _ (bslash_not_mem_replaceBackslashes p)

/-- Splitting keeps slashes out of pieces and characters inside the
input. -/
theorem splitSlash_pieces (x : Str) :
    ∀ s ∈ splitSlash x, '/' ∉ s ∧ ∀ c ∈ s, c ∈ x := by
  induction x with
  | nil =>
    intro s hs
    rw [show splitSlash [] = [[]] from rfl, List.mem_singleton] at hs
    rw [hs]
    exact ⟨List.not_mem_nil _, fun c hc => absurd hc (List.not_mem_nil c)⟩
  | cons c cs ih =>
    intro s hs
    rw [splitSlash_cons] at hs
    by_cases hc : c = '/'
    · rw [if_pos hc] at hs
      rcases List.mem_cons.mp hs with h1 | h1
      · rw [h1]
        exact ⟨List.not_mem_nil _, fun d hd => absurd hd (List.not_mem_nil d)⟩
      · obtain ⟨hsl, hsub⟩ := ih s h1
        exact ⟨hsl, fun d hd => List.mem_cons_of_mem _ (hsub d hd)⟩
    · rw [if_neg hc] at hs
      cases hsp : splitSlash cs with
      | nil => exact absurd hsp (splitSlash_ne_nil cs)
      | cons p ps =>
        rw [hsp] at hs
        obtain ⟨hpl, hpsub⟩ := ih p (by rw [hsp]; exact List.mem_cons_self _ _)
        rcases List.mem_cons.mp hs with h1 | h1
        · rw [h1]
          refine ⟨?_, ?_⟩
          · intro hm
            rcases List.mem_cons.mp hm with h2 | h2
            · exact hc h2.symm
            · exact hpl h2
          · intro d hd
            rcases List.mem_cons.mp hd with h2 | h2
            · rw [h2]; exact List.mem_cons_self _ _
            · exact List.mem_cons_of_mem _ (hpsub d h2)
        · obtain ⟨hsl, hsub⟩ := ih s (by rw [hsp]; exact List.mem_cons_of_mem _ h1)
          exact ⟨hsl, fun d hd => List.mem_cons_of_mem _ (hsub d hd)⟩

/-- The collapsed middle stage of `normalize` is a good stack. -/
theorem p2of_good (p : Str) :
    ∃ cs k, p2of p = joinRev (cs ++ List.replicate k dd) ∧
      (∀ s ∈ cs, clean s) ∧
      (PK.isAbsoluteRe (p1of p) = true → k = 0) := by
  have hL : ∀ s ∈ splitSlash (p1of p), '/' ∉ s ∧ bslash ∉ s := by
    intro s hs
    obtain ⟨h1, h2⟩ := splitSlash_pieces (p1of p) s hs
    exact ⟨h1, fun hb => bslash_not_mem_p1of p (h2 bslash hb)⟩
  obtain ⟨cs, k, heq, hcs, hk⟩ :=
    Good_collapseList (¬ PK.isAbsoluteRe (p1of p)) (splitSlash (p1of p)) hL
      [] 0 (fun s hs => absurd hs (List.not_mem_nil s)) (fun _ => rfl)
  refine ⟨cs, k, ?_, hcs, ?_⟩
  · unfold p2of
    rw [normalizeString_spec]
    rw [show ([] : List Str) = [] ++ List.replicate 0 dd from rfl, heq]
  · intro hA
    apply hk
    rw [hA]
    rfl

end PKSpec

namespace PKSpec

/-- The joined form of a good stack. -/
def joined (cs : List Str) (k : Nat) : Str :=
  joinRev (cs ++ List.replicate k dd)

/-- The `p4` stage value: the joined stack with an optional restored
trailing slash. -/
def p4v (cs : List Str) (k : Nat) (tb : Bool) : Str :=
  if tb = true then joined cs k ++ ['/'] else joined cs k

/-- A good stack is well formed. -/
theorem segsWF_good (cs : List Str) (k : Nat) (hcs : ∀ s ∈ cs, clean s) :
    segsWF (cs ++ List.replicate k dd) := by
  intro s hs
  rcases List.mem_append.mp hs with h | h
  · exact ⟨(hcs s h).1, (hcs s h).2.1⟩
  · rw [List.eq_of_mem_replicate h]
    exact ⟨by decide, by decide⟩

/-- The joined good stack is non-empty when the stack is. -/
theorem joined_ne_nil (cs : List Str) (k : Nat) (hcs : ∀ s ∈ cs, clean s)
    (hne : cs ++ List.replicate k dd ≠ []) : joined cs k ≠ [] :=
  joinRev_ne_nil _ (segsWF_good cs k hcs) hne

/-- The joined good stack never ends with a slash. -/
theorem joined_not_endsWith_slash (cs : List Str) (k : Nat)
    (hcs : ∀ s ∈ cs, clean s) (hne : cs ++ List.replicate k dd ≠ []) :
    jsEndsWith (joined cs k) (str ("/")) = false :=
  jsEndsWith_joinRev_slash _ (segsWF_good cs k hcs) hne

/-- The joined good stack is backslash-free. -/
theorem bslash_not_mem_joined (cs : List Str) (k : Nat)
    (hcs : ∀ s ∈ cs, clean s) : bslash ∉ joined cs k := by
  intro hm
  unfold joined joinRev at hm
  rcases mem_joinSlash _ hm with h | ⟨s, hs, hcm⟩
  · exact absurd h (by decide)
  · rw [List.mem_reverse] at hs
    rcases List.mem_append.mp hs with h1 | h1
    · exact (hcs s h1).2.2.1 hcm
    · rw [List.eq_of_mem_replicate h1] at hcm
      exact absurd hcm (by decide)

/-- First-segment decomposition of the joined good stack. -/
theorem joined_struct (cs : List Str) (k : Nat) (hcs : ∀ s ∈ cs, clean s)
    (hne : cs ++ List.replicate k dd ≠ []) :
    ∃ s0 t, joined cs k = s0 ++ t ∧
      ((k ≠ 0 ∧ s0 = dd) ∨ (k = 0 ∧ clean s0)) := by
  unfold joined joinRev
  rw [List.reverse_append, List.reverse_replicate]
  cases k with
  | succ k2 =>
    rw [List.replicate_succ]
    rw [show (dd :: List.replicate k2 dd) ++ cs.reverse =
      dd :: (List.replicate k2 dd ++ cs.reverse) from rfl]
    rw [joinSlash_cons]
    exact ⟨dd, _, rfl, Or.inl ⟨Nat.succ_ne_zero k2, rfl⟩⟩
  | zero =>
    rw [show List.replicate 0 dd = ([] : List Str) from rfl]
    cases hrev : cs.reverse with
    | nil =>
      exfalso
      apply hne
      rw [List.reverse_eq_nil_iff.mp hrev]
      rfl
    | cons s0 L2 =>
      rw [show ([] : List Str) ++ (s0 :: L2) = s0 :: L2 from rfl,
        joinSlash_cons]
      refine ⟨s0, _, rfl, Or.inr ⟨rfl, ?_⟩⟩
      apply hcs
      rw [← List.mem_reverse, hrev]
      exact List.mem_cons_self _ _

/-- A leading dot is never absolute. -/
theorem isAbsoluteRe_dot (rest : Str) :
    PK.isAbsoluteRe ('.' :: rest) = false := by
  cases rest with
  | nil => rfl
  | cons c2 rest2 =>
    have h1 : PK.isSlashy '.' = false := by decide
    have h2 : ('.' : Char).isAlpha = false := by decide
    simp [PK.isAbsoluteRe, h1, h2]

/-- A leading slash rules the lowercase-drive pattern out. -/
theorem lowerDriveSlash_slash (rest : Str) :
    lowerDriveSlash ('/' :: rest) = false := by
  cases rest with
  | nil => rfl
  | cons c2 rest2 =>
    cases rest2 with
    | nil => rfl
    | cons c3 rest3 =>
      show (('/' : Char).isLower && c2 = ':' && c3 = '/') = false
      rw [show ('/' : Char).isLower = false from by decide]
      rfl

/-- Two leading slashes satisfy the UNC test. -/
theorem uncRe_slash_slash (rest : Str) :
    PK.uncRe ('/' :: '/' :: rest) = true := by
  simp [PK.uncRe, PK.isSlashy]

/-- A segment-led string never starts with `./`. -/
theorem not_isPrefixOf_dotslash (s0 t : Str) (h1 : s0 ≠ [])
    (h2 : '/' ∉ s0) (h3 : s0 ≠ ['.']) :
    List.isPrefixOf ['.', '/'] (s0 ++ t) = false := by
  cases s0 with
  | nil => exact absurd rfl h1
  | cons c0 s1 =>
    by_cases hc0 : c0 = '.'
    · subst hc0
      cases s1 with
      | nil => exact absurd rfl h3
      | cons c1 s2 =>
        have hc1 : ¬ c1 = '/' := by
          intro hc
          apply h2
          rw [hc]
          exact List.mem_cons_of_mem _ (List.mem_cons_self _ _)
        cases hpre : List.isPrefixOf ['.', '/'] (('.' :: c1 :: s2) ++ t) with
        | false => rfl
        | true =>
          exfalso
          have hp := List.isPrefixOf_iff_prefix.mp hpre
          rw [show ('.' :: c1 :: s2) ++ t = '.' :: c1 :: (s2 ++ t) from rfl] at hp
          have h4 := (List.cons_prefix_cons.mp hp).2
          exact hc1 ((List.cons_prefix_cons.mp h4).1).symm
    · cases hpre : List.isPrefixOf ['.', '/'] ((c0 :: s1) ++ t) with
      | false => rfl
      | true =>
        exfalso
        have hp := List.isPrefixOf_iff_prefix.mp hpre
        rw [show (c0 :: s1) ++ t = c0 :: (s1 ++ t) from rfl] at hp
        exact hc0 ((List.cons_prefix_cons.mp hp).1).symm

/-- A segment-led string never starts with a slash. -/
theorem not_startsWith_slash (s0 t : Str) (h1 : s0 ≠ [])
    (h2 : '/' ∉ s0) : jsStartsWith (s0 ++ t) (str ("/")) = false := by
  cases s0 with
  | nil => exact absurd rfl h1
  | cons c0 s1 =>
    have hc0 : ¬ c0 = '/' :=
      fun hc => h2 (by rw [hc]; exact List.mem_cons_self _ _)
    cases hpre : jsStartsWith ((c0 :: s1) ++ t) (str ("/")) with
    | false => rfl
    | true =>
      exfalso
      have hp := List.isPrefixOf_iff_prefix.mp hpre
      rw [show (c0 :: s1) ++ t = c0 :: (s1 ++ t) from rfl] at hp
      exact hc0 ((List.cons_prefix_cons.mp hp).1).symm

/-- A string with a trailing slash never passes the bare-drive test. -/
theorem not_drive_append_slash (x : Str) :
    ¬ (PK.driveLetterRe (x ++ ['/']) = true ∧ (x ++ ['/']).length = 2) := by
  rintro ⟨hd, hl⟩
  cases x with
  | nil => exact absurd hd (by decide)
  | cons c xs =>
    cases xs with
    | nil => exact absurd hd (by simp [PK.driveLetterRe])
    | cons d ds => simp at hl

/-- The two possible `p4` outcomes over a slash-free-tail `p2`. -/
theorem mkP4_form (p2 : Str) (hend : jsEndsWith p2 (str ("/")) = false)
    (t : Bool) :
    (mkP4 p2 t = p2 ∧ ¬ (PK.driveLetterRe p2 = true ∧ p2.length = 2)) ∨
      mkP4 p2 t = p2 ++ ['/'] := by
  unfold mkP4
  cases t with
  | false =>
    have hfalse : ¬ ((false : Bool) = true) := by simp
    have hin : (if (false : Bool) = true ∧ ¬ jsEndsWith p2 (str ("/")) = true
        then p2 ++ ['/'] else p2) = p2 := by
      rw [if_neg (fun hand => hfalse hand.1)]
    rw [hin]
    by_cases hd : PK.driveLetterRe p2 = true ∧ p2.length = 2
    · rw [if_pos hd]
      exact Or.inr rfl
    · rw [if_neg hd]
      exact Or.inl ⟨rfl, hd⟩
  | true =>
    have hin : (if (true : Bool) = true ∧ ¬ jsEndsWith p2 (str ("/")) = true
        then p2 ++ ['/'] else p2) = p2 ++ ['/'] :=
      if_pos ⟨rfl, by rw [hend]; simp⟩
    rw [hin, if_neg (not_drive_append_slash p2)]
    exact Or.inr rfl

/-- Re-running the `p3`/`p4` stage on its own output reproduces it. -/
theorem mkP4_idem (p2 : Str) (hend : jsEndsWith p2 (str ("/")) = false)
    (tb : Bool) (hdrv : tb = false →
      ¬ (PK.driveLetterRe p2 = true ∧ p2.length = 2)) :
    mkP4 p2 (jsEndsWith (if tb = true then p2 ++ ['/'] else p2) (str ("/"))) =
      (if tb = true then p2 ++ ['/'] else p2) := by
  cases tb with
  | true =>
    rw [if_pos rfl, jsEndsWith_append_slash]
    unfold mkP4
    have hin : (if (true : Bool) = true ∧ ¬ jsEndsWith p2 (str ("/")) = true
        then p2 ++ ['/'] else p2) = p2 ++ ['/'] :=
      if_pos ⟨rfl, by rw [hend]; simp⟩
    rw [hin, if_neg (not_drive_append_slash p2)]
  | false =>
    have hfalse : ¬ ((false : Bool) = true) := by simp
    rw [if_neg hfalse, hend]
    unfold mkP4
    have hin : (if (false : Bool) = true ∧ ¬ jsEndsWith p2 (str ("/")) = true
        then p2 ++ ['/'] else p2) = p2 := by
      rw [if_neg (fun hand => hfalse hand.1)]
    rw [hin, if_neg (hdrv rfl)]

/-- A backslash-free string without a lowercase drive prefix passes the
first normalize stage unchanged. -/
theorem p1of_eq_self (q : Str) (hbs : bslash ∉ q)
    (hld : lowerDriveSlash q = false) : p1of q = q := by
  unfold p1of PK.normalizeWindowsPath
  by_cases hq : q = []
  · rw [if_pos hq]
  · rw [if_neg hq, replaceBackslashes_id q hbs,
      upperDriveStart_of_not_lower q hld]

end PKSpec

namespace PKSpec

/-- Skippable segments leave the stack alone. -/
theorem collapseList_skips (aar : Bool) (J : List Str)
    (hJ : ∀ s ∈ J, s = [] ∨ s = ['.']) (stack : List Str) :
    collapseList aar stack J = stack := by
  induction J generalizing stack with
  | nil => rfl
  | cons j J2 ih =>
    show collapseList aar (collapseStep aar stack j) J2 = stack
    rcases hJ j (List.mem_cons_self _ _) with h | h
    · rw [h, collapseStep_nilseg]
      exact ih (fun s hs => hJ s (List.mem_cons_of_mem _ hs)) stack
    · rw [h, collapseStep_dotseg]
      exact ih (fun s hs => hJ s (List.mem_cons_of_mem _ hs)) stack

/-- The split of the joined good stack. -/
theorem splitSlash_joined (cs : List Str) (k : Nat)
    (hcs : ∀ s ∈ cs, clean s) (hne : cs ++ List.replicate k dd ≠ []) :
    splitSlash (joined cs k) = List.replicate k dd ++ cs.reverse := by
  unfold joined joinRev
  rw [List.reverse_append, List.reverse_replicate]
  apply splitSlash_joinSlash
  · intro s hs
    rcases List.mem_append.mp hs with h | h
    · rw [List.eq_of_mem_replicate h]
      decide
    · exact (hcs s (List.mem_reverse.mp h)).2.1
  · intro hnil
    apply hne
    have := congrArg List.reverse hnil
    rw [List.reverse_append, List.reverse_reverse, List.reverse_replicate] at this
    simpa using this

/-- The split of a leading slash. -/
theorem splitSlash_slash_cons (x : Str) :
    splitSlash ('/' :: x) = [] :: splitSlash x := by
  rw [splitSlash_cons, if_pos rfl]

/-- The `p3`/`p4` stage on a trailing-slash-free `p2`. -/
theorem mkP4_of_tb (p2 : Str) (hend : jsEndsWith p2 (str ("/")) = false)
    (tb : Bool) (hdrv : tb = false →
      ¬ (PK.driveLetterRe p2 = true ∧ p2.length = 2)) :
    mkP4 p2 tb = (if tb = true then p2 ++ ['/'] else p2) := by
  cases tb with
  | true =>
    rw [if_pos rfl]
    unfold mkP4
    have hin : (if (true : Bool) = true ∧ ¬ jsEndsWith p2 (str ("/")) = true
        then p2 ++ ['/'] else p2) = p2 ++ ['/'] :=
      if_pos ⟨rfl, by rw [hend]; simp⟩
    rw [hin, if_neg (not_drive_append_slash p2)]
  | false =>
    have hfalse : ¬ ((false : Bool) = true) := by simp
    rw [if_neg hfalse]
    unfold mkP4
    have hin : (if (false : Bool) = true ∧ ¬ jsEndsWith p2 (str ("/")) = true
        then p2 ++ ['/'] else p2) = p2 := by
      rw [if_neg (fun hand => hfalse hand.1)]
    rw [hin, if_neg (hdrv rfl)]

/-- Collapsing a single empty segment does nothing. -/
theorem collapseList_single_nil (aar : Bool) (X : List Str) :
    collapseList aar X [([] : Str)] = X := by
  show collapseList aar (collapseStep aar X []) [] = X
  rw [collapseStep_nilseg]
  rfl

/-- The second-pass collapse over a split made of skippable prefix
segments, the good stack in reverse, and an optional empty tail
reproduces the joined stack. -/
theorem p2of_reproduce (q : Str) (cs : List Str) (k : Nat) (J : List Str)
    (tb : Bool) (hcs : ∀ s ∈ cs, clean s)
    (hsplit : splitSlash q = J ++ (List.replicate k dd ++ cs.reverse) ++
      (if tb = true then [([] : Str)] else []))
    (hJ : ∀ s ∈ J, s = [] ∨ s = ['.'])
    (haar : k ≠ 0 → PK.isAbsoluteRe q = false)
    (hp1 : p1of q = q) :
    p2of q = joined cs k := by
  unfold p2of
  rw [hp1, normalizeString_spec, hsplit, collapseList_append,
    collapseList_append, collapseList_skips _ J hJ]
  have hmid : collapseList (¬ PK.isAbsoluteRe q) []
      (List.replicate k dd ++ cs.reverse) = cs ++ List.replicate k dd := by
    apply collapse_reproduce _ _ _ hcs
    intro hk
    rw [haar hk]
    rfl
  rw [hmid]
  cases tb with
  | true =>
    rw [if_pos rfl, collapseList_single_nil]
    rfl
  | false =>
    rw [if_neg (by simp)]
    rfl

end PKSpec

namespace PKSpec

/-- First-segment decomposition of the `p4` stage value. -/
theorem p4v_struct (cs : List Str) (k : Nat) (tb : Bool)
    (hcs : ∀ s ∈ cs, clean s) (hne : cs ++ List.replicate k dd ≠ []) :
    ∃ s0 t2, p4v cs k tb = s0 ++ t2 ∧ s0 ≠ [] ∧ '/' ∉ s0 ∧ bslash ∉ s0 ∧
      s0 ≠ ['.'] ∧ (k ≠ 0 → s0 = dd) := by
  obtain ⟨s0, t, hstruct, hdisj⟩ := joined_struct cs k hcs hne
  have hprops : s0 ≠ [] ∧ '/' ∉ s0 ∧ bslash ∉ s0 ∧ s0 ≠ ['.'] ∧
      (k ≠ 0 → s0 = dd) := by
    rcases hdisj with ⟨hk, hs0⟩ | ⟨hk0, hcl⟩
    · rw [hs0]
      exact ⟨by decide, by decide, by decide, by decide, fun _ => rfl⟩
    · exact ⟨hcl.1, hcl.2.1, hcl.2.2.1, hcl.2.2.2.1, fun hk => absurd hk0 hk⟩
  refine ⟨s0, if tb = true then t ++ ['/'] else t, ?_, hprops.1, hprops.2.1,
    hprops.2.2.1, hprops.2.2.2.1, hprops.2.2.2.2⟩
  unfold p4v
  cases tb with
  | true =>
    rw [if_pos rfl, if_pos rfl, hstruct]
    simp
  | false =>
    rw [if_neg (by simp), if_neg (by simp), hstruct]

/-- The `p4` stage value is backslash-free. -/
theorem bslash_not_mem_p4v (cs : List Str) (k : Nat) (tb : Bool)
    (hcs : ∀ s ∈ cs, clean s) : bslash ∉ p4v cs k tb := by
  unfold p4v
  intro hm
  by_cases htb : tb = true
  · rw [if_pos htb] at hm
    rcases List.mem_append.mp hm with h | h
    · exact bslash_not_mem_joined cs k hcs h
    · rw [List.mem_singleton] at h
      exact absurd h (by decide)
  · rw [if_neg htb] at hm
    exact bslash_not_mem_joined cs k hcs hm

/-- The `p4` stage value is non-empty. -/
theorem p4v_ne_nil (cs : List Str) (k : Nat) (tb : Bool)
    (hcs : ∀ s ∈ cs, clean s) (hne : cs ++ List.replicate k dd ≠ []) :
    p4v cs k tb ≠ [] := by
  unfold p4v
  by_cases htb : tb = true
  · rw [if_pos htb]
    simp
  · rw [if_neg htb]
    exact joined_ne_nil cs k hcs hne

/-- The `p4` stage value ends with a slash exactly when the trailing
slash was restored. -/
theorem jsEndsWith_p4v (cs : List Str) (k : Nat) (tb : Bool)
    (hcs : ∀ s ∈ cs, clean s) (hne : cs ++ List.replicate k dd ≠ []) :
    jsEndsWith (p4v cs k tb) (str ("/")) = tb := by
  unfold p4v
  cases tb with
  | true =>
    rw [if_pos rfl]
    exact jsEndsWith_append_slash _
  | false =>
    rw [if_neg (by simp)]
    exact joined_not_endsWith_slash cs k hcs hne

/-- Ends-with over a prefixed `p4` stage value. -/
theorem jsEndsWith_prefix_p4v (a : Str) (cs : List Str) (k : Nat)
    (tb : Bool) (hcs : ∀ s ∈ cs, clean s)
    (hne : cs ++ List.replicate k dd ≠ []) :
    jsEndsWith (a ++ p4v cs k tb) (str ("/")) = tb := by
  rw [jsEndsWith_append a _ _ ?_, jsEndsWith_p4v cs k tb hcs hne]
  have := List.length_pos.mpr (p4v_ne_nil cs k tb hcs hne)
  show (str ("/")).length ≤ _
  rw [show (str ("/")).length = 1 from rfl]
  omega

/-- The split of the `p4` stage value. -/
theorem splitSlash_p4v (cs : List Str) (k : Nat) (tb : Bool)
    (hcs : ∀ s ∈ cs, clean s) (hne : cs ++ List.replicate k dd ≠ []) :
    splitSlash (p4v cs k tb) = (List.replicate k dd ++ cs.reverse) ++
      (if tb = true then [([] : Str)] else []) := by
  unfold p4v
  cases tb with
  | true =>
    rw [if_pos rfl, if_pos rfl, splitSlash_append_slash,
      splitSlash_joined cs k hcs hne]
  | false =>
    rw [if_neg (by simp), if_neg (by simp),
      splitSlash_joined cs k hcs hne]
    simp

/-- `normalize` is the identity on an unprefixed `p4` stage value
whose drive letter, if any, is not lowercase. -/
theorem normalize_p4v_plain (cs : List Str) (k : Nat) (tb : Bool)
    (hcs : ∀ s ∈ cs, clean s) (hne : cs ++ List.replicate k dd ≠ [])
    (hlds : lowerDriveSlash (p4v cs k tb) = false)
    (hdrv : tb = false → ¬ (PK.driveLetterRe (joined cs k) = true ∧
      (joined cs k).length = 2)) :
    PK.normalize (p4v cs k tb) = p4v cs k tb := by
  obtain ⟨s0, t2, hq, hs0ne, hs0sl, hs0bs, hs0dot, hs0dd⟩ :=
    p4v_struct cs k tb hcs hne
  have hp2ne : joined cs k ≠ [] := joined_ne_nil cs k hcs hne
  have hend : jsEndsWith (joined cs k) (str ("/")) = false :=
    joined_not_endsWith_slash cs k hcs hne
  have hqne : p4v cs k tb ≠ [] := p4v_ne_nil cs k tb hcs hne
  have hqne0 : ¬ (p4v cs k tb).length = 0 :=
    fun h => hqne (List.length_eq_zero.mp h)
  have hbsq : bslash ∉ p4v cs k tb := bslash_not_mem_p4v cs k tb hcs
  have hp1q : p1of (p4v cs k tb) = p4v cs k tb := p1of_eq_self _ hbsq hlds
  have haar : k ≠ 0 → PK.isAbsoluteRe (p4v cs k tb) = false := by
    intro hk
    rw [hq, hs0dd hk]
    exact isAbsoluteRe_dot _
  have hp2q : p2of (p4v cs k tb) = joined cs k :=
    p2of_reproduce _ cs k [] tb hcs
      (by rw [splitSlash_p4v cs k tb hcs hne]; rfl)
      (fun s hs => absurd hs (List.not_mem_nil s)) haar hp1q
  have hTq : jsEndsWith (p1of (p4v cs k tb)) (str ("/")) = tb := by
    rw [hp1q]
    exact jsEndsWith_p4v cs k tb hcs hne
  have hp4q : p4of (p4v cs k tb) = p4v cs k tb := by
    unfold p4of
    rw [hp2q, hTq, mkP4_of_tb _ hend tb hdrv]
    rfl
  rw [normalize_eq _ hqne0,
    if_neg (by rw [hp2q]; exact fun h => hp2ne (List.length_eq_zero.mp h))]
  have hrb : PK.replaceBackslashes (p4v cs k tb) = p4v cs k tb :=
    replaceBackslashes_id _ hbsq
  rw [hrb]
  have hunc : PK.uncRe (p4v cs k tb) = false := by
    rw [hq]
    cases s0 with
    | nil => exact absurd rfl hs0ne
    | cons c0 s1 =>
      show PK.uncRe (c0 :: (s1 ++ t2)) = false
      exact uncRe_cons_false c0 _
        (fun hc => hs0sl (by rw [hc]; exact List.mem_cons_self _ _))
        (fun hc => hs0bs (by rw [hc]; exact List.mem_cons_self _ _))
  rw [hunc, if_neg (by simp), hp1q, hp4q,
    if_neg (fun hand => hand.2.1 hand.1)]

end PKSpec

namespace PKSpec

/-- `normalize` is the identity on a slash-led `p4` stage value that
the absolute-path regex rejects. -/
theorem normalize_p4v_rooted (cs : List Str) (k : Nat) (tb : Bool)
    (hcs : ∀ s ∈ cs, clean s) (hne : cs ++ List.replicate k dd ≠ [])
    (hk0 : k = 0)
    (hAp4 : PK.isAbsoluteRe (p4v cs k tb) = false)
    (hdrv : tb = false → ¬ (PK.driveLetterRe (joined cs k) = true ∧
      (joined cs k).length = 2)) :
    PK.normalize ('/' :: p4v cs k tb) = '/' :: p4v cs k tb := by
  obtain ⟨s0, t2, hq, hs0ne, hs0sl, hs0bs, hs0dot, hs0dd⟩ :=
    p4v_struct cs k tb hcs hne
  have hp2ne : joined cs k ≠ [] := joined_ne_nil cs k hcs hne
  have hend : jsEndsWith (joined cs k) (str ("/")) = false :=
    joined_not_endsWith_slash cs k hcs hne
  have hqne0 : ¬ ('/' :: p4v cs k tb).length = 0 := by simp
  have hbsq : bslash ∉ '/' :: p4v cs k tb := by
    intro hm
    rcases List.mem_cons.mp hm with h | h
    · exact absurd h (by decide)
    · exact bslash_not_mem_p4v cs k tb hcs h
  have hlds : lowerDriveSlash ('/' :: p4v cs k tb) = false :=
    lowerDriveSlash_slash _
  have hp1q : p1of ('/' :: p4v cs k tb) = '/' :: p4v cs k tb :=
    p1of_eq_self _ hbsq hlds
  have hp2q : p2of ('/' :: p4v cs k tb) = joined cs k :=
    p2of_reproduce _ cs k [[]] tb hcs
      (by rw [splitSlash_slash_cons, splitSlash_p4v cs k tb hcs hne]; rfl)
      (by intro s hs; rw [List.mem_singleton.mp hs]; exact Or.inl rfl)
      (fun hk => absurd hk0 hk) hp1q
  have hTq : jsEndsWith (p1of ('/' :: p4v cs k tb)) (str ("/")) = tb := by
    rw [hp1q,
      show '/' :: p4v cs k tb = ['/'] ++ p4v cs k tb from rfl]
    exact jsEndsWith_prefix_p4v ['/'] cs k tb hcs hne
  have hp4q : p4of ('/' :: p4v cs k tb) = p4v cs k tb := by
    unfold p4of
    rw [hp2q, hTq, mkP4_of_tb _ hend tb hdrv]
    rfl
  have hAq : PK.isAbsoluteRe ('/' :: p4v cs k tb) = true := by
    rw [hq]
    cases s0 with
    | nil => exact absurd rfl hs0ne
    | cons c0 s1 =>
      show PK.isAbsoluteRe ('/' :: c0 :: (s1 ++ t2)) = true
      exact isAbsoluteRe_slash_cons c0 _
        (fun hc => hs0sl (by rw [hc]; exact List.mem_cons_self _ _))
        (fun hc => hs0bs (by rw [hc]; exact List.mem_cons_self _ _))
  have hp4slash : p4v cs k tb ≠ str ("/") := by
    rw [hq, show str ("/") = ['/'] from by decide]
    cases s0 with
    | nil => exact absurd rfl hs0ne
    | cons c0 s1 =>
      intro heq
      rw [show (c0 :: s1) ++ t2 = c0 :: (s1 ++ t2) from rfl] at heq
      injection heq with h1 h2
      exact hs0sl (by rw [h1]; exact List.mem_cons_self _ _)
  rw [normalize_eq _ hqne0,
    if_neg (by rw [hp2q]; exact fun h => hp2ne (List.length_eq_zero.mp h))]
  have hrb : PK.replaceBackslashes ('/' :: p4v cs k tb) = '/' :: p4v cs k tb :=
    replaceBackslashes_id _ hbsq
  rw [hrb]
  have hunc : PK.uncRe ('/' :: p4v cs k tb) = false := by
    rw [hq]
    cases s0 with
    | nil => exact absurd rfl hs0ne
    | cons c0 s1 =>
      show PK.uncRe ('/' :: c0 :: (s1 ++ t2)) = false
      exact uncRe_slash_cons_false c0 _
        (fun hc => hs0sl (by rw [hc]; exact List.mem_cons_self _ _))
        (fun hc => hs0bs (by rw [hc]; exact List.mem_cons_self _ _))
  rw [hunc, if_neg (by simp), hp1q, hp4q,
    if_pos ⟨hAq, by rw [hAp4]; simp, hp4slash⟩]

end PKSpec

namespace PKSpec

/-- Literal form of `//`. -/
theorem str_unc : str ("//") = ['/', '/'] := by decide

/-- Literal form of `//./`. -/
theorem str_uncds : str ("//./") = ['/', '/', '.', '/'] := by decide

/-- The split of a leading `./`. -/
theorem splitSlash_dotslash_cons (x : Str) :
    splitSlash ('.' :: '/' :: x) = ['.'] :: splitSlash x :=
  splitSlash_seg_slash ['.'] x (by decide)

/-- Testing a double-slash string for the `//./` prefix tests its body
for `./`. -/
theorem startsWith_unc_dotslash (x : Str) :
    jsStartsWith ('/' :: '/' :: x) (str ("//./")) =
      List.isPrefixOf ['.', '/'] x := rfl

/-- `normalize` is the identity on a `//`-led `p4` stage value. -/
theorem normalize_p4v_unc (cs : List Str) (k : Nat) (tb : Bool)
    (hcs : ∀ s ∈ cs, clean s) (hne : cs ++ List.replicate k dd ≠ [])
    (hdrv : tb = false → ¬ (PK.driveLetterRe (joined cs k) = true ∧
      (joined cs k).length = 2)) :
    PK.normalize ('/' :: '/' :: p4v cs k tb) =
      '/' :: '/' :: p4v cs k tb := by
  obtain ⟨s0, t2, hq, hs0ne, hs0sl, hs0bs, hs0dot, hs0dd⟩ :=
    p4v_struct cs k tb hcs hne
  have hp2ne : joined cs k ≠ [] := joined_ne_nil cs k hcs hne
  have hend : jsEndsWith (joined cs k) (str ("/")) = false :=
    joined_not_endsWith_slash cs k hcs hne
  have hqne0 : ¬ ('/' :: '/' :: p4v cs k tb).length = 0 := by simp
  have hbsq : bslash ∉ '/' :: '/' :: p4v cs k tb := by
    intro hm
    rcases List.mem_cons.mp hm with h | h
    · exact absurd h (by decide)
    · rcases List.mem_cons.mp h with h2 | h2
      · exact absurd h2 (by decide)
      · exact bslash_not_mem_p4v cs k tb hcs h2
  have hlds : lowerDriveSlash ('/' :: '/' :: p4v cs k tb) = false :=
    lowerDriveSlash_slash _
  have hp1q : p1of ('/' :: '/' :: p4v cs k tb) = '/' :: '/' :: p4v cs k tb :=
    p1of_eq_self _ hbsq hlds
  have haar : k ≠ 0 →
      PK.isAbsoluteRe ('/' :: '/' :: p4v cs k tb) = false := by
    intro hk
    rw [hq, hs0dd hk]
    exact isAbsoluteRe_unc_dot _
  have hp2q : p2of ('/' :: '/' :: p4v cs k tb) = joined cs k :=
    p2of_reproduce _ cs k [[], []] tb hcs
      (by rw [splitSlash_slash_cons, splitSlash_slash_cons,
        splitSlash_p4v cs k tb hcs hne]; rfl)
      (by intro s hs
          rcases List.mem_cons.mp hs with h | h
          · exact Or.inl h
          · exact Or.inl (List.mem_singleton.mp h))
      haar hp1q
  have hTq : jsEndsWith (p1of ('/' :: '/' :: p4v cs k tb)) (str ("/")) = tb := by
    rw [hp1q,
      show '/' :: '/' :: p4v cs k tb = ['/', '/'] ++ p4v cs k tb from rfl]
    exact jsEndsWith_prefix_p4v ['/', '/'] cs k tb hcs hne
  have hp4q : p4of ('/' :: '/' :: p4v cs k tb) = p4v cs k tb := by
    unfold p4of
    rw [hp2q, hTq, mkP4_of_tb _ hend tb hdrv]
    rfl
  have hsw4 : jsStartsWith ('/' :: '/' :: p4v cs k tb) (str ("//./")) =
      false := by
    rw [startsWith_unc_dotslash, hq]
    exact not_isPrefixOf_dotslash s0 t2 hs0ne hs0sl hs0dot
  have hsw : jsStartsWith (p4v cs k tb) (str ("/")) = false := by
    rw [hq]
    exact not_startsWith_slash s0 t2 hs0ne hs0sl
  rw [normalize_eq _ hqne0,
    if_neg (by rw [hp2q]; exact fun h => hp2ne (List.length_eq_zero.mp h))]
  have hrb : PK.replaceBackslashes ('/' :: '/' :: p4v cs k tb) =
      '/' :: '/' :: p4v cs k tb := replaceBackslashes_id _ hbsq
  have hswu : jsStartsWith ('/' :: '/' :: p4v cs k tb) (str ("//")) =
      true := by
    rw [str_unc]
    exact jsStartsWith_append_self ['/', '/'] (p4v cs k tb)
  rw [hrb, uncRe_slash_slash, if_pos rfl, hsw4, if_neg (by simp),
    if_pos ⟨hswu, by simp⟩, hp4q, hsw, if_neg (by simp), str_unc]
  rfl

/-- `normalize` is the identity on a `//./`-led `p4` stage value. -/
theorem normalize_p4v_uncdot (cs : List Str) (k : Nat) (tb : Bool)
    (hcs : ∀ s ∈ cs, clean s) (hne : cs ++ List.replicate k dd ≠ [])
    (hdrv : tb = false → ¬ (PK.driveLetterRe (joined cs k) = true ∧
      (joined cs k).length = 2)) :
    PK.normalize ('/' :: '/' :: '.' :: '/' :: p4v cs k tb) =
      '/' :: '/' :: '.' :: '/' :: p4v cs k tb := by
  obtain ⟨s0, t2, hq, hs0ne, hs0sl, hs0bs, hs0dot, hs0dd⟩ :=
    p4v_struct cs k tb hcs hne
  have hp2ne : joined cs k ≠ [] := joined_ne_nil cs k hcs hne
  have hend : jsEndsWith (joined cs k) (str ("/")) = false :=
    joined_not_endsWith_slash cs k hcs hne
  have hqne0 : ¬ ('/' :: '/' :: '.' :: '/' :: p4v cs k tb).length = 0 := by
    simp
  have hbsq : bslash ∉ '/' :: '/' :: '.' :: '/' :: p4v cs k tb := by
    intro hm
    rcases List.mem_cons.mp hm with h | h
    · exact absurd h (by decide)
    · rcases List.mem_cons.mp h with h | h
      · exact absurd h (by decide)
      · rcases List.mem_cons.mp h with h | h
        · exact absurd h (by decide)
        · rcases List.mem_cons.mp h with h | h
          · exact absurd h (by decide)
          · exact bslash_not_mem_p4v cs k tb hcs h
  have hlds : lowerDriveSlash ('/' :: '/' :: '.' :: '/' :: p4v cs k tb) =
      false := lowerDriveSlash_slash _
  have hp1q : p1of ('/' :: '/' :: '.' :: '/' :: p4v cs k tb) =
      '/' :: '/' :: '.' :: '/' :: p4v cs k tb := p1of_eq_self _ hbsq hlds
  have haar : k ≠ 0 →
      PK.isAbsoluteRe ('/' :: '/' :: '.' :: '/' :: p4v cs k tb) = false :=
    fun _ => isAbsoluteRe_unc_dot _
  have hp2q : p2of ('/' :: '/' :: '.' :: '/' :: p4v cs k tb) =
      joined cs k :=
    p2of_reproduce _ cs k [[], [], ['.']] tb hcs
      (by rw [splitSlash_slash_cons, splitSlash_slash_cons,
        splitSlash_dotslash_cons, splitSlash_p4v cs k tb hcs hne]; rfl)
      (by intro s hs
          rcases List.mem_cons.mp hs with h | h
          · exact Or.inl h
          · rcases List.mem_cons.mp h with h | h
            · exact Or.inl h
            · exact Or.inr (List.mem_singleton.mp h))
      haar hp1q
  have hTq : jsEndsWith (p1of ('/' :: '/' :: '.' :: '/' :: p4v cs k tb))
      (str ("/")) = tb := by
    rw [hp1q,
      show '/' :: '/' :: '.' :: '/' :: p4v cs k tb =
        ['/', '/', '.', '/'] ++ p4v cs k tb from rfl]
    exact jsEndsWith_prefix_p4v ['/', '/', '.', '/'] cs k tb hcs hne
  have hp4q : p4of ('/' :: '/' :: '.' :: '/' :: p4v cs k tb) =
      p4v cs k tb := by
    unfold p4of
    rw [hp2q, hTq, mkP4_of_tb _ hend tb hdrv]
    rfl
  have hsw : jsStartsWith (p4v cs k tb) (str ("/")) = false := by
    rw [hq]
    exact not_startsWith_slash s0 t2 hs0ne hs0sl
  rw [normalize_eq _ hqne0,
    if_neg (by rw [hp2q]; exact fun h => hp2ne (List.length_eq_zero.mp h))]
  have hrb : PK.replaceBackslashes ('/' :: '/' :: '.' :: '/' :: p4v cs k tb) =
      '/' :: '/' :: '.' :: '/' :: p4v cs k tb := replaceBackslashes_id _ hbsq
  have hswu : jsStartsWith ('/' :: '/' :: '.' :: '/' :: p4v cs k tb)
      (str ("//./")) = true := by
    rw [str_uncds]
    exact jsStartsWith_append_self ['/', '/', '.', '/'] (p4v cs k tb)
  rw [hrb, uncRe_slash_slash, if_pos rfl, if_pos hswu, hp4q, hsw,
    if_neg (by simp), str_uncds]
  rfl

end PKSpec

namespace PKSpec

/-- Branch-free packaging of the `p4` stage of a first `normalize`
pass: it is a `p4v` form over the good stack, and the bare-drive test
failed whenever no slash was appended. -/
theorem p4of_form (p : Str) (cs : List Str) (k : Nat)
    (hp2 : p2of p = joinRev (cs ++ List.replicate k dd))
    (hend : jsEndsWith (p2of p) (str ("/")) = false) :
    ∃ tb, p4of p = p4v cs k tb ∧ (tb = false →
      ¬ (PK.driveLetterRe (joined cs k) = true ∧
        (joined cs k).length = 2)) := by
  have hjoin : joined cs k = p2of p := by
    unfold joined
    rw [hp2]
  unfold p4of
  rcases mkP4_form (p2of p) hend (jsEndsWith (p1of p) (str ("/"))) with
    ⟨hm, hd⟩ | hm
  · refine ⟨false, ?_, fun _ => ?_⟩
    · rw [hm]
      unfold p4v
      rw [if_neg (by simp), hjoin]
    · rw [hjoin]
      exact hd
  · refine ⟨true, ?_, fun hf => absurd hf (by simp)⟩
    rw [hm]
    unfold p4v
    rw [if_pos rfl, hjoin]

/-- `normalize` is idempotent on every input whose normalized form
does not begin with a lowercase drive letter followed by `:/`. -/
theorem normalize_idempotent_of_not_lowerDrive (p : Str)
    (h : lowerDriveSlash (PK.normalize p) = false) :
    PK.normalize (PK.normalize p) = PK.normalize p := by
  by_cases hp0 : p.length = 0
  · have hpn : p = [] := List.length_eq_zero.mp hp0
    subst hpn
    decide
  · rw [normalize_eq p hp0] at h ⊢
    by_cases h2 : (p2of p).length = 0
    · rw [if_pos h2] at h ⊢
      by_cases hA : PK.isAbsoluteRe (p1of p) = true
      · rw [if_pos hA] at h ⊢
        decide
      · rw [if_neg hA] at h ⊢
        by_cases hT : jsEndsWith (p1of p) (str ("/")) = true ∧
            p.length > 0 ∧ p ≠ str (".")
        · rw [if_pos hT] at h ⊢
          decide
        · rw [if_neg hT] at h ⊢
          decide
    · rw [if_neg h2] at h ⊢
      obtain ⟨cs, k, hp2, hcs, hkA⟩ := p2of_good p
      have hne : cs ++ List.replicate k dd ≠ [] := by
        intro hnil
        apply h2
        rw [hp2, hnil]
        rfl
      have hend : jsEndsWith (p2of p) (str ("/")) = false := by
        rw [hp2]
        exact jsEndsWith_joinRev_slash _ (segsWF_good cs k hcs) hne
      obtain ⟨tb, hp4, hdrv⟩ := p4of_form p cs k hp2 hend
      rw [hp4] at h ⊢
      obtain ⟨s0, t2, hq, hs0ne, hs0sl, _, _, _⟩ :=
        p4v_struct cs k tb hcs hne
      have hsw : jsStartsWith (p4v cs k tb) (str ("/")) = false := by
        rw [hq]
        exact not_startsWith_slash s0 t2 hs0ne hs0sl
      by_cases hU : PK.uncRe (PK.replaceBackslashes p) = true
      · rw [if_pos hU] at h ⊢
        by_cases hU4 : jsStartsWith (PK.replaceBackslashes p)
            (str ("//./")) = true
        · rw [if_pos hU4] at h ⊢
          rw [hsw, if_neg (by simp), str_uncds] at h ⊢
          show PK.normalize ('/' :: '/' :: '.' :: '/' :: p4v cs k tb) = _
          rw [normalize_p4v_uncdot cs k tb hcs hne hdrv]
          rfl
        · rw [if_neg hU4] at h ⊢
          by_cases hU2 : jsStartsWith (PK.replaceBackslashes p)
              (str ("//")) = true ∧
              ¬ jsStartsWith (PK.replaceBackslashes p) (str ("//./")) = true
          · rw [if_pos hU2] at h ⊢
            rw [hsw, if_neg (by simp), str_unc] at h ⊢
            show PK.normalize ('/' :: '/' :: p4v cs k tb) = _
            rw [normalize_p4v_unc cs k tb hcs hne hdrv]
            rfl
          · rw [if_neg hU2] at h ⊢
            by_cases h3 : PK.isAbsoluteRe (p1of p) = true ∧
                ¬ PK.isAbsoluteRe (p4v cs k tb) = true ∧
                p4v cs k tb ≠ str ("/")
            · rw [if_pos h3] at h ⊢
              have hAp4 : PK.isAbsoluteRe (p4v cs k tb) = false := by
                cases hx : PK.isAbsoluteRe (p4v cs k tb) with
                | false => rfl
                | true => exact absurd hx h3.2.1
              exact normalize_p4v_rooted cs k tb hcs hne (hkA h3.1) hAp4 hdrv
            · rw [if_neg h3] at h ⊢
              exact normalize_p4v_plain cs k tb hcs hne h hdrv
      · rw [if_neg hU] at h ⊢
        by_cases h3 : PK.isAbsoluteRe (p1of p) = true ∧
            ¬ PK.isAbsoluteRe (p4v cs k tb) = true ∧
            p4v cs k tb ≠ str ("/")
        · rw [if_pos h3] at h ⊢
          have hAp4 : PK.isAbsoluteRe (p4v cs k tb) = false := by
            cases hx : PK.isAbsoluteRe (p4v cs k tb) with
            | false => rfl
            | true => exact absurd hx h3.2.1
          exact normalize_p4v_rooted cs k tb hcs hne (hkA h3.1) hAp4 hdrv
        · rw [if_neg h3] at h ⊢
          exact normalize_p4v_plain cs k tb hcs hne h hdrv

end PKSpec

/-- C7 (amended): normalize is idempotent on every path whose
normalized form does not begin with a lowercase drive letter followed
by `:/`; the unrestricted claim is refuted by `c7_counterexample`. -/
theorem c7_normalize_idempotent (p : Str)
    (h : PKSpec.lowerDriveSlash (PK.normalize p) = false) :
    PK.normalize (PK.normalize p) = PK.normalize p :=
  PKSpec.normalize_idempotent_of_not_lowerDrive p h

/-- Witness for the amended C7 theorem at a concrete path exercising
collapse of `//`, `..` and a trailing dot segment. -/
theorem c7_witness :
    PKSpec.lowerDriveSlash
      (PK.normalize (str ("/foo/bar//baz/asdf/quux/.."))) = false ∧
    PK.normalize (PK.normalize (str ("/foo/bar//baz/asdf/quux/.."))) =
      PK.normalize (str ("/foo/bar//baz/asdf/quux/..")) :=
  ⟨by decide, c7_normalize_idempotent (str ("/foo/bar//baz/asdf/quux/..")) (by decide)⟩

namespace PKSpec

/-- A segment fit for a plain absolute path: non-empty and free of
slashes, backslashes, dots and colons. -/
def plainSeg (seg : Str) : Prop :=
  seg ≠ [] ∧ ∀ c ∈ seg, c ≠ '/' ∧ c ≠ bslash ∧ c ≠ '.' ∧ c ≠ ':'

instance plainSegDecidable (seg : Str) : Decidable (plainSeg seg) := by
  unfold plainSeg
  infer_instance

/-- A plain absolute path: a slash followed by plain segments joined
with slashes. -/
def plainAbs (s : Str) : Prop :=
  ∃ L, L ≠ [] ∧ (∀ seg ∈ L, plainSeg seg) ∧ s = '/' :: joinSlash L

/-- A segment that is non-empty and free of slashes, backslashes and
colons (double dots allowed). -/
def nsSeg (seg : Str) : Prop :=
  seg ≠ [] ∧ ∀ c ∈ seg, c ≠ '/' ∧ c ≠ bslash ∧ c ≠ ':'

/-- Plain segments are colon-free segments. -/
theorem plainSeg_nsSeg {seg : Str} (h : plainSeg seg) : nsSeg seg :=
  ⟨h.1, fun c hc => ⟨(h.2 c hc).1, (h.2 c hc).2.1, (h.2 c hc).2.2.2⟩⟩

/-- The double dot is a colon-free segment. -/
theorem nsSeg_dd : nsSeg dd := by
  refine ⟨by decide, ?_⟩
  intro c hc
  rcases List.mem_cons.mp hc with h | h
  · rw [h]; exact ⟨by decide, by decide, by decide⟩
  · rw [List.mem_singleton.mp h]
    exact ⟨by decide, by decide, by decide⟩

/-- Plain segments are clean. -/
theorem plainSeg_clean {seg : Str} (h : plainSeg seg) : clean seg := by
  refine ⟨h.1, ?_, ?_, ?_, ?_⟩
  · intro hm; exact (h.2 '/' hm).1 rfl
  · intro hm; exact (h.2 bslash hm).2.1 rfl
  · intro heq
    rw [heq] at h
    exact (h.2 '.' (List.mem_cons_self _ _)).2.2.1 rfl
  · intro heq
    rw [heq] at h
    exact (h.2 '.' (List.mem_cons_self _ _)).2.2.1 rfl

/-- Characters absent from all pieces and distinct from the slash are
absent from the join. -/
theorem not_mem_joinSlash {c : Char} (L : List Str) (hc : c ≠ '/')
    (h : ∀ s ∈ L, c ∉ s) : c ∉ joinSlash L := by
  intro hm
  rcases mem_joinSlash L hm with h1 | ⟨s, hs, hcs⟩
  · exact hc h1
  · exact h s hs hcs

/-- The common-prefix count is at most the left length. -/
theorem ccs_le_left (a b : List Str) :
    PK.commonSegmentsCount a b ≤ a.length := by
  induction a generalizing b with
  | nil =>
    cases b <;> simp [PK.commonSegmentsCount]
  | cons x xs ih =>
    cases b with
    | nil => simp [PK.commonSegmentsCount]
    | cons y ys =>
      unfold PK.commonSegmentsCount
      by_cases hxy : x = y
      · rw [if_pos hxy]
        have := ih ys
        simp
        omega
      · rw [if_neg hxy]
        simp

/-- The common-prefix count is at most the right length. -/
theorem ccs_le_right (a b : List Str) :
    PK.commonSegmentsCount a b ≤ b.length := by
  induction a generalizing b with
  | nil =>
    cases b <;> simp [PK.commonSegmentsCount]
  | cons x xs ih =>
    cases b with
    | nil => simp [PK.commonSegmentsCount]
    | cons y ys =>
      unfold PK.commonSegmentsCount
      by_cases hxy : x = y
      · rw [if_pos hxy]
        have := ih ys
        simp
        omega
      · rw [if_neg hxy]
        simp

/-- The common prefixes of the counted length agree. -/
theorem ccs_take_eq (a b : List Str) :
    a.take (PK.commonSegmentsCount a b) =
      b.take (PK.commonSegmentsCount a b) := by
  induction a generalizing b with
  | nil => cases b <;> simp [PK.commonSegmentsCount]
  | cons x xs ih =>
    cases b with
    | nil => simp [PK.commonSegmentsCount]
    | cons y ys =>
      unfold PK.commonSegmentsCount
      by_cases hxy : x = y
      · rw [if_pos hxy]
        rw [List.take_succ_cons, List.take_succ_cons, hxy, ih ys]
      · rw [if_neg hxy]
        simp

/-- Lists agreeing on a full-length common prefix are equal. -/
theorem ccs_full_eq (a b : List Str)
    (h1 : PK.commonSegmentsCount a b = a.length)
    (h2 : PK.commonSegmentsCount a b = b.length) : a = b := by
  have ht := ccs_take_eq a b
  rw [h1, List.take_length] at ht
  rw [ht, show a.length = b.length from by omega, List.take_length]

end PKSpec

namespace PKSpec

/-- A non-slashy head with a non-colon second character is never
absolute. -/
theorem isAbsoluteRe_twochar_false (c0 c1 : Char) (rest : Str)
    (h0 : c0 ≠ '/') (h0b : c0 ≠ bslash) (h1 : c1 ≠ ':') :
    PK.isAbsoluteRe (c0 :: c1 :: rest) = false := by
  simp [PK.isAbsoluteRe, PK.isSlashy, h0, h0b, h1]

/-- A single non-slashy character is never absolute. -/
theorem isAbsoluteRe_single_false (c0 : Char) (h0 : c0 ≠ '/')
    (h0b : c0 ≠ bslash) : PK.isAbsoluteRe [c0] = false := by
  simp [PK.isAbsoluteRe, PK.isSlashy, h0, h0b]

/-- The join of colon-free segments is never absolute. -/
theorem isAbsoluteRe_nsBody (L : List Str) (hL : ∀ s ∈ L, nsSeg s)
    (hne : L ≠ []) : PK.isAbsoluteRe (joinSlash L) = false := by
  cases L with
  | nil => exact absurd rfl hne
  | cons s0 L2 =>
    obtain ⟨hs0ne, hs0c⟩ := hL s0 (List.mem_cons_self _ _)
    cases s0 with
    | nil => exact absurd rfl hs0ne
    | cons c0 s1 =>
      have hc0 := hs0c c0 (List.mem_cons_self _ _)
      rw [joinSlash_cons]
      cases s1 with
      | nil =>
        by_cases hL2 : L2 = []
        · rw [if_pos hL2]
          exact isAbsoluteRe_single_false c0 hc0.1 hc0.2.1
        · rw [if_neg hL2]
          exact isAbsoluteRe_twochar_false c0 '/' _ hc0.1 hc0.2.1 (by decide)
      | cons c1 s2 =>
        have hc1 := hs0c c1 (List.mem_cons_of_mem _ (List.mem_cons_self _ _))
        show PK.isAbsoluteRe (c0 :: c1 :: ((s2 ++ _) : Str)) = false
        exact isAbsoluteRe_twochar_false c0 c1 _ hc0.1 hc0.2.1 hc1.2.2

/-- A colon-free string never passes the bare-drive test. -/
theorem driveLetterRe_of_no_colon (s : Str) (h : ':' ∉ s) :
    PK.driveLetterRe s = false := by
  cases s with
  | nil => rfl
  | cons c1 s1 =>
    cases s1 with
    | nil => rfl
    | cons c2 s2 =>
      cases s2 with
      | nil =>
        have hc2 : c2 ≠ ':' := by
          intro hc
          apply h
          rw [← hc]
          exact List.mem_cons_of_mem _ (List.mem_cons_self _ _)
        show (decide (c1.isAlpha = true ∧ c2 = ':')) = false
        simp [hc2]
      | cons c3 s3 => rfl

/-- A colon-free string never matches the lowercase drive pattern. -/
theorem lowerDriveSlash_of_no_colon (s : Str) (h : ':' ∉ s) :
    lowerDriveSlash s = false := by
  cases s with
  | nil => rfl
  | cons c1 s1 =>
    cases s1 with
    | nil => rfl
    | cons c2 s2 =>
      cases s2 with
      | nil => rfl
      | cons c3 s3 =>
        have hc2 : c2 ≠ ':' := by
          intro hc
          apply h
          rw [← hc]
          exact List.mem_cons_of_mem _ (List.mem_cons_self _ _)
        show (c1.isLower && c2 = ':' && c3 = '/') = false
        have : (decide (c2 = ':')) = false := by
          simp [hc2]
        rw [this]
        rw [Bool.and_false, Bool.false_and]

/-- The root-folder rewrite fixes slash-led paths with a colon-free
non-empty body. -/
theorem rootFolderReplace_id (body : Str) (hne : body ≠ [])
    (h : ':' ∉ body) : PK.rootFolderReplace ('/' :: body) = '/' :: body := by
  unfold PK.rootFolderReplace
  cases body with
  | nil => exact absurd rfl hne
  | cons c1 s1 =>
    cases s1 with
    | nil => rfl
    | cons c2 s2 =>
      cases s2 with
      | nil =>
        have hc2 : c2 ≠ ':' := by
          intro hc
          apply h
          rw [← hc]
          exact List.mem_cons_of_mem _ (List.mem_cons_self _ _)
        show (if c1.isAlpha = true ∧ c2 = ':' then [c1, c2]
          else ['/', c1, c2]) = ['/', c1, c2]
        rw [if_neg (fun hand => hc2 hand.2)]
      | cons c3 s3 => rfl

/-- Splitting a join of slash-free segments followed by a slash and a
remainder peels all the segments. -/
theorem splitSlash_join_append (L : List Str) (hL : ∀ s ∈ L, '/' ∉ s)
    (hne : L ≠ []) (z : Str) :
    splitSlash (joinSlash L ++ '/' :: z) = L ++ splitSlash z := by
  induction L with
  | nil => exact absurd rfl hne
  | cons s L2 ih =>
    cases L2 with
    | nil =>
      show splitSlash (s ++ '/' :: z) = s :: splitSlash z
      exact splitSlash_seg_slash s z (hL s (List.mem_cons_self _ _))
    | cons t ts =>
      have hassoc : joinSlash (s :: t :: ts) ++ '/' :: z =
          s ++ '/' :: (joinSlash (t :: ts) ++ '/' :: z) := by
        show (s ++ '/' :: joinSlash (t :: ts)) ++ '/' :: z = _
        simp
      rw [hassoc,
        splitSlash_seg_slash _ _ (hL s (List.mem_cons_self _ _)),
        ih (fun x hx => hL x (List.mem_cons_of_mem _ hx))
          (List.cons_ne_nil _ _)]
      rfl

/-- A resolve step with the flag already set does nothing. -/
theorem resolveStep_done (acc : Str × Bool) (h : acc.2 = true)
    (y : Str) : PK.resolveStep acc y = acc := by
  unfold PK.resolveStep
  rw [if_pos h]

/-- Resolve folding stops once the flag is set. -/
theorem foldl_resolve_done (acc : Str × Bool) (h : acc.2 = true)
    (l : List Str) : List.foldl PK.resolveStep acc l = acc := by
  induction l with
  | nil => rfl
  | cons y ys ih =>
    show List.foldl PK.resolveStep (PK.resolveStep acc y) ys = acc
    rw [resolveStep_done acc h y, ih]

/-- A resolve step on a non-empty path with the flag unset prepends the
normalized path. -/
theorem resolveStep_go (s : Str) (y : Str) (hy : ¬ y.length = 0) :
    PK.resolveStep (s, false) y =
      (PK.normalizeWindowsPath y ++ '/' :: s,
        PK.isAbsoluteRe (PK.normalizeWindowsPath y)) := by
  unfold PK.resolveStep
  rw [if_neg (by simp), if_neg hy]

end PKSpec

namespace PKSpec

/-- Basic consequences of the plain absolute path shape. -/
theorem plainAbs_parts (x : Str) (L : List Str) (hLne : L ≠ [])
    (hLseg : ∀ seg ∈ L, plainSeg seg) (hxeq : x = '/' :: joinSlash L) :
    ¬ x.length = 0 ∧ PK.normalizeWindowsPath x = x ∧
      PK.isAbsoluteRe x = true ∧ ':' ∉ joinSlash L ∧ joinSlash L ≠ [] ∧
      (∀ s ∈ L, '/' ∉ s) := by
  have hsl : ∀ s ∈ L, '/' ∉ s :=
    fun s hs hm => ((hLseg s hs).2 '/' hm).1 rfl
  have hcol : ':' ∉ joinSlash L :=
    not_mem_joinSlash L (by decide)
      (fun s hs hm => ((hLseg s hs).2 ':' hm).2.2.2 rfl)
  have hbsb : bslash ∉ joinSlash L :=
    not_mem_joinSlash L (by decide)
      (fun s hs hm => ((hLseg s hs).2 bslash hm).2.1 rfl)
  have hbody_ne : joinSlash L ≠ [] := by
    cases L with
    | nil => exact absurd rfl hLne
    | cons s0 L2 =>
      exact joinSlash_ne_nil s0 L2 (hLseg s0 (List.mem_cons_self _ _)).1
  have hxbs : bslash ∉ x := by
    rw [hxeq]
    intro hm
    rcases List.mem_cons.mp hm with h | h
    · exact absurd h (by decide)
    · exact hbsb h
  have hnws : PK.normalizeWindowsPath x = x := by
    have h1 := p1of_eq_self x hxbs (by rw [hxeq]; exact lowerDriveSlash_slash _)
    unfold p1of at h1
    exact h1
  have hA : PK.isAbsoluteRe x = true := by
    rw [hxeq]
    cases L with
    | nil => exact absurd rfl hLne
    | cons s0 L2 =>
      obtain ⟨hs0ne, hs0c⟩ := hLseg s0 (List.mem_cons_self _ _)
      cases s0 with
      | nil => exact absurd rfl hs0ne
      | cons c0 s1 =>
        rw [joinSlash_cons]
        show PK.isAbsoluteRe ('/' :: c0 :: (s1 ++ _)) = true
        exact isAbsoluteRe_slash_cons c0 _
          (fun hc => (hs0c c0 (List.mem_cons_self _ _)).1 hc)
          (fun hc => (hs0c c0 (List.mem_cons_self _ _)).2.1 hc)
  refine ⟨?_, hnws, hA, hcol, hbody_ne, hsl⟩
  rw [hxeq]
  simp

/-- The collapse of a plain absolute path with a trailing slash
recovers the body, for either above-root mode. -/
theorem normalizeString_plain (x : Str) (L : List Str) (hLne : L ≠ [])
    (hLseg : ∀ seg ∈ L, plainSeg seg) (hxeq : x = '/' :: joinSlash L)
    (aarB : Bool) :
    PK.normalizeString (x ++ ['/']) aarB = joinSlash L := by
  obtain ⟨_, _, _, _, _, hsl⟩ := plainAbs_parts x L hLne hLseg hxeq
  rw [normalizeString_spec]
  have hsplit : splitSlash (x ++ ['/']) =
      ([([] : Str)] ++ L) ++ [([] : Str)] := by
    rw [hxeq]
    show splitSlash ('/' :: (joinSlash L ++ ['/'])) = _
    rw [splitSlash_slash_cons, splitSlash_append_slash,
      splitSlash_joinSlash L hsl hLne]
    rfl
  rw [hsplit, collapseList_append, collapseList_append,
    collapseList_skips aarB [([] : Str)]
      (fun s hs => Or.inl (List.mem_singleton.mp hs)) [],
    collapseList_push_cleans aarB L []
      (fun s hs => plainSeg_clean (hLseg s hs)),
    collapseList_single_nil]
  unfold joinRev
  rw [List.append_nil, List.reverse_reverse]

/-- `resolve` is the identity on plain absolute paths, for any working
directory. -/
theorem resolve_plain (cwdS x : Str) (hx : plainAbs x) :
    PK.resolve cwdS [x] = x := by
  obtain ⟨L, hLne, hLseg, hxeq⟩ := hx
  obtain ⟨hx0, hnws, hA, hcol, hbody_ne, hsl⟩ :=
    plainAbs_parts x L hLne hLseg hxeq
  unfold PK.resolve
  have hfold : List.foldl PK.resolveStep ([], false)
      ([x].reverse ++ [PK.cwdFn cwdS]) = (x ++ ['/'], true) := by
    show List.foldl PK.resolveStep (PK.resolveStep ([], false) x)
      [PK.cwdFn cwdS] = _
    rw [resolveStep_go [] x hx0, hnws, hA]
    exact foldl_resolve_done _ rfl _
  rw [hfold]
  show (if PK.isAbsoluteRe (PK.normalizeString (x ++ ['/']) false) = true
      then PK.normalizeString (x ++ ['/']) false
      else '/' :: PK.normalizeString (x ++ ['/']) false) = x
  rw [normalizeString_plain x L hLne hLseg hxeq false,
    isAbsoluteRe_nsBody L (fun s hs => plainSeg_nsSeg (hLseg s hs)) hLne,
    if_neg (by simp)]
  exact hxeq.symm

end PKSpec

namespace PKSpec

/-- The filtered segment list of a plain absolute path. -/
theorem filter_segments_plain (x : Str) (L : List Str) (hLne : L ≠ [])
    (hLseg : ∀ seg ∈ L, plainSeg seg) (hxeq : x = '/' :: joinSlash L) :
    (splitSlash (PK.rootFolderReplace x)).filter (fun s => s ≠ []) = L := by
  obtain ⟨_, _, _, hcol, hbody_ne, hsl⟩ := plainAbs_parts x L hLne hLseg hxeq
  have hroot : PK.rootFolderReplace x = x := by
    rw [hxeq]
    exact rootFolderReplace_id _ hbody_ne hcol
  rw [hroot, hxeq]
  show (splitSlash ('/' :: joinSlash L)).filter (fun s => decide (s ≠ [])) = L
  rw [splitSlash_slash_cons, splitSlash_joinSlash L hsl hLne]
  have h0 : List.filter (fun s => decide (s ≠ [])) (([] : Str) :: L) =
      List.filter (fun s => decide (s ≠ [])) L := by simp
  rw [h0]
  exact List.filter_eq_self.mpr (fun s hs => by simp [(hLseg s hs).1])

/-- `relative` on distinct plain absolute resolved paths produces the
up-segments followed by the tail of the target. -/
theorem relativeResolved_plain (fromP toP : Str) (LF LT : List Str)
    (hFne : LF ≠ []) (hFseg : ∀ s ∈ LF, plainSeg s)
    (hfeq : fromP = '/' :: joinSlash LF)
    (hTne : LT ≠ []) (hTseg : ∀ s ∈ LT, plainSeg s)
    (hteq : toP = '/' :: joinSlash LT)
    (hne : fromP ≠ toP) :
    PK.relativeResolved fromP toP =
      joinSlash
        (List.replicate (LF.length - PK.commonSegmentsCount LF LT) dd ++
          LT.drop (PK.commonSegmentsCount LF LT)) := by
  have hfilterF := filter_segments_plain fromP LF hFne hFseg hfeq
  have hfilterT := filter_segments_plain toP LT hTne hTseg hteq
  have hrelne : joinSlash
      (List.replicate (LF.length - PK.commonSegmentsCount LF LT) dd ++
        LT.drop (PK.commonSegmentsCount LF LT)) ≠ [] := by
    cases hmk : LF.length - PK.commonSegmentsCount LF LT with
    | succ m2 =>
      rw [List.replicate_succ]
      exact joinSlash_ne_nil dd _ (by decide)
    | zero =>
      rw [show List.replicate 0 dd = ([] : List Str) from rfl]
      cases hD : LT.drop (PK.commonSegmentsCount LF LT) with
      | nil =>
        exfalso
        have h1 : PK.commonSegmentsCount LF LT ≤ LF.length :=
          ccs_le_left LF LT
        have h2 : PK.commonSegmentsCount LF LT ≤ LT.length :=
          ccs_le_right LF LT
        have h3 : LT.length - PK.commonSegmentsCount LF LT = 0 := by
          have := congrArg List.length hD
          simpa using this
        apply hne
        rw [hfeq, hteq, ccs_full_eq LF LT (by omega) (by omega)]
      | cons D0 D2 =>
        show joinSlash (D0 :: D2) ≠ []
        refine joinSlash_ne_nil D0 D2 ?_
        refine (hTseg D0
          (List.drop_subset (PK.commonSegmentsCount LF LT) LT ?_)).1
        rw [hD]
        exact List.mem_cons_self _ _
  have hdm : PK.driveMismatchOf LF LT = false := by
    cases LF with
    | nil => exact absurd rfl hFne
    | cons F0 LF2 =>
      cases LT with
      | nil => exact absurd rfl hTne
      | cons T0 LT2 =>
        show (PK.driveLetterRe F0 && PK.driveLetterRe T0 &&
          decide (F0.map Char.toUpper ≠ T0.map Char.toUpper)) = false
        rw [driveLetterRe_of_no_colon F0 ?_]
        · rw [Bool.false_and, Bool.false_and]
        · intro hm
          exact ((hFseg F0 (List.mem_cons_self _ _)).2 ':' hm).2.2.2 rfl
  unfold PK.relativeResolved
  rw [if_neg hne, hfilterF, hfilterT]
  show (if PK.driveMismatchOf LF LT = true then toP
    else
      if (joinSlash (List.replicate
          (LF.length - PK.commonSegmentsCount LF LT) (str ("..")) ++
        LT.drop (PK.commonSegmentsCount LF LT))).length > 0 then
        joinSlash (List.replicate
          (LF.length - PK.commonSegmentsCount LF LT) (str ("..")) ++
        LT.drop (PK.commonSegmentsCount LF LT))
      else str (".")) = _
  rw [hdm, if_neg (by simp), str_dd,
    if_pos (List.length_pos.mpr hrelne)]

end PKSpec


namespace PKSpec

/-- The collapse of `from` joined with the up and down segments
recovers the common prefix plus the target tail. -/
theorem normalizeString_from_rel (fromP : Str) (LF LT : List Str)
    (hFne : LF ≠ []) (hFseg : ∀ s ∈ LF, plainSeg s)
    (hfeq : fromP = '/' :: joinSlash LF)
    (hTseg : ∀ s ∈ LT, plainSeg s)
    (hlistne : List.replicate (LF.length - PK.commonSegmentsCount LF LT) dd ++
      LT.drop (PK.commonSegmentsCount LF LT) ≠ [])
    (aarB : Bool) :
    PK.normalizeString (fromP ++ '/' ::
        (joinSlash (List.replicate
            (LF.length - PK.commonSegmentsCount LF LT) dd ++
          LT.drop (PK.commonSegmentsCount LF LT)) ++ ['/'])) aarB =
      joinSlash (LF.take (PK.commonSegmentsCount LF LT) ++
        LT.drop (PK.commonSegmentsCount LF LT)) := by
  have hslF : ∀ s ∈ LF, '/' ∉ s :=
    fun s hs hm => ((hFseg s hs).2 '/' hm).1 rfl
  have hns : ∀ s ∈ List.replicate
      (LF.length - PK.commonSegmentsCount LF LT) dd ++
      LT.drop (PK.commonSegmentsCount LF LT), nsSeg s := by
    intro s hs
    rcases List.mem_append.mp hs with h | h
    · rw [List.eq_of_mem_replicate h]
      exact nsSeg_dd
    · exact plainSeg_nsSeg (hTseg s
        (List.drop_subset (PK.commonSegmentsCount LF LT) LT h))
  have hsplitrel : splitSlash
      (joinSlash (List.replicate
          (LF.length - PK.commonSegmentsCount LF LT) dd ++
        LT.drop (PK.commonSegmentsCount LF LT))) =
      List.replicate (LF.length - PK.commonSegmentsCount LF LT) dd ++
        LT.drop (PK.commonSegmentsCount LF LT) :=
    splitSlash_joinSlash _ (fun s hs hm => ((hns s hs).2 '/' hm).1 rfl) hlistne
  rw [normalizeString_spec]
  have hsplit : splitSlash (fromP ++ '/' ::
      (joinSlash (List.replicate
          (LF.length - PK.commonSegmentsCount LF LT) dd ++
        LT.drop (PK.commonSegmentsCount LF LT)) ++ ['/'])) =
      ((([([] : Str)] ++ LF) ++
        List.replicate (LF.length - PK.commonSegmentsCount LF LT) dd) ++
        LT.drop (PK.commonSegmentsCount LF LT)) ++ [([] : Str)] := by
    rw [hfeq]
    show splitSlash ('/' :: (joinSlash LF ++ '/' :: _)) = _
    rw [splitSlash_slash_cons, splitSlash_join_append LF hslF hFne,
      splitSlash_append_slash, hsplitrel]
    simp
  rw [hsplit, collapseList_append, collapseList_append, collapseList_append,
    collapseList_append,
    collapseList_skips aarB [([] : Str)]
      (fun s hs => Or.inl (List.mem_singleton.mp hs)) [],
    collapseList_push_cleans aarB LF []
      (fun s hs => plainSeg_clean (hFseg s hs)),
    collapseList_pop_dds aarB _ (LF.reverse ++ []) ?hlen ?hdd,
    collapseList_push_cleans aarB (LT.drop (PK.commonSegmentsCount LF LT)) _
      (fun s hs => plainSeg_clean (hTseg s
        (List.drop_subset (PK.commonSegmentsCount LF LT) LT hs))),
    collapseList_single_nil]
  case hlen =>
    simp
  case hdd =>
    intro s hs heq
    rw [List.append_nil, List.mem_reverse] at hs
    have := (hFseg s hs).2 '.' (by rw [heq]; exact List.mem_cons_self _ _)
    exact this.2.2.1 rfl
  unfold joinRev
  rw [List.append_nil, List.reverse_append, List.reverse_reverse,
    List.drop_reverse, List.reverse_reverse]
  have hc : LF.length - (LF.length - PK.commonSegmentsCount LF LT) =
      PK.commonSegmentsCount LF LT := by
    have := ccs_le_left LF LT
    omega
  rw [hc]

end PKSpec

namespace PKSpec

/-- `resolve` over a flag-neutral first argument and a plain absolute
path is the absolute path. -/
theorem resolve_skip_then_plain (cwdS x r : Str) (hx : plainAbs x)
    (hr : PK.resolveStep ([], false) r = ([], false)) :
    PK.resolve cwdS [x, r] = x := by
  obtain ⟨L, hLne, hLseg, hxeq⟩ := hx
  obtain ⟨hx0, hnws, hA, _, _, _⟩ := plainAbs_parts x L hLne hLseg hxeq
  unfold PK.resolve
  have hfold : List.foldl PK.resolveStep ([], false)
      ([x, r].reverse ++ [PK.cwdFn cwdS]) = (x ++ ['/'], true) := by
    show List.foldl PK.resolveStep
      (PK.resolveStep (PK.resolveStep ([], false) r) x) [PK.cwdFn cwdS] = _
    rw [hr, resolveStep_go [] x hx0, hnws, hA]
    exact foldl_resolve_done _ rfl _
  rw [hfold]
  show (if PK.isAbsoluteRe (PK.normalizeString (x ++ ['/']) false) = true
      then PK.normalizeString (x ++ ['/']) false
      else '/' :: PK.normalizeString (x ++ ['/']) false) = x
  rw [normalizeString_plain x L hLne hLseg hxeq false,
    isAbsoluteRe_nsBody L (fun s hs => plainSeg_nsSeg (hLseg s hs)) hLne,
    if_neg (by simp)]
  exact hxeq.symm

/-- Resolving `from` against the computed up/down segments lands on
`to`. -/
theorem resolve_from_rel (cwdS fromP toP : Str) (LF LT : List Str)
    (hFne : LF ≠ []) (hFseg : ∀ s ∈ LF, plainSeg s)
    (hfeq : fromP = '/' :: joinSlash LF)
    (hTne : LT ≠ []) (hTseg : ∀ s ∈ LT, plainSeg s)
    (hteq : toP = '/' :: joinSlash LT)
    (hne : fromP ≠ toP) :
    PK.resolve cwdS [fromP,
      joinSlash (List.replicate
          (LF.length - PK.commonSegmentsCount LF LT) dd ++
        LT.drop (PK.commonSegmentsCount LF LT))] = toP := by
  obtain ⟨hx0F, hnwsF, hAF, _, _, _⟩ := plainAbs_parts fromP LF hFne hFseg hfeq
  have hLne2 : LF ≠ LT := by
    intro hL
    apply hne
    rw [hfeq, hteq, hL]
  have hlistne : List.replicate
      (LF.length - PK.commonSegmentsCount LF LT) dd ++
      LT.drop (PK.commonSegmentsCount LF LT) ≠ [] := by
    intro h
    obtain ⟨h1, h2⟩ := List.append_eq_nil.mp h
    have h3 : LF.length - PK.commonSegmentsCount LF LT = 0 := by
      have := congrArg List.length h1
      simpa using this
    have h4 : LT.length - PK.commonSegmentsCount LF LT = 0 := by
      have := congrArg List.length h2
      simpa using this
    have h5 := ccs_le_left LF LT
    have h6 := ccs_le_right LF LT
    exact hLne2 (ccs_full_eq LF LT (by omega) (by omega))
  have hns : ∀ s ∈ List.replicate
      (LF.length - PK.commonSegmentsCount LF LT) dd ++
      LT.drop (PK.commonSegmentsCount LF LT), nsSeg s := by
    intro s hs
    rcases List.mem_append.mp hs with h | h
    · rw [List.eq_of_mem_replicate h]
      exact nsSeg_dd
    · exact plainSeg_nsSeg (hTseg s
        (List.drop_subset (PK.commonSegmentsCount LF LT) LT h))
  have hrelne : joinSlash (List.replicate
      (LF.length - PK.commonSegmentsCount LF LT) dd ++
      LT.drop (PK.commonSegmentsCount LF LT)) ≠ [] := by
    cases hx : List.replicate
        (LF.length - PK.commonSegmentsCount LF LT) dd ++
        LT.drop (PK.commonSegmentsCount LF LT) with
    | nil => exact absurd hx hlistne
    | cons s0 r =>
      exact joinSlash_ne_nil s0 r
        (hns s0 (by rw [hx]; exact List.mem_cons_self _ _)).1
  have hrel0 : ¬ (joinSlash (List.replicate
      (LF.length - PK.commonSegmentsCount LF LT) dd ++
      LT.drop (PK.commonSegmentsCount LF LT))).length = 0 :=
    fun h => hrelne (List.length_eq_zero.mp h)
  have hbs_rel : bslash ∉ joinSlash (List.replicate
      (LF.length - PK.commonSegmentsCount LF LT) dd ++
      LT.drop (PK.commonSegmentsCount LF LT)) :=
    not_mem_joinSlash _ (by decide)
      (fun s hs hm => ((hns s hs).2 bslash hm).2.1 rfl)
  have hcol_rel : ':' ∉ joinSlash (List.replicate
      (LF.length - PK.commonSegmentsCount LF LT) dd ++
      LT.drop (PK.commonSegmentsCount LF LT)) :=
    not_mem_joinSlash _ (by decide)
      (fun s hs hm => ((hns s hs).2 ':' hm).2.2 rfl)
  have hnws_rel : PK.normalizeWindowsPath (joinSlash (List.replicate
      (LF.length - PK.commonSegmentsCount LF LT) dd ++
      LT.drop (PK.commonSegmentsCount LF LT))) =
      joinSlash (List.replicate
        (LF.length - PK.commonSegmentsCount LF LT) dd ++
        LT.drop (PK.commonSegmentsCount LF LT)) := by
    have h1 := p1of_eq_self _ hbs_rel
      (lowerDriveSlash_of_no_colon _ hcol_rel)
    unfold p1of at h1
    exact h1
  have hA_rel : PK.isAbsoluteRe (joinSlash (List.replicate
      (LF.length - PK.commonSegmentsCount LF LT) dd ++
      LT.drop (PK.commonSegmentsCount LF LT))) = false :=
    isAbsoluteRe_nsBody _ hns hlistne
  unfold PK.resolve
  have hfold : List.foldl PK.resolveStep ([], false)
      ([fromP, joinSlash (List.replicate
          (LF.length - PK.commonSegmentsCount LF LT) dd ++
        LT.drop (PK.commonSegmentsCount LF LT))].reverse ++
        [PK.cwdFn cwdS]) =
      (fromP ++ '/' :: (joinSlash (List.replicate
          (LF.length - PK.commonSegmentsCount LF LT) dd ++
        LT.drop (PK.commonSegmentsCount LF LT)) ++ ['/']), true) := by
    show List.foldl PK.resolveStep
      (PK.resolveStep (PK.resolveStep ([], false) _) fromP)
      [PK.cwdFn cwdS] = _
    rw [resolveStep_go [] _ hrel0, hnws_rel, hA_rel,
      resolveStep_go _ fromP hx0F, hnwsF, hAF]
    exact foldl_resolve_done _ rfl _
  rw [hfold]
  show (if PK.isAbsoluteRe (PK.normalizeString (fromP ++ '/' ::
      (joinSlash (List.replicate
          (LF.length - PK.commonSegmentsCount LF LT) dd ++
        LT.drop (PK.commonSegmentsCount LF LT)) ++ ['/'])) false) = true
    then PK.normalizeString (fromP ++ '/' ::
      (joinSlash (List.replicate
          (LF.length - PK.commonSegmentsCount LF LT) dd ++
        LT.drop (PK.commonSegmentsCount LF LT)) ++ ['/'])) false
    else '/' :: PK.normalizeString (fromP ++ '/' ::
      (joinSlash (List.replicate
          (LF.length - PK.commonSegmentsCount LF LT) dd ++
        LT.drop (PK.commonSegmentsCount LF LT)) ++ ['/'])) false) = toP
  rw [normalizeString_from_rel fromP LF LT hFne hFseg hfeq hTseg hlistne false]
  have hTtake : LF.take (PK.commonSegmentsCount LF LT) ++
      LT.drop (PK.commonSegmentsCount LF LT) = LT := by
    rw [ccs_take_eq]
    exact List.take_append_drop _ _
  rw [hTtake,
    isAbsoluteRe_nsBody LT (fun s hs => plainSeg_nsSeg (hTseg s hs)) hTne,
    if_neg (by simp)]
  exact hteq.symm

end PKSpec

/-- C8 (amended): for plain absolute `from` and `to` - slash-led paths
whose segments contain no slashes, backslashes, dots or colons - and
any working directory, resolve(from, relative(from, to)) equals
resolve(to); the unrestricted claim is refuted by `c8_counterexample`,
where a drive-letter path breaks the round trip. -/
theorem c8_resolve_relative_roundtrip (cwdS fromP toP : Str)
    (hf : PKSpec.plainAbs fromP) (ht : PKSpec.plainAbs toP) :
    PK.resolve cwdS [fromP, PK.relative cwdS fromP toP] =
      PK.resolve cwdS [toP] := by
  rw [PKSpec.resolve_plain cwdS toP ht]
  unfold PK.relative
  rw [PKSpec.resolve_plain cwdS fromP hf, PKSpec.resolve_plain cwdS toP ht]
  by_cases heq : fromP = toP
  · have hrel : PK.relativeResolved fromP toP = [] := by
      unfold PK.relativeResolved
      rw [if_pos heq]
    rw [hrel, ← heq]
    exact PKSpec.resolve_skip_then_plain cwdS fromP [] hf rfl
  · obtain ⟨LF, hFne, hFseg, hfeq⟩ := hf
    obtain ⟨LT, hTne, hTseg, hteq⟩ := ht
    rw [PKSpec.relativeResolved_plain fromP toP LF LT hFne hFseg hfeq
      hTne hTseg hteq heq]
    exact PKSpec.resolve_from_rel cwdS fromP toP LF LT hFne hFseg hfeq
      hTne hTseg hteq heq

/-- Witness for the amended C8 theorem: from `/a/b/x`, to `/a/c`, so the
relative path is `../../c` and resolving it against `/a/b/x` gives
`/a/c` again. -/
theorem c8_witness :
    PK.resolve (str ("/w")) [str ("/a/b/x"),
        PK.relative (str ("/w")) (str ("/a/b/x")) (str ("/a/c"))] =
      PK.resolve (str ("/w")) [str ("/a/c")] :=
  c8_resolve_relative_roundtrip (str ("/w")) (str ("/a/b/x")) (str ("/a/c"))
    ⟨[['a'], ['b'], ['x']], by decide, by decide, by decide⟩
    ⟨[['a'], ['c']], by decide, by decide, by decide⟩
